import Mathlib

/-!
Polynomial root solver of `roots/poly.go` (go-hep/exp).

A shallow embedding of `Polynomial`, `sortCmplx`, `min128`, `Poly2`, `Poly3`
and `Poly4`.

Conventions of the embedding.

* `float64` is read as `ℝ` and `complex128` as `ℂ`: the arithmetic of the
  solver is taken as exact real arithmetic.  Rounding, infinities, NaN and
  signed zeros are outside the model.
* A Go `panic` (explicit or raised by the run time) is a value of `Panic`;
  functions that can panic return `Except Panic _`.
* A slice argument that may be `nil` is an `Option (List _)`.
* Functions of the Go standard library (`math.Sqrt`, `math.Cbrt`,
  `math.Cos`, `math.Acos`, `cmplx.Sqrt`, `sort.Slice`) are read as the
  mathematical functions they compute; the eigenvalue routine of gonum, which
  is numerical, is a parameter of `Polynomial`.
* Two decisions of the source hinge on rounded quantities: the cases of
  `Poly3` on `Δ`, and the test `R == 0` of `Poly4` on a value built from what
  `Poly3` returned.  Facts stated of `Poly3` with a hypothesis on the
  discriminant are facts of exact arithmetic, where `Δ` is the discriminant
  of the input.  For the general path of `Poly4` the solver called on the
  resolvent is a parameter (`Poly4With`), so that what is proved holds
  whatever values that call returns.
-/

noncomputable section

namespace Roots

/-- The ways in which the solver can stop with a Go panic. -/
inductive Panic where
  /-- `panic("roots: length mismatch")` in `Polynomial`. -/
  | lengthMismatch
  /-- Run-time panic of `make([]complex128, n)` with `n < 0`. -/
  | makeslice
  /-- Run-time panic of the slice expression `dst[:n]` with `n < 0`. -/
  | sliceBounds
  /-- Run-time panic of an index expression `ps[i]` with `i` out of range. -/
  | indexRange
  /-- `panic(fmt.Errorf("impossible delta=..."))` at the end of `Poly3`. -/
  | impossibleDelta
  deriving DecidableEq

/-! ## Library functions -/

/-- Go `math.Cbrt`: the real cube root, an odd function. -/
def cbrt (x : ℝ) : ℝ :=
  if 0 ≤ x then x ^ ((1 : ℝ) / 3) else -((-x) ^ ((1 : ℝ) / 3))

/-- Go `cmplx.Sqrt` in exact arithmetic: the case split of the library
routine, without its rescaling (which guards against overflow only) and
without the branches for infinities.  A zero imaginary part is read as `+0`,
so `math.Copysign (math.Sqrt (-re)) im` is `math.Sqrt (-re)`. -/
def csqrt (x : ℂ) : ℂ :=
  if x.im = 0 then
    if x.re = 0 then ⟨0, x.im⟩
    else if x.re < 0 then ⟨0, Real.sqrt (-x.re)⟩
    else ⟨Real.sqrt x.re, x.im⟩
  else if x.re = 0 then
    if x.im < 0 then
      let r := Real.sqrt (-0.5 * x.im)
      ⟨r, -r⟩
    else
      let r := Real.sqrt (0.5 * x.im)
      ⟨r, r⟩
  else
    let a := x.re
    let b := x.im
    let r := Real.sqrt (a * a + b * b)
    if a > 0 then
      let t := Real.sqrt (0.5 * r + 0.5 * a)
      let r := |(0.5 * b) / t|
      if b < 0 then ⟨t, -r⟩ else ⟨t, r⟩
    else
      let r := Real.sqrt (0.5 * r - 0.5 * a)
      let t := |(0.5 * b) / r|
      if b < 0 then ⟨t, -r⟩ else ⟨t, r⟩

/-! ## `min128` and `sortCmplx` -/

/-- Source `min128`: compare real parts, and imaginary parts when the real
parts are equal. -/
def min128 (zi zj : ℂ) : Bool :=
  let ri := zi.re
  let rj := zj.re
  if ri = rj then
    let ii := zi.im
    let ij := zj.im
    decide (ii < ij)
  else decide (ri < rj)

/-- Inner loop of the insertion sort that `sort.Slice` runs on short slices:
the new element moves left while it precedes its left neighbour.  The part
already sorted is held in reverse, nearest neighbour first. -/
def sinkLeft (x : ℂ) : List ℂ → List ℂ
  | [] => [x]
  | y :: ys => if min128 x y then y :: sinkLeft x ys else x :: y :: ys

/-- Source `sortCmplx`: `sort.Slice` with `min128` as the less function,
as the insertion sort used for slices of at most 12 elements.  (For longer
slices the library switches algorithm; `min128` being a strict total order,
the sorted arrangement is the same.) -/
def sortCmplx (xs : List ℂ) : List ℂ :=
  (xs.foldl (fun acc x => sinkLeft x acc) []).reverse

/-! ## Closed forms -/

/-- Source `Poly2`: roots of `p0 x^2 + p1 x + p2`. -/
def Poly2 (p0 p1 p2 : ℝ) : ℂ × ℂ :=
  let norm := 1 / p0
  let b := p2 * norm
  let a := p1 * norm
  let ha := -0.5 * a
  let delta := csqrt ⟨ha * ha - b, 0⟩
  let z0 := (⟨ha, 0⟩ : ℂ) + delta
  let z1 := (⟨ha, 0⟩ : ℂ) - delta
  if min128 z0 z1 then (z0, z1) else (z1, z0)

/-- The constant `ε = 1e-15` of `Poly3`. -/
def eps : ℝ := 1e-15

/-- Source `Poly3`: roots of `p0 x^3 + p1 x^2 + p2 x + p3`.  The `switch`
takes the first case whose condition holds and panics when none does. -/
def Poly3 (p0 p1 p2 p3 : ℝ) : Except Panic (ℂ × ℂ × ℂ) :=
  let ip := 1 / p0
  let a := p1 * ip
  let b := p2 * ip
  let c := p3 * ip
  let k3 : ℝ := 1 / 3.0
  let k27 : ℝ := 1 / 27.0
  let a2 := a * a
  let p := k3 * (3 * b - a2)
  let q := k27 * (2 * a2 * a - 9 * a * b + 27 * c)
  if p = 0 ∧ q = 0 then
    let x : ℂ := ⟨-a * k3, 0⟩
    .ok (x, x, x)
  else
    let Δ := 0.25 * (q * q) + (p * p * p) * k27
    if Δ = 0 ∨ |Δ| < eps then
      let cbrt := cbrt (0.5 * q)
      let x0 : ℂ := ⟨-2 * cbrt - a * k3, 0⟩
      let x1 : ℂ := ⟨1 * cbrt - a * k3, 0⟩
      if x0.re < x1.re then .ok (x0, x1, x1) else .ok (x1, x1, x0)
    else if Δ > eps then
      let sq := Real.sqrt Δ
      let hq := 0.5 * q
      let u1 := Roots.cbrt (-hq + sq)
      let v1 := Roots.cbrt (hq + sq)
      let re := -0.5 * (u1 - v1) - a * k3
      let im := 0.5 * (u1 + v1) * Real.sqrt 3
      let zs := sortCmplx [⟨u1 - v1 - a * k3, 0⟩, ⟨re, im⟩, ⟨re, -im⟩]
      .ok (zs.getD 0 0, zs.getD 1 0, zs.getD 2 0)
    else if Δ < eps then
      let pp := -p / 3
      let r := Real.sqrt (pp * pp * pp)
      let θ := Real.arccos (-0.5 * q / r)
      let r3 := 2 * Roots.cbrt r
      let zs := sortCmplx
        [⟨r3 * Real.cos (θ * k3) - a * k3, 0⟩,
         ⟨r3 * Real.cos ((θ + 2 * Real.pi) * k3) - a * k3, 0⟩,
         ⟨r3 * Real.cos ((θ + 4 * Real.pi) * k3) - a * k3, 0⟩]
      .ok (zs.getD 0 0, zs.getD 1 0, zs.getD 2 0)
    else .error Panic.impossibleDelta

/-- Source `Poly4`: roots of `p0 x^4 + p1 x^3 + p2 x^2 + p3 x + p4`.  The
named results `z0 .. z3` start at zero.  The inner `switch` of the source
(`d == 0`, then `a == 0`, under `b == 0 && c == 0`) falls out to the code
after it when neither case holds; here the conditions are written out in the
same order. -/
def Poly4 (p0 p1 p2 p3 p4 : ℝ) : Except Panic (ℂ × ℂ × ℂ × ℂ) :=
  let ip := 1 / p0
  let a := p1 * ip
  let b := p2 * ip
  let c := p3 * ip
  let d := p4 * ip
  if (b = 0 ∧ c = 0) ∧ d = 0 then
    if a > 0 then .ok (⟨-a, 0⟩, 0, 0, 0) else .ok (0, 0, 0, ⟨-a, 0⟩)
  else if (b = 0 ∧ c = 0) ∧ a = 0 then
    if d > 0 then
      let z3 := csqrt ((⟨Real.sqrt d, 0⟩ : ℂ) * ⟨0, 1⟩)
      let z2 := (⟨0, -1⟩ : ℂ) * z3
      let z1 : ℂ := ⟨-z2.re, -z2.im⟩
      let z0 : ℂ := ⟨-z3.re, -z3.im⟩
      .ok (z0, z1, z2, z3)
    else
      let z3 := csqrt (⟨Real.sqrt (-d), 0⟩ : ℂ)
      let z2 := z3 * (⟨0, 1⟩ : ℂ)
      let z1 : ℂ := ⟨-z2.re, -z2.im⟩
      let z0 : ℂ := ⟨-z3.re, -z3.im⟩
      .ok (z0, z1, z2, z3)
  else if c = 0 ∧ d = 0 then
    let r := Poly2 1 a b
    let zs := sortCmplx [r.1, r.2, 0, 0]
    .ok (zs.getD 0 0, zs.getD 1 0, zs.getD 2 0, zs.getD 3 0)
  else
    let a2 := a * a
    let ya := -b
    let yb := c * a - 4 * d
    let yc := 4 * b * d - c * c - a2 * d
    match Poly3 1 ya yb yc with
    | .error e => .error e
    | .ok (y1, y2, y3) =>
      let y : ℝ :=
        if y1.im = 0 then y1.re
        else if y2.im = 0 then y2.re
        else if y3.im = 0 then y3.re
        else 0
      let R := csqrt ⟨0.25 * a2 - b + y, 0⟩
      let f : ℂ := ⟨0.75 * a2 - 2 * b, 0⟩
      let g := 2 * csqrt ⟨y * y - 4 * d, 0⟩
      let DE : ℂ × ℂ :=
        if R = 0 then (csqrt (f + g), csqrt (f - g))
        else
          let h := (⟨0.25 * (4 * a * b - 8 * c - a * a2), 0⟩ : ℂ) / R
          let r := R * R
          (csqrt (f - r + h), csqrt (f - r - h))
      let rr := 0.5 * R
      let dd := 0.5 * DE.1
      let ee := 0.5 * DE.2
      let za := 0.25 * (⟨a, 0⟩ : ℂ)
      let zs := sortCmplx
        [-za + rr + dd, -za + rr - dd, -za - rr + ee, -za - rr - ee]
      .ok (zs.getD 0 0, zs.getD 1 0, zs.getD 2 0, zs.getD 3 0)

/-- Source `Poly4` with the solver that it calls on the resolvent cubic as a
parameter: the text of `Poly4`, where `cubic 1 ya yb yc` stands for the call
`Poly3(1, ya, yb, yc)`.  `Poly4` is `Poly4With Poly3`; what is proved of
`Poly4With cubic` for every `cubic` holds of the code of `Poly4` whatever
values the call returns. -/
def Poly4With (cubic : ℝ → ℝ → ℝ → ℝ → Except Panic (ℂ × ℂ × ℂ))
    (p0 p1 p2 p3 p4 : ℝ) : Except Panic (ℂ × ℂ × ℂ × ℂ) :=
  let ip := 1 / p0
  let a := p1 * ip
  let b := p2 * ip
  let c := p3 * ip
  let d := p4 * ip
  if (b = 0 ∧ c = 0) ∧ d = 0 then
    if a > 0 then .ok (⟨-a, 0⟩, 0, 0, 0) else .ok (0, 0, 0, ⟨-a, 0⟩)
  else if (b = 0 ∧ c = 0) ∧ a = 0 then
    if d > 0 then
      let z3 := csqrt ((⟨Real.sqrt d, 0⟩ : ℂ) * ⟨0, 1⟩)
      let z2 := (⟨0, -1⟩ : ℂ) * z3
      let z1 : ℂ := ⟨-z2.re, -z2.im⟩
      let z0 : ℂ := ⟨-z3.re, -z3.im⟩
      .ok (z0, z1, z2, z3)
    else
      let z3 := csqrt (⟨Real.sqrt (-d), 0⟩ : ℂ)
      let z2 := z3 * (⟨0, 1⟩ : ℂ)
      let z1 : ℂ := ⟨-z2.re, -z2.im⟩
      let z0 : ℂ := ⟨-z3.re, -z3.im⟩
      .ok (z0, z1, z2, z3)
  else if c = 0 ∧ d = 0 then
    let r := Poly2 1 a b
    let zs := sortCmplx [r.1, r.2, 0, 0]
    .ok (zs.getD 0 0, zs.getD 1 0, zs.getD 2 0, zs.getD 3 0)
  else
    let a2 := a * a
    let ya := -b
    let yb := c * a - 4 * d
    let yc := 4 * b * d - c * c - a2 * d
    match cubic 1 ya yb yc with
    | .error e => .error e
    | .ok (y1, y2, y3) =>
      let y : ℝ :=
        if y1.im = 0 then y1.re
        else if y2.im = 0 then y2.re
        else if y3.im = 0 then y3.re
        else 0
      let R := csqrt ⟨0.25 * a2 - b + y, 0⟩
      let f : ℂ := ⟨0.75 * a2 - 2 * b, 0⟩
      let g := 2 * csqrt ⟨y * y - 4 * d, 0⟩
      let DE : ℂ × ℂ :=
        if R = 0 then (csqrt (f + g), csqrt (f - g))
        else
          let h := (⟨0.25 * (4 * a * b - 8 * c - a * a2), 0⟩ : ℂ) / R
          let r := R * R
          (csqrt (f - r + h), csqrt (f - r - h))
      let rr := 0.5 * R
      let dd := 0.5 * DE.1
      let ee := 0.5 * DE.2
      let za := 0.25 * (⟨a, 0⟩ : ℂ)
      let zs := sortCmplx
        [-za + rr + dd, -za + rr - dd, -za - rr + ee, -za - rr - ee]
      .ok (zs.getD 0 0, zs.getD 1 0, zs.getD 2 0, zs.getD 3 0)

/-- The call `cubic(1, ya, yb, yc)` of the general path of `Poly4With`, with
`ya = -b`, `yb = c*a - 4*d`, `yc = 4*b*d - c*c - a2*d`. -/
def resolventCallWith (cubic : ℝ → ℝ → ℝ → ℝ → Except Panic (ℂ × ℂ × ℂ))
    (a b c d : ℝ) : Except Panic (ℂ × ℂ × ℂ) :=
  cubic 1 (-b) (c * a - 4 * d) (4 * b * d - c * c - a * a * d)

/-! ## Dispatcher -/

/-- The loop `for _, v := range ps { if v != 0 { break }; n-- }` of
`Polynomial`, on the part of `ps` not yet visited. -/
def stripLoop : List ℝ → Int → Int
  | [], n => n
  | v :: vs, n => if v ≠ 0 then n else stripLoop vs (n - 1)

/-- The companion matrix that `Polynomial` fills for `n > 4`: a zero
`n × n` matrix whose row 0 receives `ps[1:]` (as many entries as fit, by
`copy`) times `-norm`, and whose rows `i = 1 .. n-1` receive `1` at column
`i - 1`. -/
def companion (n : ℕ) (ps : List ℝ) (norm : ℝ) : Matrix (Fin n) (Fin n) ℝ :=
  Matrix.of fun i j =>
    if i.val = 0 then (ps.drop 1).getD j.val 0 * -norm
    else if j.val = i.val - 1 then 1
    else 0

/-- The `switch n { ... }` statement of `Polynomial`, on the effective degree
`n`, the buffer `dst[:n]` and the trimmed coefficients.  `eigen n m` stands
for gonum's `Eigen.Factorize (m, EigenNone)` followed by `Eigen.Values`:
`none` when the factorisation reports failure (the buffer is then left as it
is), the `n` computed eigenvalues otherwise. -/
def Polynomial.switch
    (eigen : (n : ℕ) → Matrix (Fin n) (Fin n) ℝ → Option (Fin n → ℂ))
    (n : ℕ) (dst : List ℂ) (ps : List ℝ) : Except Panic (List ℂ) :=
  match n with
  | 0 => .ok dst
  | 1 =>
    match ps with
    | a :: b :: _ =>
      if a = 0 then .ok dst
      else
        let r := -b / a
        .ok (dst.set 0 ⟨r, 0⟩)
    | _ => .error Panic.indexRange
  | 2 =>
    match ps with
    | p0 :: p1 :: p2 :: _ =>
      let z := Poly2 p0 p1 p2
      .ok ((dst.set 0 z.1).set 1 z.2)
    | _ => .error Panic.indexRange
  | 3 =>
    match ps with
    | p0 :: p1 :: p2 :: p3 :: _ =>
      match Poly3 p0 p1 p2 p3 with
      | .error e => .error e
      | .ok (z0, z1, z2) => .ok (((dst.set 0 z0).set 1 z1).set 2 z2)
    | _ => .error Panic.indexRange
  | 4 =>
    match ps with
    | p0 :: p1 :: p2 :: p3 :: p4 :: _ =>
      match Poly4 p0 p1 p2 p3 p4 with
      | .error e => .error e
      | .ok (z0, z1, z2, z3) =>
        .ok ((((dst.set 0 z0).set 1 z1).set 2 z2).set 3 z3)
    | _ => .error Panic.indexRange
  | m + 5 =>
    match ps with
    | p0 :: _ =>
      let norm := 1 / p0
      let comp := companion (m + 5) ps norm
      let dst := match eigen (m + 5) comp with
        | some vals => List.ofFn vals
        | none => dst
      .ok (sortCmplx dst)
    | _ => .error Panic.indexRange

/-- Source `Polynomial`: allocation of the buffer when `dst` is `nil`, the
length check, the loop that lowers `n` over the leading zero coefficients,
the two slice expressions, and the `switch` on `n`. -/
def Polynomial (eigen : (n : ℕ) → Matrix (Fin n) (Fin n) ℝ → Option (Fin n → ℂ))
    (dst : Option (List ℂ)) (ps : List ℝ) : Except Panic (List ℂ) :=
  let n : Int := (ps.length : Int) - 1
  match (match dst with
    | none => if n < 0 then Except.error Panic.makeslice
              else Except.ok (List.replicate n.toNat (0 : ℂ))
    | some d => Except.ok d) with
  | .error e => .error e
  | .ok dst =>
    if (dst.length : Int) ≠ n then .error Panic.lengthMismatch
    else
      let n := stripLoop ps n
      if n < 0 then .error Panic.sliceBounds
      else
        let dst := dst.take n.toNat
        let ps := ps.drop ((ps.length : Int) - 1 - n).toNat
        Polynomial.switch eigen n.toNat dst ps

/-! ## Quantities in which the specification states the claims -/

/-- A list is in non-decreasing complex order when no later element strictly
precedes an earlier one. -/
def NonDecreasing (l : List ℂ) : Prop :=
  l.Pairwise fun z w => min128 w z = false

/-- Half of the negated linear coefficient of the monic quadratic,
`h = -a/2` with `a = p1/p0`. -/
def quadH (p0 p1 : ℝ) : ℝ := -(p1 / p0) / 2

/-- The quantity `h² - b` under the square root of the quadratic formula,
with `b = p2/p0`. -/
def quadDisc (p0 p1 p2 : ℝ) : ℝ := quadH p0 p1 ^ 2 - p2 / p0

/-- Depressed-cubic parameter `p = (3b - a²)/3`. -/
def cubicP (a b : ℝ) : ℝ := (3 * b - a ^ 2) / 3

/-- Depressed-cubic parameter `q = (2a³ - 9ab + 27c)/27`. -/
def cubicQ (a b c : ℝ) : ℝ := (2 * a ^ 3 - 9 * a * b + 27 * c) / 27

/-- Discriminant `Δ = q²/4 + p³/27`. -/
def cubicDelta (p q : ℝ) : ℝ := q ^ 2 / 4 + p ^ 3 / 27

/-- Cardano's `u = cbrt(-q/2 + sqrt Δ)`. -/
def cardanoU (q Δ : ℝ) : ℝ := cbrt (-q / 2 + Real.sqrt Δ)

/-- Cardano's `v = cbrt(q/2 + sqrt Δ)`. -/
def cardanoV (q Δ : ℝ) : ℝ := cbrt (q / 2 + Real.sqrt Δ)

/-- The three values of the branch `Δ > ε` as the specification lists them:
the real root `u - v - a/3` and the pair with real part `-(u - v)/2 - a/3`
and imaginary parts `±(u + v)·sqrt(3)/2`. -/
def cardanoRoots (a q Δ : ℝ) : List ℂ :=
  [⟨cardanoU q Δ - cardanoV q Δ - a / 3, 0⟩,
   ⟨-(cardanoU q Δ - cardanoV q Δ) / 2 - a / 3,
     (cardanoU q Δ + cardanoV q Δ) * Real.sqrt 3 / 2⟩,
   ⟨-(cardanoU q Δ - cardanoV q Δ) / 2 - a / 3,
     -((cardanoU q Δ + cardanoV q Δ) * Real.sqrt 3 / 2)⟩]

/-- The simple root `x0 = -2t - a/3`, `t = cbrt(q/2)`, of the repeated-root
branch. -/
def repeatedX0 (a q : ℝ) : ℝ := -2 * cbrt (q / 2) - a / 3

/-- The double root `x1 = t - a/3`, `t = cbrt(q/2)`, of the repeated-root
branch. -/
def repeatedX1 (a q : ℝ) : ℝ := cbrt (q / 2) - a / 3

/-- The radius `r = sqrt((-p/3)³)` of the trigonometric form. -/
def trigR (p : ℝ) : ℝ := Real.sqrt ((-p / 3) ^ 3)

/-- The angle `θ = acos(-q/(2r))` of the trigonometric form. -/
def trigTheta (p q : ℝ) : ℝ := Real.arccos (-q / (2 * trigR p))

/-- The value `2·cbrt(r)·cos((θ + 2kπ)/3) - a/3` of the trigonometric form. -/
def trigRoot (a p q : ℝ) (k : ℕ) : ℝ :=
  2 * cbrt (trigR p) * Real.cos ((trigTheta p q + 2 * k * Real.pi) / 3) - a / 3

/-- The three values of the branch `Δ < ε` as the specification lists them,
`k = 0, 1, 2`. -/
def trigRoots (a p q : ℝ) : List ℂ :=
  [⟨trigRoot a p q 0, 0⟩, ⟨trigRoot a p q 1, 0⟩, ⟨trigRoot a p q 2, 0⟩]

/-- Depressed parameter `p` of `p0 x³ + p1 x² + p2 x + p3`. -/
def depressedP (p0 p1 p2 : ℝ) : ℝ := cubicP (p1 / p0) (p2 / p0)

/-- Depressed parameter `q` of `p0 x³ + p1 x² + p2 x + p3`. -/
def depressedQ (p0 p1 p2 p3 : ℝ) : ℝ := cubicQ (p1 / p0) (p2 / p0) (p3 / p0)

/-- Discriminant `Δ` of `p0 x³ + p1 x² + p2 x + p3`. -/
def discriminant (p0 p1 p2 p3 : ℝ) : ℝ :=
  cubicDelta (depressedP p0 p1 p2) (depressedQ p0 p1 p2 p3)

/-- The coefficients, highest degree first, of the monic polynomial
`(x - z0)(x - z1)(x - z2)`. -/
def monicCoeffs (z0 z1 z2 : ℂ) : List ℂ :=
  [1, -(z0 + z1 + z2), z0 * z1 + z0 * z2 + z1 * z2, -(z0 * z1 * z2)]

/-- Agreement of `x` and `y` within the relative tolerance `tol`. -/
def relClose (tol : ℝ) (x y : ℂ) : Prop :=
  Complex.abs (x - y) ≤ tol * max (Complex.abs x) (Complex.abs y)

/-- The amount `e` by which the values returned inside the tolerance band
`0 < |Δ| < ε` change the reconstructed coefficients: `e = p + 3 cbrt(q/2)²`
there, and `e = 0` when `Δ = 0` or `|Δ| ≥ ε`. -/
def bandError (p0 p1 p2 p3 : ℝ) : ℝ :=
  if 0 < |discriminant p0 p1 p2 p3| ∧ |discriminant p0 p1 p2 p3| < eps then
    depressedP p0 p1 p2 + 3 * cbrt (depressedQ p0 p1 p2 p3 / 2) ^ 2
  else 0

/-! ### Quantities of the quartic -/

/-- The common magnitude `sqrt(sqrt(d)/2)` of the real and imaginary parts of
the fourth roots of `-d`, `d > 0`. -/
def quarticDiag (d : ℝ) : ℝ := Real.sqrt (0.5 * Real.sqrt d)

/-- The magnitude `sqrt(sqrt(-d))` of the fourth roots of `-d`, `d < 0`. -/
def quarticAxis (d : ℝ) : ℝ := Real.sqrt (Real.sqrt (-d))

/-- The resolvent cubic `y³ - b y² + (a c - 4 d) y + (4 b d - c² - a² d)` of
`x⁴ + a x³ + b x² + c x + d`, at `y`. -/
def resolvent (a b c d y : ℝ) : ℝ :=
  y ^ 3 - b * y ^ 2 + (a * c - 4 * d) * y + (4 * b * d - c ^ 2 - a ^ 2 * d)

/-- The `switch` of `Poly4` that selects the resolvent value `y` among the
values returned by `Poly3`: the real part of the first one with imaginary
part `0`, and `0` (the initial value of `y`) when there is none. -/
def selectY (y1 y2 y3 : ℂ) : ℝ :=
  if y1.im = 0 then y1.re
  else if y2.im = 0 then y2.re
  else if y3.im = 0 then y3.re
  else 0

/-- `R = sqrt(a²/4 - b + y)`. -/
def quarticR (a b y : ℝ) : ℂ := csqrt ⟨a ^ 2 / 4 - b + y, 0⟩

/-- `f = 3a²/4 - 2b`. -/
def quarticF (a b : ℝ) : ℂ := ⟨3 * a ^ 2 / 4 - 2 * b, 0⟩

/-- `g = 2·sqrt(y² - 4d)`. -/
def quarticG (d y : ℝ) : ℂ := 2 * csqrt ⟨y ^ 2 - 4 * d, 0⟩

/-- `h = (4ab - 8c - a³)/(4R)`. -/
def quarticH (a b c y : ℝ) : ℂ := (⟨(4 * a * b - 8 * c - a ^ 3) / 4, 0⟩ : ℂ) / quarticR a b y

/-- `D = sqrt(f + g)` if `R = 0`, `D = sqrt(f - R² + h)` otherwise. -/
def quarticD (a b c d y : ℝ) : ℂ :=
  if quarticR a b y = 0 then csqrt (quarticF a b + quarticG d y)
  else csqrt (quarticF a b - quarticR a b y ^ 2 + quarticH a b c y)

/-- `E = sqrt(f - g)` if `R = 0`, `E = sqrt(f - R² - h)` otherwise. -/
def quarticE (a b c d y : ℝ) : ℂ :=
  if quarticR a b y = 0 then csqrt (quarticF a b - quarticG d y)
  else csqrt (quarticF a b - quarticR a b y ^ 2 - quarticH a b c y)

/-- The four values `-a/4 + R/2 ± D/2`, `-a/4 - R/2 ± E/2` of the general
path, in the order `z0, z1, z2, z3` of the specification. -/
def quarticRoots (a b c d y : ℝ) : List ℂ :=
  [-(a : ℂ) / 4 + quarticR a b y / 2 + quarticD a b c d y / 2,
   -(a : ℂ) / 4 + quarticR a b y / 2 - quarticD a b c d y / 2,
   -(a : ℂ) / 4 - quarticR a b y / 2 + quarticE a b c d y / 2,
   -(a : ℂ) / 4 - quarticR a b y / 2 - quarticE a b c d y / 2]

/-- The condition under which `Poly4` reaches its general path, on the
normalised coefficients `a, b, c, d`: none of the degenerate cases
`b = c = d = 0`, `a = b = c = 0`, `c = d = 0` holds. -/
def generalPath (a b c d : ℝ) : Prop :=
  ¬ ((b = 0 ∧ c = 0) ∧ d = 0) ∧ ¬ ((b = 0 ∧ c = 0) ∧ a = 0) ∧ ¬ (c = 0 ∧ d = 0)

/-- The call `Poly3(1, ya, yb, yc)` of the general path of `Poly4`, with
`ya = -b`, `yb = c*a - 4*d`, `yc = 4*b*d - c*c - a2*d`. -/
def resolventCall (a b c d : ℝ) : Except Panic (ℂ × ℂ × ℂ) :=
  Poly3 1 (-b) (c * a - 4 * d) (4 * b * d - c * c - a * a * d)

/-! ## Facts about the library functions -/

theorem cbrt_pow_three (x : ℝ) : cbrt x ^ 3 = x := by
  unfold cbrt
  have key : ∀ y : ℝ, 0 ≤ y → (y ^ ((1 : ℝ) / 3)) ^ 3 = y := by
    intro y hy
    rw [← Real.rpow_natCast, ← Real.rpow_mul hy]
    norm_num
  split_ifs with h
  · exact key x h
  · have h2 : (0 : ℝ) ≤ -x := by linarith
    have := key (-x) h2
    calc (-((-x) ^ ((1 : ℝ) / 3))) ^ 3 = -(((-x) ^ ((1 : ℝ) / 3)) ^ 3) := by ring
      _ = x := by rw [this]; ring

theorem cube_strictMono : StrictMono fun a : ℝ => a ^ 3 :=
  Odd.strictMono_pow (by decide)

theorem cube_injective {x y : ℝ} (h : x ^ 3 = y ^ 3) : x = y :=
  cube_strictMono.injective h

theorem cube_lt_cube {x y : ℝ} (h : x ^ 3 < y ^ 3) : x < y :=
  cube_strictMono.lt_iff_lt.mp h

theorem csqrt_ofReal_nonneg {x : ℝ} (h : 0 ≤ x) : csqrt ⟨x, 0⟩ = ⟨Real.sqrt x, 0⟩ := by
  unfold csqrt
  rcases eq_or_lt_of_le h with h0 | h0
  · simp [← h0]
  · simp [h0.ne.symm, not_lt.mpr h]

theorem csqrt_ofReal_neg {x : ℝ} (h : x < 0) : csqrt ⟨x, 0⟩ = ⟨0, Real.sqrt (-x)⟩ := by
  unfold csqrt
  simp [h.ne, h]

/-! ## Facts about `min128` and `sortCmplx` -/

theorem min128_iff (z w : ℂ) :
    min128 z w = true ↔ z.re < w.re ∨ (z.re = w.re ∧ z.im < w.im) := by
  unfold min128
  by_cases h : z.re = w.re
  · simp [h]
  · simp only [h, if_false, decide_eq_true_eq, false_and, or_false]

theorem min128_eq_false_iff (z w : ℂ) :
    min128 z w = false ↔ w.re < z.re ∨ (w.re = z.re ∧ w.im ≤ z.im) := by
  rw [← Bool.not_eq_true, min128_iff]
  constructor
  · intro h
    rcases lt_trichotomy z.re w.re with h1 | h1 | h1
    · exact absurd (Or.inl h1) h
    · right
      refine ⟨h1.symm, ?_⟩
      by_contra h2
      exact h (Or.inr ⟨h1, not_le.mp h2⟩)
    · exact Or.inl h1
  · rintro (h | ⟨h1, h2⟩) (h3 | ⟨h3, h4⟩) <;> linarith

theorem min128_asymm {z w : ℂ} (h : min128 z w = true) : min128 w z = false := by
  rw [min128_iff] at h
  rw [min128_eq_false_iff]
  rcases h with h | ⟨h1, h2⟩
  · exact Or.inl h
  · exact Or.inr ⟨h1, h2.le⟩

theorem min128_false_trans {x y z : ℂ} (h1 : min128 x y = false)
    (h2 : min128 y z = false) : min128 x z = false := by
  rw [min128_eq_false_iff] at *
  rcases h1 with h1 | ⟨h1, h1'⟩ <;> rcases h2 with h2 | ⟨h2, h2'⟩
  · exact Or.inl (by linarith)
  · exact Or.inl (by linarith)
  · exact Or.inl (by linarith)
  · exact Or.inr ⟨by linarith, by linarith⟩

theorem sinkLeft_perm (x : ℂ) (l : List ℂ) : (sinkLeft x l).Perm (x :: l) := by
  induction l with
  | nil => simp [sinkLeft]
  | cons y ys ih =>
    unfold sinkLeft
    split_ifs with h
    · exact (List.Perm.cons y ih).trans (List.Perm.swap x y ys)
    · exact List.Perm.refl _

theorem sinkLeft_pairwise (x : ℂ) (l : List ℂ)
    (hl : l.Pairwise fun u v => min128 u v = false) :
    (sinkLeft x l).Pairwise fun u v => min128 u v = false := by
  induction l with
  | nil => simp [sinkLeft]
  | cons y ys ih =>
    rw [List.pairwise_cons] at hl
    unfold sinkLeft
    split_ifs with h
    · rw [List.pairwise_cons]
      refine ⟨?_, ih hl.2⟩
      intro v hv
      rcases List.mem_cons.mp ((sinkLeft_perm x ys).mem_iff.mp hv) with rfl | hv
      · exact min128_asymm h
      · exact hl.1 v hv
    · have hxy : min128 x y = false := by simpa using h
      rw [List.pairwise_cons]
      refine ⟨?_, List.pairwise_cons.mpr hl⟩
      intro v hv
      rcases List.mem_cons.mp hv with rfl | hv
      · exact hxy
      · exact min128_false_trans hxy (hl.1 v hv)

theorem foldl_sinkLeft_perm (xs acc : List ℂ) :
    (xs.foldl (fun acc x => sinkLeft x acc) acc).Perm (xs ++ acc) := by
  induction xs generalizing acc with
  | nil => simp
  | cons x xs ih =>
    simp only [List.foldl_cons, List.cons_append]
    refine (ih _).trans ?_
    exact (List.Perm.append_left xs (sinkLeft_perm x acc)).trans
      List.perm_middle

theorem foldl_sinkLeft_pairwise (xs acc : List ℂ)
    (h : acc.Pairwise fun u v => min128 u v = false) :
    (xs.foldl (fun acc x => sinkLeft x acc) acc).Pairwise
      fun u v => min128 u v = false := by
  induction xs generalizing acc with
  | nil => simpa using h
  | cons x xs ih => exact ih _ (sinkLeft_pairwise x acc h)

theorem sortCmplx_perm (xs : List ℂ) : (sortCmplx xs).Perm xs := by
  unfold sortCmplx
  refine (List.reverse_perm _).trans ?_
  simpa using foldl_sinkLeft_perm xs []

theorem sortCmplx_length (xs : List ℂ) : (sortCmplx xs).length = xs.length :=
  (sortCmplx_perm xs).length_eq

theorem sortCmplx_nonDecreasing (xs : List ℂ) : NonDecreasing (sortCmplx xs) := by
  unfold sortCmplx NonDecreasing
  rw [List.pairwise_reverse]
  exact foldl_sinkLeft_pairwise xs [] List.Pairwise.nil

theorem list_eq_getD3 (l : List ℂ) (h : l.length = 3) :
    l = [l.getD 0 0, l.getD 1 0, l.getD 2 0] := by
  match l, h with
  | [_, _, _], _ => rfl

theorem list_eq_getD4 (l : List ℂ) (h : l.length = 4) :
    l = [l.getD 0 0, l.getD 1 0, l.getD 2 0, l.getD 3 0] := by
  match l, h with
  | [_, _, _, _], _ => rfl

/-! ## Facts about the dispatcher -/

theorem stripLoop_zeros (k : ℕ) (n : Int) :
    stripLoop (List.replicate k 0) n = n - k := by
  induction k generalizing n with
  | zero => simp [stripLoop]
  | succ k ih =>
    simp only [List.replicate_succ, stripLoop, ne_eq, not_true_eq_false, if_false, ih]
    push_cast
    ring

theorem stripLoop_leading (k : ℕ) (a : ℝ) (rest : List ℝ) (ha : a ≠ 0) (n : Int) :
    stripLoop (List.replicate k 0 ++ a :: rest) n = n - k := by
  induction k generalizing n with
  | zero => simp [stripLoop, ha]
  | succ k ih =>
    have h : stripLoop (List.replicate (k + 1) 0 ++ a :: rest) n
        = stripLoop (List.replicate k 0 ++ a :: rest) (n - 1) := by
      simp [List.replicate_succ, stripLoop]
    rw [h, ih]
    push_cast
    ring

/-- With a supplied buffer of the nominal length `len(ps) - 1`, `Polynomial`
runs its `switch` on the effective degree, the truncated buffer and the
coefficients from the first nonzero one on. -/
theorem Polynomial_some_eq
    (eigen : (n : ℕ) → Matrix (Fin n) (Fin n) ℝ → Option (Fin n → ℂ))
    (k : ℕ) (a : ℝ) (rest : List ℝ) (ha : a ≠ 0) (d : List ℂ)
    (hd : d.length = k + rest.length) :
    Polynomial eigen (some d) (List.replicate k 0 ++ a :: rest) =
      Polynomial.switch eigen rest.length (d.take rest.length) (a :: rest) := by
  have hlen : (((List.replicate k (0 : ℝ) ++ a :: rest).length : ℕ) : Int) - 1
      = (k : Int) + rest.length := by
    simp only [List.length_append, List.length_replicate, List.length_cons]
    push_cast
    ring
  unfold Polynomial
  simp only [hlen, stripLoop_leading k a rest ha, hd]
  have h1 : ((k : Int) + rest.length - k) = (rest.length : Int) := by ring
  have h2 : ((k : Int) + rest.length - (rest.length : Int)) = (k : Int) := by ring
  simp [h1, h2]

/-- Without a buffer, `Polynomial` allocates `len(ps) - 1` zeros and runs its
`switch` on the effective degree. -/
theorem Polynomial_nil_eq
    (eigen : (n : ℕ) → Matrix (Fin n) (Fin n) ℝ → Option (Fin n → ℂ))
    (k : ℕ) (a : ℝ) (rest : List ℝ) (ha : a ≠ 0) :
    Polynomial eigen none (List.replicate k 0 ++ a :: rest) =
      Polynomial.switch eigen rest.length (List.replicate rest.length 0) (a :: rest) := by
  have hlen : (((List.replicate k (0 : ℝ) ++ a :: rest).length : ℕ) : Int) - 1
      = (k : Int) + rest.length := by
    simp only [List.length_append, List.length_replicate, List.length_cons]
    push_cast
    ring
  unfold Polynomial
  simp only [hlen, stripLoop_leading k a rest ha]
  have h0 : ¬ ((k : Int) + rest.length < 0) := by omega
  have h1 : ((k : Int) + rest.length - k) = (rest.length : Int) := by ring
  have h2 : ((k : Int) + rest.length - (rest.length : Int)) = (k : Int) := by ring
  have h3 : ((k : Int) + rest.length).toNat = k + rest.length := by omega
  simp [h0, h1, h2, h3, List.take_replicate]

theorem eps_pos : 0 < eps := by
  unfold eps
  norm_num

theorem Poly3_p_eq (p0 p1 p2 : ℝ) :
    (1 / 3.0 : ℝ) * (3 * (p2 * (1 / p0)) - p1 * (1 / p0) * (p1 * (1 / p0)))
      = cubicP (p1 / p0) (p2 / p0) := by
  unfold cubicP
  norm_num
  ring

theorem Poly3_q_eq (p0 p1 p2 p3 : ℝ) :
    (1 / 27.0 : ℝ) * (2 * (p1 * (1 / p0) * (p1 * (1 / p0))) * (p1 * (1 / p0))
        - 9 * (p1 * (1 / p0)) * (p2 * (1 / p0)) + 27 * (p3 * (1 / p0)))
      = cubicQ (p1 / p0) (p2 / p0) (p3 / p0) := by
  unfold cubicQ
  norm_num
  ring

theorem Poly3_delta_eq (p q : ℝ) :
    (0.25 : ℝ) * (q * q) + p * p * p * (1 / 27.0) = cubicDelta p q := by
  unfold cubicDelta
  norm_num
  ring

/-- The panic at the end of `Poly3` is reached exactly when the depressed
parameters are not both zero and the discriminant equals `ε`. -/
theorem Poly3_error_iff (p0 p1 p2 p3 : ℝ) (e : Panic) :
    Poly3 p0 p1 p2 p3 = .error e ↔
      e = Panic.impossibleDelta ∧
      ¬ (cubicP (p1 / p0) (p2 / p0) = 0 ∧ cubicQ (p1 / p0) (p2 / p0) (p3 / p0) = 0) ∧
      cubicDelta (cubicP (p1 / p0) (p2 / p0)) (cubicQ (p1 / p0) (p2 / p0) (p3 / p0)) = eps := by
  unfold Poly3
  simp only [Poly3_p_eq, Poly3_q_eq, Poly3_delta_eq]
  have he := eps_pos
  split_ifs with h1 h2 h3 h4 h5
  · simp [h1]
  · simp only [reduceCtorEq, false_iff, not_and]
    intro _ _ h
    rcases h2 with h2 | h2
    · rw [h2] at h; linarith
    · rw [h, abs_of_pos he] at h2; exact lt_irrefl _ h2
  · simp only [reduceCtorEq, false_iff, not_and]
    intro _ _ h
    rcases h2 with h2 | h2
    · rw [h2] at h; linarith
    · rw [h, abs_of_pos he] at h2; exact lt_irrefl _ h2
  · simp only [reduceCtorEq, false_iff, not_and]
    intro _ _ h
    linarith
  · simp only [reduceCtorEq, false_iff, not_and]
    intro _ _ h
    linarith
  · have h6 : cubicDelta (cubicP (p1 / p0) (p2 / p0)) (cubicQ (p1 / p0) (p2 / p0) (p3 / p0))
        = eps := le_antisymm (not_lt.mp h4) (not_lt.mp h5)
    constructor
    · intro h
      injection h with h
      exact ⟨h.symm, h1, h6⟩
    · rintro ⟨rfl, _, _⟩
      rfl

theorem Poly4_error (p0 p1 p2 p3 p4 : ℝ) (e : Panic)
    (h : Poly4 p0 p1 p2 p3 p4 = .error e) : e = Panic.impossibleDelta := by
  unfold Poly4 at h
  simp only [] at h
  split_ifs at h
  split at h
  · rename_i e1 heq
    injection h with h
    subst h
    exact ((Poly3_error_iff _ _ _ _ _).mp heq).1
  · exact absurd h (by simp)

theorem switch_error
    (eigen : (n : ℕ) → Matrix (Fin n) (Fin n) ℝ → Option (Fin n → ℂ))
    (n : ℕ) (dst : List ℂ) (ps : List ℝ) (e : Panic)
    (h : Polynomial.switch eigen n dst ps = .error e) :
    e = Panic.indexRange ∨ e = Panic.impossibleDelta := by
  unfold Polynomial.switch at h
  split at h
  · exact absurd h (by simp)
  · split at h
    · split_ifs at h
    · injection h with h; exact Or.inl h.symm
  · split at h
    · exact absurd h (by simp)
    · injection h with h; exact Or.inl h.symm
  · split at h
    · split at h
      · rename_i e1 heq
        injection h with h
        subst h
        exact Or.inr ((Poly3_error_iff _ _ _ _ _).mp heq).1
      · exact absurd h (by simp)
    · injection h with h; exact Or.inl h.symm
  · split at h
    · split at h
      · rename_i e1 heq
        injection h with h
        subst h
        exact Or.inr (Poly4_error _ _ _ _ _ _ heq)
      · exact absurd h (by simp)
    · injection h with h; exact Or.inl h.symm
  · split at h
    · exact absurd h (by simp)
    · injection h with h; exact Or.inl h.symm

theorem Polynomial_some_lengthMismatch
    (eigen : (n : ℕ) → Matrix (Fin n) (Fin n) ℝ → Option (Fin n → ℂ))
    (d : List ℂ) (ps : List ℝ) :
    Polynomial eigen (some d) ps = .error Panic.lengthMismatch ↔
      (d.length : Int) ≠ (ps.length : Int) - 1 := by
  unfold Polynomial
  simp only []
  split_ifs with h1 h2
  · simp [h1]
  · constructor
    · intro h
      injection h with h
      cases h
    · intro h
      exact absurd h h1
  · constructor
    · intro h
      rcases switch_error _ _ _ _ _ h with h | h <;> cases h
    · intro h
      exact absurd h h1

/-- C2 (as the code has it): with a supplied buffer, `Polynomial` stops with
the length-mismatch panic exactly when the length of the buffer differs from
the nominal degree `len(ps) - 1`, the degree before leading zero coefficients
are stripped. -/
theorem Polynomial_lengthMismatch_iff
    (eigen : (n : ℕ) → Matrix (Fin n) (Fin n) ℝ → Option (Fin n → ℂ))
    (d : List ℂ) (ps : List ℝ) :
    Polynomial eigen (some d) ps = .error Panic.lengthMismatch ↔
      (d.length : Int) ≠ (ps.length : Int) - 1 :=
  Polynomial_some_lengthMismatch eigen d ps

/-- C2, counterexample: for `ps = [0, 2]` the effective degree is `0`; an
empty (non-nil) buffer has that length and `Polynomial` stops with the
length-mismatch panic, while a buffer of length `1`, which differs from the
effective degree, is accepted. -/
theorem Polynomial_lengthMismatch_effective_degree_counterexample :
    stripLoop [0, 2] (((([0, 2] : List ℝ).length : ℕ) : Int) - 1) = 0 ∧
    Polynomial (fun _ _ => none) (some []) [0, 2] = .error Panic.lengthMismatch ∧
    Polynomial (fun _ _ => none) (some [0]) [0, 2] = .ok [] := by
  refine ⟨?_, ?_, ?_⟩
  · simp [stripLoop]
  · simp [Polynomial]
  · simp [Polynomial, stripLoop, Polynomial.switch]

/-- C3, at the failing input: for the zero polynomial `ps = [0]` and no
buffer the loop lowers `n` to `-1` and the slice expression `dst[:n]`
panics; no root sequence is returned. -/
theorem Polynomial_zero_polynomial_panics
    (eigen : (n : ℕ) → Matrix (Fin n) (Fin n) ℝ → Option (Fin n → ℂ)) :
    Polynomial eigen none [0] = .error Panic.sliceBounds := by
  simp [Polynomial, stripLoop]

/-- Every zero polynomial stops at the slice expression `dst[:n]`. -/
theorem Polynomial_all_zero
    (eigen : (n : ℕ) → Matrix (Fin n) (Fin n) ℝ → Option (Fin n → ℂ)) (k : ℕ) :
    Polynomial eigen none (List.replicate (k + 1) 0) = .error Panic.sliceBounds := by
  unfold Polynomial
  simp only [stripLoop_zeros, List.length_replicate]
  have h0 : ¬ (((k + 1 : ℕ) : Int) - 1 < 0) := by push_cast; omega
  have h1 : (((k + 1 : ℕ) : Int) - 1).toNat = k := by push_cast; omega
  have h2 : (((k + 1 : ℕ) : Int) - 1 - ((k + 1 : ℕ) : Int)) < 0 := by push_cast; omega
  have h3 : ¬ ((k : Int) < 0) := by omega
  simp [h0, h1, h2, h3]

/-- A nonzero constant, after any number of zero coefficients, has the empty
root sequence. -/
theorem Polynomial_constant
    (eigen : (n : ℕ) → Matrix (Fin n) (Fin n) ℝ → Option (Fin n → ℂ))
    (k : ℕ) (c : ℝ) (hc : c ≠ 0) :
    Polynomial eigen none (List.replicate k 0 ++ [c]) = .ok [] := by
  rw [Polynomial_nil_eq eigen k c [] hc]
  simp [Polynomial.switch]

/-- On a buffer of length `n` and `n + 1` trimmed coefficients the `switch`
of `Polynomial` either stops in the panic at the end of `Poly3`, or returns
`n` values. -/
theorem switch_length
    (eigen : (n : ℕ) → Matrix (Fin n) (Fin n) ℝ → Option (Fin n → ℂ))
    (n : ℕ) (dst : List ℂ) (ps : List ℝ) (hd : dst.length = n)
    (hp : ps.length = n + 1) :
    Polynomial.switch eigen n dst ps = .error Panic.impossibleDelta ∨
      ∃ r, Polynomial.switch eigen n dst ps = .ok r ∧ r.length = n := by
  unfold Polynomial.switch
  split
  · exact Or.inr ⟨dst, rfl, hd⟩
  · match ps, hp with
    | [a, b], _ =>
      right
      simp only []
      split_ifs
      · exact ⟨dst, rfl, hd⟩
      · exact ⟨_, rfl, by simp [hd]⟩
  · match ps, hp with
    | [p0, p1, p2], _ =>
      right
      exact ⟨_, rfl, by simp [hd]⟩
  · match ps, hp with
    | [p0, p1, p2, p3], _ =>
      simp only []
      split
      · rename_i e heq
        rw [((Poly3_error_iff _ _ _ _ _).mp heq).1]
        exact Or.inl rfl
      · exact Or.inr ⟨_, rfl, by simp [hd]⟩
  · match ps, hp with
    | [p0, p1, p2, p3, p4], _ =>
      simp only []
      split
      · rename_i e heq
        rw [Poly4_error _ _ _ _ _ _ heq]
        exact Or.inl rfl
      · exact Or.inr ⟨_, rfl, by simp [hd]⟩
  · rename_i m
    match ps, hp with
    | p0 :: rest, _ =>
      right
      simp only []
      refine ⟨_, rfl, ?_⟩
      rw [sortCmplx_length]
      split
      · simp
      · exact hd

/-- Whenever `Polynomial`, called without a buffer on coefficients with `k`
leading zeros and a nonzero coefficient after them, returns, the result has
the effective degree as its length; and it returns unless the cubic solver
reaches its final panic. -/
theorem Polynomial_nil_length
    (eigen : (n : ℕ) → Matrix (Fin n) (Fin n) ℝ → Option (Fin n → ℂ))
    (k : ℕ) (a : ℝ) (rest : List ℝ) (ha : a ≠ 0) :
    Polynomial eigen none (List.replicate k 0 ++ a :: rest) = .error Panic.impossibleDelta ∨
      ∃ r, Polynomial eigen none (List.replicate k 0 ++ a :: rest) = .ok r ∧
        r.length = rest.length := by
  rw [Polynomial_nil_eq eigen k a rest ha]
  exact switch_length eigen rest.length _ _ (by simp) (by simp)

theorem Poly3_gap_input :
    Poly3 1 0 3e-5 0 = .error Panic.impossibleDelta := by
  rw [Poly3_error_iff]
  refine ⟨rfl, ?_, ?_⟩
  · unfold cubicP
    norm_num
  · unfold cubicDelta cubicP cubicQ eps
    norm_num

/-- C1, at the failing input: for `ps = [1, 0, 3e-5, 0]` (effective degree
3, no leading zero) and no buffer, `Polynomial` returns no sequence: the
cubic has discriminant exactly `ε` and `Poly3` ends in its panic. -/
theorem Polynomial_cubic_gap_panics
    (eigen : (n : ℕ) → Matrix (Fin n) (Fin n) ℝ → Option (Fin n → ℂ)) :
    Polynomial eigen none [1, 0, 3e-5, 0] = .error Panic.impossibleDelta := by
  have h := Polynomial_nil_eq eigen 0 1 [0, 3e-5, 0] one_ne_zero
  simp only [List.replicate_zero, List.nil_append] at h
  rw [h]
  simp [Polynomial.switch, Poly3_gap_input]

/-- C8, at the failing input: for `p0 = 1, p1 = 0, p2 = 3e-5, p3 = 0` the
depressed parameters are `p = 3e-5`, `q = 0` and the discriminant is
`p³/27 = 1e-15 = ε`; none of the cases `Δ == 0 || |Δ| < ε`, `Δ > ε`,
`Δ < ε` holds and `Poly3` reaches its final panic. -/
theorem Poly3_impossible_delta_reached :
    cubicDelta (cubicP (0 / 1) (3e-5 / 1)) (cubicQ (0 / 1) (3e-5 / 1) (0 / 1)) = eps ∧
    Poly3 1 0 3e-5 0 = .error Panic.impossibleDelta := by
  refine ⟨?_, ?_⟩
  · unfold cubicDelta cubicP cubicQ eps
    norm_num
  · rw [Poly3_error_iff]
    refine ⟨rfl, ?_, ?_⟩
    · unfold cubicP
      norm_num
    · unfold cubicDelta cubicP cubicQ eps
      norm_num

/-- C5: `min128` is the strict lexicographic order on (real, imaginary); it
is irreflexive and transitive, and of two distinct complex numbers exactly
one precedes the other. -/
theorem min128_strict_total_order :
    (∀ z1 z2 : ℂ, min128 z1 z2 = true ↔
        z1.re < z2.re ∨ (z1.re = z2.re ∧ z1.im < z2.im)) ∧
    (∀ z : ℂ, min128 z z = false) ∧
    (∀ z1 z2 z3 : ℂ, min128 z1 z2 = true → min128 z2 z3 = true → min128 z1 z3 = true) ∧
    (∀ z1 z2 : ℂ, z1 ≠ z2 →
        (min128 z1 z2 = true ∧ min128 z2 z1 = false) ∨
        (min128 z1 z2 = false ∧ min128 z2 z1 = true)) := by
  refine ⟨min128_iff, ?_, ?_, ?_⟩
  · intro z
    rw [min128_eq_false_iff]
    exact Or.inr ⟨rfl, le_refl _⟩
  · intro z1 z2 z3 h1 h2
    rw [min128_iff] at *
    rcases h1 with h1 | ⟨h1, h1'⟩ <;> rcases h2 with h2 | ⟨h2, h2'⟩
    · exact Or.inl (by linarith)
    · exact Or.inl (by linarith)
    · exact Or.inl (by linarith)
    · exact Or.inr ⟨by linarith, by linarith⟩
  · intro z1 z2 hne
    rcases lt_trichotomy z1.re z2.re with h | h | h
    · exact Or.inl ⟨(min128_iff _ _).mpr (Or.inl h),
        (min128_eq_false_iff _ _).mpr (Or.inl h)⟩
    · rcases lt_trichotomy z1.im z2.im with h' | h' | h'
      · exact Or.inl ⟨(min128_iff _ _).mpr (Or.inr ⟨h, h'⟩),
          (min128_eq_false_iff _ _).mpr (Or.inr ⟨h, h'.le⟩)⟩
      · exact absurd (Complex.ext h h') hne
      · exact Or.inr ⟨(min128_eq_false_iff _ _).mpr (Or.inr ⟨h.symm, h'.le⟩),
          (min128_iff _ _).mpr (Or.inr ⟨h.symm, h'⟩)⟩
    · exact Or.inr ⟨(min128_eq_false_iff _ _).mpr (Or.inl h),
        (min128_iff _ _).mpr (Or.inl h)⟩

/-- C6: for `a ≠ 0`, `Polynomial` on `[a, b]` returns exactly the one value
`complex(-b/a, 0)`, without a buffer and with any buffer of length 1. -/
theorem Polynomial_linear
    (eigen : (n : ℕ) → Matrix (Fin n) (Fin n) ℝ → Option (Fin n → ℂ))
    (a b : ℝ) (ha : a ≠ 0) :
    Polynomial eigen none [a, b] = .ok [⟨-b / a, 0⟩] ∧
    ∀ d0 : ℂ, Polynomial eigen (some [d0]) [a, b] = .ok [⟨-b / a, 0⟩] := by
  have h1 := Polynomial_nil_eq eigen 0 a [b] ha
  simp only [List.replicate_zero, List.nil_append] at h1
  refine ⟨?_, ?_⟩
  · rw [h1]
    simp [Polynomial.switch, ha]
  · intro d0
    have h2 := Polynomial_some_eq eigen 0 a [b] ha [d0] (by simp)
    simp only [List.replicate_zero, List.nil_append] at h2
    rw [h2]
    simp [Polynomial.switch, ha]

/-- C6, witness: `[2, 1]` has the single root `-1/2`. -/
theorem Polynomial_linear_witness :
    Polynomial (fun _ _ => none) none [2, 1] = .ok [⟨-1 / 2, 0⟩] ∧
    ∀ d0 : ℂ, Polynomial (fun _ _ => none) (some [d0]) [2, 1] = .ok [⟨-1 / 2, 0⟩] :=
  Polynomial_linear (fun _ _ => none) 2 1 (by norm_num)

/-! ## Order of the returned tuples -/

theorem nonDecreasing_pair_of_false {z w : ℂ} (h : min128 w z = false) :
    NonDecreasing [z, w] := by
  simp [NonDecreasing, h]

theorem nonDecreasing_sort3 (l : List ℂ) (h : l.length = 3) :
    NonDecreasing [(sortCmplx l).getD 0 0, (sortCmplx l).getD 1 0, (sortCmplx l).getD 2 0] := by
  rw [← list_eq_getD3 _ (by rw [sortCmplx_length]; exact h)]
  exact sortCmplx_nonDecreasing l

theorem nonDecreasing_sort4 (l : List ℂ) (h : l.length = 4) :
    NonDecreasing [(sortCmplx l).getD 0 0, (sortCmplx l).getD 1 0, (sortCmplx l).getD 2 0,
      (sortCmplx l).getD 3 0] := by
  rw [← list_eq_getD4 _ (by rw [sortCmplx_length]; exact h)]
  exact sortCmplx_nonDecreasing l

theorem Poly2_nonDecreasing (p0 p1 p2 : ℝ) :
    NonDecreasing [(Poly2 p0 p1 p2).1, (Poly2 p0 p1 p2).2] := by
  unfold Poly2
  simp only []
  split_ifs with h
  · exact nonDecreasing_pair_of_false (min128_asymm h)
  · exact nonDecreasing_pair_of_false (by simpa using h)

theorem nonDecreasing_rep_lt (x0 x1 : ℝ) (h : x0 < x1) :
    NonDecreasing [(⟨x0, 0⟩ : ℂ), ⟨x1, 0⟩, ⟨x1, 0⟩] := by
  simp only [NonDecreasing, List.pairwise_cons, List.mem_cons, List.mem_singleton,
    forall_eq_or_imp, forall_eq, min128_eq_false_iff]
  simp [h]

theorem nonDecreasing_rep_ge (x0 x1 : ℝ) (h : ¬ x0 < x1) :
    NonDecreasing [(⟨x1, 0⟩ : ℂ), ⟨x1, 0⟩, ⟨x0, 0⟩] := by
  simp only [NonDecreasing, List.pairwise_cons, List.mem_cons, List.mem_singleton,
    forall_eq_or_imp, forall_eq, min128_eq_false_iff]
  have h1 := not_lt.mp h
  simp
  rcases eq_or_lt_of_le h1 with h2 | h2
  · exact Or.inr h2
  · exact Or.inl h2

theorem Poly3_nonDecreasing (p0 p1 p2 p3 : ℝ) (z : ℂ × ℂ × ℂ)
    (h : Poly3 p0 p1 p2 p3 = .ok z) : NonDecreasing [z.1, z.2.1, z.2.2] := by
  unfold Poly3 at h
  simp only [] at h
  split_ifs at h with h1 h2 h3 h4 h5
  · injection h with h
    subst h
    simp [NonDecreasing, min128]
  · injection h with h
    subst h
    exact nonDecreasing_rep_lt _ _ h3
  · injection h with h
    subst h
    exact nonDecreasing_rep_ge _ _ h3
  · injection h with h
    subst h
    exact nonDecreasing_sort3 _ rfl
  · injection h with h
    subst h
    exact nonDecreasing_sort3 _ rfl

theorem csqrt_mul_I_pos {s : ℝ} (hs : 0 < s) :
    csqrt ((⟨s, 0⟩ : ℂ) * ⟨0, 1⟩) = ⟨Real.sqrt (0.5 * s), Real.sqrt (0.5 * s)⟩ := by
  have h : ((⟨s, 0⟩ : ℂ) * ⟨0, 1⟩) = ⟨0, s⟩ := by
    apply Complex.ext <;> simp
  rw [h]
  unfold csqrt
  simp [hs.ne.symm, not_lt.mpr hs.le]

theorem nonDecreasing_four {a b c d : ℂ} (hba : min128 b a = false)
    (hca : min128 c a = false) (hda : min128 d a = false) (hcb : min128 c b = false)
    (hdb : min128 d b = false) (hdc : min128 d c = false) : NonDecreasing [a, b, c, d] := by
  simp [NonDecreasing, hba, hca, hda, hcb, hdb, hdc]

theorem min128_false_of_re_lt {z w : ℂ} (h : w.re < z.re) : min128 z w = false :=
  (min128_eq_false_iff z w).mpr (Or.inl h)

theorem min128_false_of_re_eq {z w : ℂ} (h : w.re = z.re) (h2 : w.im ≤ z.im) :
    min128 z w = false :=
  (min128_eq_false_iff z w).mpr (Or.inr ⟨h, h2⟩)

theorem min128_false_of_re_le {z w : ℂ} (h : w.re ≤ z.re) (h2 : w.im ≤ z.im) :
    min128 z w = false := by
  rcases eq_or_lt_of_le h with h3 | h3
  · exact min128_false_of_re_eq h3 h2
  · exact min128_false_of_re_lt h3

theorem nonDecreasing_neg_first (a : ℝ) (h : a > 0) :
    NonDecreasing [(⟨-a, 0⟩ : ℂ), 0, 0, 0] := by
  have h1 : min128 (0 : ℂ) ⟨-a, 0⟩ = false :=
    min128_false_of_re_lt (by simp only [Complex.zero_re]; linarith)
  have h2 : min128 (0 : ℂ) 0 = false := min128_false_of_re_eq rfl (le_refl _)
  exact nonDecreasing_four h1 h1 h1 h2 h2 h2

theorem nonDecreasing_neg_last (a : ℝ) (h : ¬ a > 0) :
    NonDecreasing [(0 : ℂ), 0, 0, ⟨-a, 0⟩] := by
  have h0 := not_lt.mp h
  have h1 : min128 (⟨-a, 0⟩ : ℂ) 0 = false :=
    min128_false_of_re_le (by simp only [Complex.zero_re]; linarith)
      (by simp only [Complex.zero_im]; exact le_refl _)
  have h2 : min128 (0 : ℂ) 0 = false := min128_false_of_re_eq rfl (le_refl _)
  exact nonDecreasing_four h2 h2 h1 h2 h1 h1

theorem nonDecreasing_diag (r : ℝ) (hr : 0 < r) :
    NonDecreasing
      [(⟨-(⟨r, r⟩ : ℂ).re, -(⟨r, r⟩ : ℂ).im⟩ : ℂ),
       ⟨-((⟨0, -1⟩ : ℂ) * ⟨r, r⟩).re, -((⟨0, -1⟩ : ℂ) * ⟨r, r⟩).im⟩,
       (⟨0, -1⟩ : ℂ) * ⟨r, r⟩, ⟨r, r⟩] := by
  have e : (⟨0, -1⟩ : ℂ) * ⟨r, r⟩ = ⟨r, -r⟩ := by
    apply Complex.ext <;> simp
  rw [e]
  refine nonDecreasing_four ?_ ?_ ?_ ?_ ?_ ?_
  · exact min128_false_of_re_eq rfl (by show -r ≤ - -r; linarith)
  · exact min128_false_of_re_lt (by show -r < r; linarith)
  · exact min128_false_of_re_lt (by show -r < r; linarith)
  · exact min128_false_of_re_lt (by show - r < r; linarith)
  · exact min128_false_of_re_lt (by show - r < r; linarith)
  · exact min128_false_of_re_eq rfl (by show -r ≤ r; linarith)

theorem nonDecreasing_axes (s : ℝ) (hs : 0 < s) :
    NonDecreasing
      [(⟨-(⟨s, 0⟩ : ℂ).re, -(⟨s, 0⟩ : ℂ).im⟩ : ℂ),
       ⟨-((⟨s, 0⟩ : ℂ) * ⟨0, 1⟩).re, -((⟨s, 0⟩ : ℂ) * ⟨0, 1⟩).im⟩,
       (⟨s, 0⟩ : ℂ) * ⟨0, 1⟩, ⟨s, 0⟩] := by
  have e : (⟨s, 0⟩ : ℂ) * ⟨0, 1⟩ = ⟨0, s⟩ := by
    apply Complex.ext <;> simp
  rw [e]
  refine nonDecreasing_four ?_ ?_ ?_ ?_ ?_ ?_
  · exact min128_false_of_re_lt (by show -s < -0; linarith)
  · exact min128_false_of_re_lt (by show -s < 0; linarith)
  · exact min128_false_of_re_lt (by show -s < s; linarith)
  · exact min128_false_of_re_eq (by show (-0 : ℝ) = 0; simp) (by show -s ≤ s; linarith)
  · exact min128_false_of_re_lt (by show -0 < s; linarith)
  · exact min128_false_of_re_lt (by show 0 < s; linarith)

theorem Poly4_nonDecreasing (p0 p1 p2 p3 p4 : ℝ) (w : ℂ × ℂ × ℂ × ℂ)
    (h : Poly4 p0 p1 p2 p3 p4 = .ok w) :
    NonDecreasing [w.1, w.2.1, w.2.2.1, w.2.2.2] := by
  unfold Poly4 at h
  simp only [] at h
  split_ifs at h with h1 h2 h3 h4 h5
  · injection h with h
    subst h
    exact nonDecreasing_neg_first _ h2
  · injection h with h
    subst h
    exact nonDecreasing_neg_last _ h2
  · injection h with h
    subst h
    have hs : 0 < Real.sqrt (p4 * (1 / p0)) := Real.sqrt_pos.mpr h4
    rw [csqrt_mul_I_pos hs]
    have hr : 0 < Real.sqrt (0.5 * Real.sqrt (p4 * (1 / p0))) :=
      Real.sqrt_pos.mpr (by linarith)
    exact nonDecreasing_diag _ hr
  · injection h with h
    subst h
    have hd : 0 < -(p4 * (1 / p0)) := by
      have h7 := not_lt.mp h4
      rcases eq_or_lt_of_le h7 with h8 | h8
      · exact absurd ⟨h3.1, h8⟩ h1
      · linarith
    have hs : 0 < Real.sqrt (-(p4 * (1 / p0))) := Real.sqrt_pos.mpr hd
    rw [csqrt_ofReal_nonneg hs.le]
    have hr : 0 < Real.sqrt (Real.sqrt (-(p4 * (1 / p0)))) := Real.sqrt_pos.mpr hs
    exact nonDecreasing_axes _ hr
  · injection h with h
    subst h
    exact nonDecreasing_sort4 _ rfl
  · split at h
    · exact absurd h (by simp)
    · injection h with h
      subst h
      exact nonDecreasing_sort4 _ rfl

theorem set2_eq (dst : List ℂ) (h : dst.length = 2) (a b : ℂ) :
    (dst.set 0 a).set 1 b = [a, b] := by
  match dst, h with
  | [_, _], _ => rfl

theorem set3_eq (dst : List ℂ) (h : dst.length = 3) (a b c : ℂ) :
    ((dst.set 0 a).set 1 b).set 2 c = [a, b, c] := by
  match dst, h with
  | [_, _, _], _ => rfl

theorem set4_eq (dst : List ℂ) (h : dst.length = 4) (a b c d : ℂ) :
    (((dst.set 0 a).set 1 b).set 2 c).set 3 d = [a, b, c, d] := by
  match dst, h with
  | [_, _, _, _], _ => rfl

theorem switch_nonDecreasing
    (eigen : (n : ℕ) → Matrix (Fin n) (Fin n) ℝ → Option (Fin n → ℂ))
    (n : ℕ) (dst : List ℂ) (ps : List ℝ) (r : List ℂ) (hd : dst.length = n)
    (h : Polynomial.switch eigen n dst ps = .ok r) : NonDecreasing r := by
  unfold Polynomial.switch at h
  split at h
  · injection h with h
    subst h
    have : dst = [] := List.length_eq_zero.mp hd
    subst this
    exact List.Pairwise.nil
  · have h1 : ∀ l : List ℂ, l.length = 1 → NonDecreasing l := by
      intro l hl
      match l, hl with
      | [_], _ => simp [NonDecreasing]
    split at h
    · split_ifs at h
      · injection h with h
        subst h
        exact h1 _ hd
      · injection h with h
        subst h
        exact h1 _ (by simp [hd])
    · exact absurd h (by simp)
  · split at h
    · injection h with h
      subst h
      rw [set2_eq dst hd]
      exact Poly2_nonDecreasing _ _ _
    · exact absurd h (by simp)
  · split at h
    · split at h
      · exact absurd h (by simp)
      · rename_i z0 z1 z2 heq
        injection h with h
        subst h
        rw [set3_eq dst hd]
        exact Poly3_nonDecreasing _ _ _ _ _ heq
    · exact absurd h (by simp)
  · split at h
    · split at h
      · exact absurd h (by simp)
      · rename_i z0 z1 z2 z3 heq
        injection h with h
        subst h
        rw [set4_eq dst hd]
        exact Poly4_nonDecreasing _ _ _ _ _ _ heq
    · exact absurd h (by simp)
  · split at h
    · injection h with h
      subst h
      exact sortCmplx_nonDecreasing _
    · exact absurd h (by simp)

theorem Polynomial_nonDecreasing
    (eigen : (n : ℕ) → Matrix (Fin n) (Fin n) ℝ → Option (Fin n → ℂ))
    (dst : Option (List ℂ)) (k : ℕ) (a : ℝ) (rest : List ℝ) (ha : a ≠ 0) (r : List ℂ)
    (h : Polynomial eigen dst (List.replicate k 0 ++ a :: rest) = .ok r) :
    NonDecreasing r := by
  cases dst with
  | none =>
    rw [Polynomial_nil_eq eigen k a rest ha] at h
    exact switch_nonDecreasing eigen _ _ _ r (by simp) h
  | some d =>
    by_cases hd : d.length = k + rest.length
    · rw [Polynomial_some_eq eigen k a rest ha d hd] at h
      exact switch_nonDecreasing eigen _ _ _ r (by simp [hd]) h
    · have hne : (d.length : Int) ≠
          ((List.replicate k (0 : ℝ) ++ a :: rest).length : Int) - 1 := by
        simp only [List.length_append, List.length_replicate, List.length_cons]
        push_cast
        intro hc
        apply hd
        omega
      rw [(Polynomial_some_lengthMismatch eigen d _).mpr hne] at h
      exact absurd h (by simp)

/-- `Poly3` returns whenever the discriminant differs from `ε`. -/
theorem Poly3_returns (p0 p1 p2 p3 : ℝ)
    (h : cubicDelta (cubicP (p1 / p0) (p2 / p0)) (cubicQ (p1 / p0) (p2 / p0) (p3 / p0)) ≠ eps) :
    ∃ z, Poly3 p0 p1 p2 p3 = .ok z := by
  cases hz : Poly3 p0 p1 p2 p3 with
  | error e => exact absurd ((Poly3_error_iff _ _ _ _ _).mp hz).2.2 h
  | ok z => exact ⟨z, rfl⟩

/-- C4: for `p0 ≠ 0`, the pair returned by `Poly2`, and the tuples returned
by `Poly3` and `Poly4` whenever they return, are non-decreasing under
`min128` (no later element strictly precedes an earlier one), in the branches
ordered by hand as in those that call `sortCmplx`; so is every result of
`Polynomial` on coefficients whose first nonzero one is `p0`, with or without
a buffer. -/
theorem closed_forms_nonDecreasing (p0 p1 p2 p3 p4 : ℝ) (hp0 : p0 ≠ 0) :
    NonDecreasing [(Poly2 p0 p1 p2).1, (Poly2 p0 p1 p2).2] ∧
    (∀ z, Poly3 p0 p1 p2 p3 = .ok z → NonDecreasing [z.1, z.2.1, z.2.2]) ∧
    (∀ w, Poly4 p0 p1 p2 p3 p4 = .ok w →
      NonDecreasing [w.1, w.2.1, w.2.2.1, w.2.2.2]) ∧
    (∀ (eigen : (n : ℕ) → Matrix (Fin n) (Fin n) ℝ → Option (Fin n → ℂ))
      (dst : Option (List ℂ)) (k : ℕ) (rest : List ℝ) (r : List ℂ),
      1 ≤ rest.length → rest.length ≤ 4 →
      Polynomial eigen dst (List.replicate k 0 ++ p0 :: rest) = .ok r →
      NonDecreasing r) :=
  ⟨Poly2_nonDecreasing p0 p1 p2, Poly3_nonDecreasing p0 p1 p2 p3,
    Poly4_nonDecreasing p0 p1 p2 p3 p4,
    fun eigen dst k rest r _ _ h => Polynomial_nonDecreasing eigen dst k p0 rest hp0 r h⟩

/-- C4, witness: the test vector `x^4 + 5 x^3` and its leading coefficients;
`Poly3 1 5 0 0` (discriminant `0`) and `Poly4 1 5 0 0 0` return, and what they
return is in order. -/
theorem closed_forms_nonDecreasing_witness :
    NonDecreasing [(Poly2 1 5 0).1, (Poly2 1 5 0).2] ∧
    (∃ z, Poly3 1 5 0 0 = .ok z ∧ NonDecreasing [z.1, z.2.1, z.2.2]) ∧
    (∃ w, Poly4 1 5 0 0 0 = .ok w ∧ NonDecreasing [w.1, w.2.1, w.2.2.1, w.2.2.2]) ∧
    (∃ r, Polynomial (fun _ _ => none) none [1, 5, 0, 0, 0] = .ok r ∧
      NonDecreasing r) := by
  have key := closed_forms_nonDecreasing 1 5 0 0 0 one_ne_zero
  have h3 : ∃ z, Poly3 1 5 0 0 = .ok z := by
    apply Poly3_returns
    unfold cubicDelta cubicP cubicQ eps
    norm_num
  have h4 : Poly4 1 5 0 0 0 = .ok (⟨-(5 * (1 / 1)), 0⟩, 0, 0, 0) := by
    unfold Poly4
    norm_num
  have h5 : Polynomial (fun _ _ => none) none [1, 5, 0, 0, 0]
      = .ok [⟨-(5 * (1 / 1)), 0⟩, 0, 0, 0] := by
    have h := Polynomial_nil_eq (fun _ _ => none) 0 1 [5, 0, 0, 0] one_ne_zero
    simp only [List.replicate_zero, List.nil_append] at h
    rw [h]
    simp [Polynomial.switch, h4]
  obtain ⟨z, hz⟩ := h3
  refine ⟨key.1, ⟨z, hz, key.2.1 z hz⟩, ⟨_, h4, key.2.2.1 _ h4⟩, ⟨_, h5, ?_⟩⟩
  have h6 : Polynomial (fun _ _ => none) none (List.replicate 0 0 ++ 1 :: [5, 0, 0, 0])
      = .ok [⟨-(5 * (1 / 1)), 0⟩, 0, 0, 0] := by
    simpa using h5
  exact key.2.2.2 _ none 0 [5, 0, 0, 0] _ (by simp) (by simp) h6

/-! ## The quadratic -/

theorem csqrt_ofReal_mul_self (x : ℝ) : csqrt ⟨x, 0⟩ * csqrt ⟨x, 0⟩ = ⟨x, 0⟩ := by
  rcases le_or_lt 0 x with h | h
  · rw [csqrt_ofReal_nonneg h]
    apply Complex.ext <;> simp [Real.mul_self_sqrt h]
  · rw [csqrt_ofReal_neg h]
    have h2 : (0 : ℝ) ≤ -x := by linarith
    apply Complex.ext <;> simp [Real.mul_self_sqrt h2]

theorem csqrt_ofReal_re_nonneg (x : ℝ) : 0 ≤ (csqrt ⟨x, 0⟩).re := by
  rcases le_or_lt 0 x with h | h
  · rw [csqrt_ofReal_nonneg h]
    exact Real.sqrt_nonneg x
  · rw [csqrt_ofReal_neg h]

theorem csqrt_ofReal_im_nonneg (x : ℝ) : 0 ≤ (csqrt ⟨x, 0⟩).im := by
  rcases le_or_lt 0 x with h | h
  · rw [csqrt_ofReal_nonneg h]
  · rw [csqrt_ofReal_neg h]
    exact Real.sqrt_nonneg _

/-- `Poly2` always returns `h - δ` first and `h + δ` second, the principal
square root `δ` of a real number having non-negative real and imaginary
parts. -/
theorem Poly2_eq (p0 p1 p2 : ℝ) :
    Poly2 p0 p1 p2 =
      ((⟨quadH p0 p1, 0⟩ : ℂ) - csqrt ⟨quadDisc p0 p1 p2, 0⟩,
       (⟨quadH p0 p1, 0⟩ : ℂ) + csqrt ⟨quadDisc p0 p1 p2, 0⟩) := by
  unfold quadDisc quadH
  have e1 : (-0.5 : ℝ) * (p1 * (1 / p0)) = -(p1 / p0) / 2 := by
    norm_num
    ring
  have e2 : (-(p1 / p0) / 2) * (-(p1 / p0) / 2) - p2 * (1 / p0)
      = (-(p1 / p0) / 2) ^ 2 - p2 / p0 := by
    ring
  unfold Poly2
  simp only [e1, e2]
  have hf : min128
      ((⟨-(p1 / p0) / 2, 0⟩ : ℂ) + csqrt ⟨(-(p1 / p0) / 2) ^ 2 - p2 / p0, 0⟩)
      ((⟨-(p1 / p0) / 2, 0⟩ : ℂ) - csqrt ⟨(-(p1 / p0) / 2) ^ 2 - p2 / p0, 0⟩) = false := by
    have hr := csqrt_ofReal_re_nonneg ((-(p1 / p0) / 2) ^ 2 - p2 / p0)
    have hi := csqrt_ofReal_im_nonneg ((-(p1 / p0) / 2) ^ 2 - p2 / p0)
    apply min128_false_of_re_le
    · simp only [Complex.sub_re, Complex.add_re]
      linarith
    · simp only [Complex.sub_im, Complex.add_im]
      linarith
  rw [hf]
  simp

/-- C7: for `p0 ≠ 0`, with `a = p1/p0`, `b = p2/p0`, `h = -a/2` (`quadH`)
and `δ` the principal square root of `h² - b` (`quadDisc`), `Poly2` returns
`h - δ` and `h + δ`, in ascending order; their sum is `-a` and their product
`b`, both are roots of `p0 x² + p1 x + p2`; for `h² - b < 0` they are a
conjugate pair with the member of negative imaginary part first, for
`h² - b ≥ 0` both have imaginary part `0`. -/
theorem Poly2_spec (p0 p1 p2 : ℝ) (hp0 : p0 ≠ 0) :
    Poly2 p0 p1 p2 =
      ((⟨quadH p0 p1, 0⟩ : ℂ) - csqrt ⟨quadDisc p0 p1 p2, 0⟩,
       (⟨quadH p0 p1, 0⟩ : ℂ) + csqrt ⟨quadDisc p0 p1 p2, 0⟩) ∧
    min128 (Poly2 p0 p1 p2).2 (Poly2 p0 p1 p2).1 = false ∧
    (Poly2 p0 p1 p2).1 + (Poly2 p0 p1 p2).2 = ((-(p1 / p0) : ℝ) : ℂ) ∧
    (Poly2 p0 p1 p2).1 * (Poly2 p0 p1 p2).2 = ((p2 / p0 : ℝ) : ℂ) ∧
    (p0 : ℂ) * (Poly2 p0 p1 p2).1 ^ 2 + (p1 : ℂ) * (Poly2 p0 p1 p2).1 + (p2 : ℂ) = 0 ∧
    (p0 : ℂ) * (Poly2 p0 p1 p2).2 ^ 2 + (p1 : ℂ) * (Poly2 p0 p1 p2).2 + (p2 : ℂ) = 0 ∧
    (quadDisc p0 p1 p2 < 0 →
      (Poly2 p0 p1 p2).1.im < 0 ∧
      (Poly2 p0 p1 p2).2 = (starRingEnd ℂ) (Poly2 p0 p1 p2).1) ∧
    (0 ≤ quadDisc p0 p1 p2 →
      (Poly2 p0 p1 p2).1.im = 0 ∧ (Poly2 p0 p1 p2).2.im = 0) := by
  have hz : Poly2 p0 p1 p2 =
      ((⟨quadH p0 p1, 0⟩ : ℂ) - csqrt ⟨quadDisc p0 p1 p2, 0⟩,
       (⟨quadH p0 p1, 0⟩ : ℂ) + csqrt ⟨quadDisc p0 p1 p2, 0⟩) := Poly2_eq p0 p1 p2
  have hδ : csqrt ⟨quadDisc p0 p1 p2, 0⟩ * csqrt ⟨quadDisc p0 p1 p2, 0⟩
      = ⟨quadDisc p0 p1 p2, 0⟩ := csqrt_ofReal_mul_self _
  generalize hδr : csqrt ⟨quadDisc p0 p1 p2, 0⟩ = δ at hz hδ
  generalize Poly2 p0 p1 p2 = z at hz
  subst hz
  have hsum : ((⟨quadH p0 p1, 0⟩ : ℂ) - δ) + ((⟨quadH p0 p1, 0⟩ : ℂ) + δ)
      = ((-(p1 / p0) : ℝ) : ℂ) := by
    apply Complex.ext
    · simp only [Complex.add_re, Complex.sub_re, Complex.ofReal_re, quadH]
      ring
    · simp only [Complex.add_im, Complex.sub_im, Complex.ofReal_im]
      ring
  have hprod : ((⟨quadH p0 p1, 0⟩ : ℂ) - δ) * ((⟨quadH p0 p1, 0⟩ : ℂ) + δ)
      = ((p2 / p0 : ℝ) : ℂ) := by
    have e : ((⟨quadH p0 p1, 0⟩ : ℂ) - δ) * ((⟨quadH p0 p1, 0⟩ : ℂ) + δ)
        = (⟨quadH p0 p1, 0⟩ : ℂ) * ⟨quadH p0 p1, 0⟩ - δ * δ := by ring
    rw [e, hδ]
    apply Complex.ext
    · simp only [Complex.sub_re, Complex.mul_re, Complex.ofReal_re, quadDisc]
      ring
    · simp only [Complex.sub_im, Complex.mul_im, Complex.ofReal_im]
      ring
  have hp1 : (p1 : ℂ) = (p0 : ℂ) * ((p1 / p0 : ℝ) : ℂ) := by
    rw [← Complex.ofReal_mul]
    congr 1
    field_simp
  have hp2 : (p2 : ℂ) = (p0 : ℂ) * ((p2 / p0 : ℝ) : ℂ) := by
    rw [← Complex.ofReal_mul]
    congr 1
    field_simp
  have ha : ((p1 / p0 : ℝ) : ℂ)
      = -(((⟨quadH p0 p1, 0⟩ : ℂ) - δ) + ((⟨quadH p0 p1, 0⟩ : ℂ) + δ)) := by
    rw [hsum]
    push_cast
    ring
  refine ⟨rfl, ?_, hsum, hprod, ?_, ?_, ?_, ?_⟩
  · have hr := csqrt_ofReal_re_nonneg (quadDisc p0 p1 p2)
    have hi := csqrt_ofReal_im_nonneg (quadDisc p0 p1 p2)
    rw [hδr] at hr
    rw [hδr] at hi
    apply min128_false_of_re_le
    · simp only [Complex.sub_re, Complex.add_re]
      linarith
    · simp only [Complex.sub_im, Complex.add_im]
      linarith
  · rw [hp1, hp2, ← hprod, ha]
    ring
  · rw [hp1, hp2, ← hprod, ha]
    ring
  · intro hneg
    have hd : δ = ⟨0, Real.sqrt (-(quadDisc p0 p1 p2))⟩ := by
      rw [← hδr]
      exact csqrt_ofReal_neg hneg
    have hs : 0 < Real.sqrt (-(quadDisc p0 p1 p2)) := Real.sqrt_pos.mpr (by linarith)
    rw [hd]
    refine ⟨?_, ?_⟩
    · simp only [Complex.sub_im]
      linarith
    · apply Complex.ext <;> simp
  · intro hpos
    have hd : δ = ⟨Real.sqrt (quadDisc p0 p1 p2), 0⟩ := by
      rw [← hδr]
      exact csqrt_ofReal_nonneg hpos
    rw [hd]
    simp

/-- C7, witness: `x² + 1` (`h = 0`, `h² - b = -1`) has the roots `-i` and
`i`, returned in this order. -/
theorem Poly2_spec_witness :
    Poly2 1 0 1 = (⟨0, -1⟩, ⟨0, 1⟩) ∧
    ((1 : ℝ) : ℂ) * (⟨0, -1⟩ : ℂ) ^ 2 + ((0 : ℝ) : ℂ) * (⟨0, -1⟩ : ℂ) + ((1 : ℝ) : ℂ) = 0 ∧
    ((1 : ℝ) : ℂ) * (⟨0, 1⟩ : ℂ) ^ 2 + ((0 : ℝ) : ℂ) * (⟨0, 1⟩ : ℂ) + ((1 : ℝ) : ℂ) = 0 := by
  have key := Poly2_spec 1 0 1 one_ne_zero
  have hd : quadDisc 1 0 1 = -1 := by
    unfold quadDisc quadH
    norm_num
  have hh : quadH 1 0 = 0 := by
    unfold quadH
    norm_num
  have hc : csqrt ⟨-1, 0⟩ = ⟨0, 1⟩ := by
    rw [csqrt_ofReal_neg (by norm_num)]
    simp
  have hz : Poly2 1 0 1 = (⟨0, -1⟩, ⟨0, 1⟩) := by
    rw [key.1, hd, hh, hc]
    refine Prod.ext ?_ ?_ <;> apply Complex.ext <;> simp
  have h1 := key.2.2.2.2.1
  have h2 := key.2.2.2.2.2.1
  rw [hz] at h1 h2
  exact ⟨hz, h1, h2⟩

/-! ## The cubic -/

/-- `Poly3` only looks at the quotients `p1/p0`, `p2/p0`, `p3/p0`. -/
theorem Poly3_monic (p0 p1 p2 p3 : ℝ) :
    Poly3 p0 p1 p2 p3 = Poly3 1 (p1 / p0) (p2 / p0) (p3 / p0) := by
  have e : ∀ x : ℝ, x / p0 * (1 / 1) = x * (1 / p0) := by
    intro x
    ring
  unfold Poly3
  simp only [e]

theorem ok3_congr {L M : List ℂ} (h : L = M) :
    (Except.ok ((sortCmplx L).getD 0 0, (sortCmplx L).getD 1 0, (sortCmplx L).getD 2 0) :
      Except Panic (ℂ × ℂ × ℂ)) =
    Except.ok ((sortCmplx M).getD 0 0, (sortCmplx M).getD 1 0, (sortCmplx M).getD 2 0) := by
  rw [h]

theorem Poly3_p_eq_monic (a b : ℝ) :
    (1 / 3.0 : ℝ) * (3 * (b * (1 / 1)) - a * (1 / 1) * (a * (1 / 1))) = cubicP a b := by
  rw [Poly3_p_eq, div_one, div_one]

theorem Poly3_q_eq_monic (a b c : ℝ) :
    (1 / 27.0 : ℝ) * (2 * (a * (1 / 1) * (a * (1 / 1))) * (a * (1 / 1))
        - 9 * (a * (1 / 1)) * (b * (1 / 1)) + 27 * (c * (1 / 1)))
      = cubicQ a b c := by
  rw [Poly3_q_eq, div_one, div_one, div_one]

theorem Poly3_oneReal (a b c : ℝ)
    (hΔ : cubicDelta (cubicP a b) (cubicQ a b c) > eps) :
    Poly3 1 a b c = .ok
      ((sortCmplx (cardanoRoots a (cubicQ a b c)
          (cubicDelta (cubicP a b) (cubicQ a b c)))).getD 0 0,
       (sortCmplx (cardanoRoots a (cubicQ a b c)
          (cubicDelta (cubicP a b) (cubicQ a b c)))).getD 1 0,
       (sortCmplx (cardanoRoots a (cubicQ a b c)
          (cubicDelta (cubicP a b) (cubicQ a b c)))).getD 2 0) := by
  have he := eps_pos
  have h0 : ¬ (cubicP a b = 0 ∧ cubicQ a b c = 0) := by
    rintro ⟨h1, h2⟩
    rw [h1, h2] at hΔ
    unfold cubicDelta at hΔ
    norm_num at hΔ
    linarith
  have h1 : ¬ (cubicDelta (cubicP a b) (cubicQ a b c) = 0 ∨
      |cubicDelta (cubicP a b) (cubicQ a b c)| < eps) := by
    rintro (h | h)
    · rw [h] at hΔ; linarith
    · rw [abs_of_pos (by linarith)] at h; linarith
  unfold Poly3
  simp only [Poly3_p_eq_monic, Poly3_q_eq_monic, Poly3_delta_eq, if_neg h0, if_neg h1,
    if_pos hΔ]
  apply ok3_congr
  unfold cardanoRoots cardanoU cardanoV
  simp only [List.cons.injEq, Complex.mk.injEq, and_true]
  refine ⟨?_, ⟨?_, ?_⟩, ?_, ?_⟩ <;> norm_num <;> ring_nf

theorem Poly3_triple (a b c : ℝ) (h : cubicP a b = 0 ∧ cubicQ a b c = 0) :
    Poly3 1 a b c = .ok (⟨-a / 3, 0⟩, ⟨-a / 3, 0⟩, ⟨-a / 3, 0⟩) := by
  unfold Poly3
  simp only [Poly3_p_eq_monic, Poly3_q_eq_monic, Poly3_delta_eq, if_pos h]
  have e : -(a * (1 / 1)) * (1 / 3.0) = -a / 3 := by
    norm_num
    ring
  rw [e]

theorem Poly3_repeated (a b c : ℝ) (h0 : ¬ (cubicP a b = 0 ∧ cubicQ a b c = 0))
    (h1 : cubicDelta (cubicP a b) (cubicQ a b c) = 0 ∨
      |cubicDelta (cubicP a b) (cubicQ a b c)| < eps) :
    Poly3 1 a b c =
      if repeatedX0 a (cubicQ a b c) < repeatedX1 a (cubicQ a b c) then
        .ok (⟨repeatedX0 a (cubicQ a b c), 0⟩, ⟨repeatedX1 a (cubicQ a b c), 0⟩,
          ⟨repeatedX1 a (cubicQ a b c), 0⟩)
      else
        .ok (⟨repeatedX1 a (cubicQ a b c), 0⟩, ⟨repeatedX1 a (cubicQ a b c), 0⟩,
          ⟨repeatedX0 a (cubicQ a b c), 0⟩) := by
  unfold Poly3
  simp only [Poly3_p_eq_monic, Poly3_q_eq_monic, Poly3_delta_eq, if_neg h0, if_pos h1]
  have e0 : -2 * cbrt (0.5 * cubicQ a b c) - a * (1 / 1) * (1 / 3.0)
      = repeatedX0 a (cubicQ a b c) := by
    unfold repeatedX0
    norm_num
    ring_nf
  have e1 : 1 * cbrt (0.5 * cubicQ a b c) - a * (1 / 1) * (1 / 3.0)
      = repeatedX1 a (cubicQ a b c) := by
    unfold repeatedX1
    norm_num
    ring_nf
  rw [e0, e1]

theorem Poly3_threeReal (a b c : ℝ)
    (hΔ : cubicDelta (cubicP a b) (cubicQ a b c) ≤ -eps) :
    Poly3 1 a b c = .ok
      ((sortCmplx (trigRoots a (cubicP a b) (cubicQ a b c))).getD 0 0,
       (sortCmplx (trigRoots a (cubicP a b) (cubicQ a b c))).getD 1 0,
       (sortCmplx (trigRoots a (cubicP a b) (cubicQ a b c))).getD 2 0) := by
  have he := eps_pos
  have h0 : ¬ (cubicP a b = 0 ∧ cubicQ a b c = 0) := by
    rintro ⟨h1, h2⟩
    rw [h1, h2] at hΔ
    unfold cubicDelta at hΔ
    norm_num at hΔ
    linarith
  have h1 : ¬ (cubicDelta (cubicP a b) (cubicQ a b c) = 0 ∨
      |cubicDelta (cubicP a b) (cubicQ a b c)| < eps) := by
    rintro (h | h)
    · rw [h] at hΔ; linarith
    · rw [abs_of_neg (by linarith)] at h; linarith
  have h2 : ¬ (cubicDelta (cubicP a b) (cubicQ a b c) > eps) := by
    intro h
    linarith
  have h3 : cubicDelta (cubicP a b) (cubicQ a b c) < eps := by linarith
  unfold Poly3
  simp only [Poly3_p_eq_monic, Poly3_q_eq_monic, Poly3_delta_eq, if_neg h0, if_neg h1,
    if_neg h2, if_pos h3]
  apply ok3_congr
  unfold trigRoots trigRoot trigTheta trigR
  simp only [List.cons.injEq, Complex.mk.injEq, and_true]
  refine ⟨?_, ?_, ?_⟩ <;> norm_num <;> ring_nf

/-- Vieta, shifted: if `t0, t1, t2` have the elementary symmetric functions
of the depressed cubic `t³ + p t + q`, then `t_i - a/3` are the three roots,
with multiplicity, of `x³ + a x² + b x + c`. -/
theorem vieta_shift (a b c : ℝ) (t0 t1 t2 : ℂ) (h1 : t0 + t1 + t2 = 0)
    (h2 : t0 * t1 + t0 * t2 + t1 * t2 = ((cubicP a b : ℝ) : ℂ))
    (h3 : t0 * t1 * t2 = -((cubicQ a b c : ℝ) : ℂ)) (x : ℂ) :
    (x - (t0 - (a : ℂ) / 3)) * (x - (t1 - (a : ℂ) / 3)) * (x - (t2 - (a : ℂ) / 3))
      = x ^ 3 + (a : ℂ) * x ^ 2 + (b : ℂ) * x + (c : ℂ) := by
  unfold cubicP at h2
  unfold cubicQ at h3
  push_cast at h2 h3
  linear_combination (-(x + (a : ℂ) / 3) ^ 2) * h1 + (x + (a : ℂ) / 3) * h2 - h3

theorem mk_eq_sub (t a : ℝ) : (⟨t - a / 3, 0⟩ : ℂ) = ((t : ℝ) : ℂ) - (a : ℂ) / 3 := by
  apply Complex.ext <;> simp

theorem mk_eq_sub_im (t s a : ℝ) :
    (⟨t - a / 3, s⟩ : ℂ) = (⟨t, s⟩ : ℂ) - (a : ℂ) / 3 := by
  apply Complex.ext <;> simp

/-- The product `(x - z0)(x - z1)(x - z2)` does not depend on the order of
the three values. -/
theorem prod_of_perm {z0 z1 z2 r0 r1 r2 : ℂ} (h : [z0, z1, z2].Perm [r0, r1, r2]) (x : ℂ) :
    (x - z0) * (x - z1) * (x - z2) = (x - r0) * (x - r1) * (x - r2) := by
  have := (List.Perm.map (fun z => x - z) h).prod_eq
  simp only [List.map_cons, List.map_nil, List.prod_cons, List.prod_nil, mul_one] at this
  rw [mul_assoc, mul_assoc]
  exact this

theorem sort3_perm (L : List ℂ) (h : L.length = 3) :
    [(sortCmplx L).getD 0 0, (sortCmplx L).getD 1 0, (sortCmplx L).getD 2 0].Perm L := by
  rw [← list_eq_getD3 _ (by rw [sortCmplx_length]; exact h)]
  exact sortCmplx_perm L

/-! ### The branch `Δ > ε` -/

theorem cardano_facts (p q : ℝ) (hΔ : 0 < cubicDelta p q) :
    3 * (cardanoU q (cubicDelta p q) * cardanoV q (cubicDelta p q)) = p ∧
    cardanoU q (cubicDelta p q) ^ 3 - cardanoV q (cubicDelta p q) ^ 3 = -q ∧
    0 < cardanoU q (cubicDelta p q) + cardanoV q (cubicDelta p q) := by
  have hs : Real.sqrt (cubicDelta p q) ^ 2 = cubicDelta p q := Real.sq_sqrt hΔ.le
  have hspos : 0 < Real.sqrt (cubicDelta p q) := Real.sqrt_pos.mpr hΔ
  have hu : cardanoU q (cubicDelta p q) ^ 3 = -q / 2 + Real.sqrt (cubicDelta p q) :=
    cbrt_pow_three _
  have hv : cardanoV q (cubicDelta p q) ^ 3 = q / 2 + Real.sqrt (cubicDelta p q) :=
    cbrt_pow_three _
  generalize cardanoU q (cubicDelta p q) = u at hu
  generalize cardanoV q (cubicDelta p q) = v at hv
  generalize Real.sqrt (cubicDelta p q) = s at hs hspos hu hv
  unfold cubicDelta at hs
  refine ⟨?_, ?_, ?_⟩
  · have h3 : (u * v) ^ 3 = (p / 3) ^ 3 := by
      rw [mul_pow, hu, hv]
      linear_combination hs
    have := cube_injective h3
    linarith
  · rw [hu, hv]
    ring
  · have h3 : (-v) ^ 3 < u ^ 3 := by
      have : (-v) ^ 3 = -(v ^ 3) := by ring
      rw [this, hu, hv]
      linarith
    have := cube_lt_cube h3
    linarith

theorem sqrt_three_sq : Real.sqrt 3 ^ 2 = 3 := Real.sq_sqrt (by norm_num)

theorem cardano_vieta (a b c : ℝ) (hΔ : 0 < cubicDelta (cubicP a b) (cubicQ a b c)) (x : ℂ) :
    (x - (cardanoRoots a (cubicQ a b c) (cubicDelta (cubicP a b) (cubicQ a b c))).getD 0 0) *
    (x - (cardanoRoots a (cubicQ a b c) (cubicDelta (cubicP a b) (cubicQ a b c))).getD 1 0) *
    (x - (cardanoRoots a (cubicQ a b c) (cubicDelta (cubicP a b) (cubicQ a b c))).getD 2 0)
      = x ^ 3 + (a : ℂ) * x ^ 2 + (b : ℂ) * x + (c : ℂ) := by
  obtain ⟨huv, hq, _⟩ := cardano_facts (cubicP a b) (cubicQ a b c) hΔ
  have hr := sqrt_three_sq
  unfold cardanoRoots
  simp only [List.getD_cons_zero, List.getD_cons_succ]
  generalize cardanoU (cubicQ a b c) (cubicDelta (cubicP a b) (cubicQ a b c)) = u at huv hq
  generalize cardanoV (cubicQ a b c) (cubicDelta (cubicP a b) (cubicQ a b c)) = v at huv hq
  generalize Real.sqrt 3 = r at hr
  have e0 : (⟨u - v - a / 3, 0⟩ : ℂ) = (((u - v : ℝ)) : ℂ) - (a : ℂ) / 3 := mk_eq_sub _ _
  have e1 : (⟨-(u - v) / 2 - a / 3, (u + v) * r / 2⟩ : ℂ)
      = (⟨-(u - v) / 2, (u + v) * r / 2⟩ : ℂ) - (a : ℂ) / 3 := mk_eq_sub_im _ _ _
  have e2 : (⟨-(u - v) / 2 - a / 3, -((u + v) * r / 2)⟩ : ℂ)
      = (⟨-(u - v) / 2, -((u + v) * r / 2)⟩ : ℂ) - (a : ℂ) / 3 := mk_eq_sub_im _ _ _
  rw [e0, e1, e2]
  apply vieta_shift
  · apply Complex.ext
    · simp only [Complex.add_re, Complex.ofReal_re, Complex.zero_re]
      ring
    · simp only [Complex.add_im, Complex.ofReal_im, Complex.zero_im]
      ring
  · apply Complex.ext
    · simp only [Complex.add_re, Complex.mul_re, Complex.ofReal_re, Complex.ofReal_im]
      linear_combination huv + ((u + v) ^ 2 / 4) * hr
    · simp only [Complex.add_im, Complex.mul_im, Complex.ofReal_re, Complex.ofReal_im]
      ring
  · apply Complex.ext
    · simp only [Complex.mul_re, Complex.mul_im, Complex.ofReal_re, Complex.ofReal_im,
        Complex.neg_re]
      linear_combination hq + ((u - v) * (u + v) ^ 2 / 4) * hr
    · simp only [Complex.mul_re, Complex.mul_im, Complex.ofReal_re, Complex.ofReal_im,
        Complex.neg_im]
      ring

theorem root_of_prod {a b c : ℝ} {r0 r1 r2 : ℂ}
    (h : ∀ x : ℂ, (x - r0) * (x - r1) * (x - r2)
      = x ^ 3 + (a : ℂ) * x ^ 2 + (b : ℂ) * x + (c : ℂ))
    {z : ℂ} (hz : z ∈ [r0, r1, r2]) :
    z ^ 3 + (a : ℂ) * z ^ 2 + (b : ℂ) * z + (c : ℂ) = 0 := by
  rw [← h z]
  simp only [List.mem_cons, List.mem_singleton, List.not_mem_nil, or_false] at hz
  rcases hz with rfl | rfl | rfl <;> simp

theorem cardanoRoots_eq (a q Δ : ℝ) :
    cardanoRoots a q Δ = [(cardanoRoots a q Δ).getD 0 0, (cardanoRoots a q Δ).getD 1 0,
      (cardanoRoots a q Δ).getD 2 0] := rfl

/-- In exact arithmetic, where the `Δ` that `Poly3` tests is the discriminant
of the input (the program tests a rounded one): for `p0 ≠ 0` and
discriminant `Δ > ε`, `Poly3` returns the sorted
arrangement of the real root `u - v - a/3` and the pair
`-(u - v)/2 - a/3 ± i (u + v) sqrt(3)/2`, with `u = cbrt(-q/2 + sqrt Δ)`,
`v = cbrt(q/2 + sqrt Δ)`; each of the three is a root of
`x³ + a x² + b x + c`, exactly one has imaginary part `0`, and the other two
are complex conjugates with nonzero imaginary part. -/
theorem Poly3_one_real_root (p0 p1 p2 p3 : ℝ) (hp0 : p0 ≠ 0)
    (hΔ : discriminant p0 p1 p2 p3 > eps) :
    ∃ z0 z1 z2 w : ℂ,
      Poly3 p0 p1 p2 p3 = .ok (z0, z1, z2) ∧
      [z0, z1, z2] =
        sortCmplx (cardanoRoots (p1 / p0) (depressedQ p0 p1 p2 p3) (discriminant p0 p1 p2 p3)) ∧
      [z0, z1, z2].Perm
        (cardanoRoots (p1 / p0) (depressedQ p0 p1 p2 p3) (discriminant p0 p1 p2 p3)) ∧
      NonDecreasing [z0, z1, z2] ∧
      (∀ z ∈ [z0, z1, z2],
        z ^ 3 + ((p1 / p0 : ℝ) : ℂ) * z ^ 2 + ((p2 / p0 : ℝ) : ℂ) * z + ((p3 / p0 : ℝ) : ℂ) = 0) ∧
      (∀ z ∈ [z0, z1, z2],
        (p0 : ℂ) * z ^ 3 + (p1 : ℂ) * z ^ 2 + (p2 : ℂ) * z + (p3 : ℂ) = 0) ∧
      List.countP (fun z : ℂ => decide (z.im = 0)) [z0, z1, z2] = 1 ∧
      w.im ≠ 0 ∧
      cardanoRoots (p1 / p0) (depressedQ p0 p1 p2 p3) (discriminant p0 p1 p2 p3)
        = [⟨cardanoU (depressedQ p0 p1 p2 p3) (discriminant p0 p1 p2 p3)
            - cardanoV (depressedQ p0 p1 p2 p3) (discriminant p0 p1 p2 p3) - p1 / p0 / 3, 0⟩,
           w, (starRingEnd ℂ) w] := by
  have he := eps_pos
  have hpos : 0 < cubicDelta (cubicP (p1 / p0) (p2 / p0))
      (cubicQ (p1 / p0) (p2 / p0) (p3 / p0)) := by
    unfold discriminant depressedP depressedQ at hΔ
    linarith
  have hL : (cardanoRoots (p1 / p0) (depressedQ p0 p1 p2 p3)
      (discriminant p0 p1 p2 p3)).length = 3 := rfl
  have hperm := sort3_perm _ hL
  have hv : ∀ x : ℂ, _ := cardano_vieta (p1 / p0) (p2 / p0) (p3 / p0) hpos
  obtain ⟨_, _, hsum⟩ := cardano_facts _ _ hpos
  have hs3 : 0 < Real.sqrt 3 := Real.sqrt_pos.mpr (by norm_num)
  have him : 0 < (cardanoU (depressedQ p0 p1 p2 p3) (discriminant p0 p1 p2 p3)
      + cardanoV (depressedQ p0 p1 p2 p3) (discriminant p0 p1 p2 p3)) * Real.sqrt 3 / 2 := by
    unfold discriminant depressedP depressedQ
    positivity
  have hroot : ∀ z ∈ [(sortCmplx (cardanoRoots (p1 / p0) (depressedQ p0 p1 p2 p3)
        (discriminant p0 p1 p2 p3))).getD 0 0,
      (sortCmplx (cardanoRoots (p1 / p0) (depressedQ p0 p1 p2 p3)
        (discriminant p0 p1 p2 p3))).getD 1 0,
      (sortCmplx (cardanoRoots (p1 / p0) (depressedQ p0 p1 p2 p3)
        (discriminant p0 p1 p2 p3))).getD 2 0],
      z ^ 3 + ((p1 / p0 : ℝ) : ℂ) * z ^ 2 + ((p2 / p0 : ℝ) : ℂ) * z
        + ((p3 / p0 : ℝ) : ℂ) = 0 := by
    intro z hz
    have hz2 := hperm.mem_iff.mp hz
    rw [cardanoRoots_eq] at hz2
    exact root_of_prod hv hz2
  refine ⟨_, _, _,
    (cardanoRoots (p1 / p0) (depressedQ p0 p1 p2 p3) (discriminant p0 p1 p2 p3)).getD 1 0,
    ?_, ?_, hperm, ?_, hroot, ?_, ?_, ?_, ?_⟩
  · rw [Poly3_monic]
    exact Poly3_oneReal (p1 / p0) (p2 / p0) (p3 / p0) hΔ
  · exact (list_eq_getD3 _ (by rw [sortCmplx_length]; exact hL)).symm
  · exact nonDecreasing_sort3 _ hL
  · intro z hz
    have h := hroot z hz
    have e : (p0 : ℂ) * z ^ 3 + (p1 : ℂ) * z ^ 2 + (p2 : ℂ) * z + (p3 : ℂ)
        = (p0 : ℂ) * (z ^ 3 + ((p1 / p0 : ℝ) : ℂ) * z ^ 2 + ((p2 / p0 : ℝ) : ℂ) * z
          + ((p3 / p0 : ℝ) : ℂ)) := by
      have hc : (p0 : ℂ) ≠ 0 := Complex.ofReal_ne_zero.mpr hp0
      push_cast
      field_simp
      ring
    rw [e, h, mul_zero]
  · rw [hperm.countP_eq]
    unfold cardanoRoots
    simp [List.countP_cons, him.ne.symm]
  · exact him.ne.symm
  · unfold cardanoRoots
    simp only [List.getD_cons_zero, List.getD_cons_succ]
    refine congrArg₂ List.cons ?_ (congrArg₂ List.cons rfl (congrArg₂ List.cons ?_ rfl))
    · apply Complex.ext
      · show _ - _ - p1 / p0 / 3 = _ - _ - p1 / p0 / 3
        rfl
      · rfl
    · apply Complex.ext <;> simp

/-! ### The branch `Δ < ε` (trigonometric form) -/

theorem cos_add_two_pi_div_three (φ : ℝ) :
    Real.cos (φ + 2 * Real.pi / 3) = -Real.cos φ / 2 - Real.sin φ * Real.sqrt 3 / 2 := by
  have e : φ + 2 * Real.pi / 3 = φ + (Real.pi - Real.pi / 3) := by ring
  rw [e, Real.cos_add, Real.cos_pi_sub, Real.sin_pi_sub, Real.cos_pi_div_three,
    Real.sin_pi_div_three]
  ring

theorem cos_add_four_pi_div_three (φ : ℝ) :
    Real.cos (φ + 4 * Real.pi / 3) = -Real.cos φ / 2 + Real.sin φ * Real.sqrt 3 / 2 := by
  have e : φ + 4 * Real.pi / 3 = φ + (Real.pi / 3 + Real.pi) := by ring
  rw [e, Real.cos_add, Real.cos_add_pi, Real.sin_add_pi, Real.cos_pi_div_three,
    Real.sin_pi_div_three]
  ring

theorem trig_facts (p q : ℝ) (hΔ : cubicDelta p q < 0) :
    0 < cbrt (trigR p) ∧ cbrt (trigR p) ^ 2 = -p / 3 ∧
    2 * cbrt (trigR p) ^ 3 *
      (4 * Real.cos (trigTheta p q / 3) ^ 3 - 3 * Real.cos (trigTheta p q / 3)) = -q := by
  unfold cubicDelta at hΔ
  have hp3 : p ^ 3 < 0 := by nlinarith [sq_nonneg q]
  have hp : p < 0 := by
    by_contra h
    have : 0 ≤ p ^ 3 := pow_nonneg (not_lt.mp h) 3
    linarith
  have hpp : 0 < (-p / 3) ^ 3 := by
    have : 0 < -p / 3 := by linarith
    positivity
  have hR : 0 < trigR p := Real.sqrt_pos.mpr hpp
  have hR2 : trigR p ^ 2 = (-p / 3) ^ 3 := Real.sq_sqrt hpp.le
  have hm3 : cbrt (trigR p) ^ 3 = trigR p := cbrt_pow_three _
  have hm : 0 < cbrt (trigR p) := by
    have : (0 : ℝ) ^ 3 < cbrt (trigR p) ^ 3 := by
      rw [hm3]
      simpa using hR
    exact cube_lt_cube this
  have hm2 : cbrt (trigR p) ^ 2 = -p / 3 := by
    apply cube_injective
    calc (cbrt (trigR p) ^ 2) ^ 3 = (cbrt (trigR p) ^ 3) ^ 2 := by ring
      _ = (-p / 3) ^ 3 := by rw [hm3, hR2]
  have hx2 : (-q / (2 * trigR p)) ^ 2 ≤ 1 := by
    rw [div_pow, div_le_one (by positivity)]
    have : (2 * trigR p) ^ 2 = 4 * (-p / 3) ^ 3 := by rw [mul_pow, hR2]; norm_num
    rw [this]
    nlinarith
  have habs := abs_le.mp ((sq_le_one_iff_abs_le_one _).mp hx2)
  have hcos : Real.cos (trigTheta p q) = -q / (2 * trigR p) :=
    Real.cos_arccos habs.1 habs.2
  have h3 : Real.cos (trigTheta p q) =
      4 * Real.cos (trigTheta p q / 3) ^ 3 - 3 * Real.cos (trigTheta p q / 3) := by
    rw [← Real.cos_three_mul]
    congr 1
    ring
  refine ⟨hm, hm2, ?_⟩
  rw [← h3, hcos, hm3]
  field_simp
  ring

theorem trig_vieta (a b c : ℝ) (hΔ : cubicDelta (cubicP a b) (cubicQ a b c) < 0) (x : ℂ) :
    (x - (trigRoots a (cubicP a b) (cubicQ a b c)).getD 0 0) *
    (x - (trigRoots a (cubicP a b) (cubicQ a b c)).getD 1 0) *
    (x - (trigRoots a (cubicP a b) (cubicQ a b c)).getD 2 0)
      = x ^ 3 + (a : ℂ) * x ^ 2 + (b : ℂ) * x + (c : ℂ) := by
  obtain ⟨_, hm, hC⟩ := trig_facts (cubicP a b) (cubicQ a b c) hΔ
  have hw := sqrt_three_sq
  have hS := Real.sin_sq_add_cos_sq (trigTheta (cubicP a b) (cubicQ a b c) / 3)
  have e0 : (trigTheta (cubicP a b) (cubicQ a b c) + 2 * ((0 : ℕ) : ℝ) * Real.pi) / 3
      = trigTheta (cubicP a b) (cubicQ a b c) / 3 := by
    push_cast
    ring
  have e1 : (trigTheta (cubicP a b) (cubicQ a b c) + 2 * ((1 : ℕ) : ℝ) * Real.pi) / 3
      = trigTheta (cubicP a b) (cubicQ a b c) / 3 + 2 * Real.pi / 3 := by
    push_cast
    ring
  have e2 : (trigTheta (cubicP a b) (cubicQ a b c) + 2 * ((2 : ℕ) : ℝ) * Real.pi) / 3
      = trigTheta (cubicP a b) (cubicQ a b c) / 3 + 4 * Real.pi / 3 := by
    push_cast
    ring
  unfold trigRoots trigRoot
  simp only [List.getD_cons_zero, List.getD_cons_succ]
  rw [e0, e1, e2, cos_add_two_pi_div_three, cos_add_four_pi_div_three]
  generalize Real.cos (trigTheta (cubicP a b) (cubicQ a b c) / 3) = C at hC hS
  generalize Real.sin (trigTheta (cubicP a b) (cubicQ a b c) / 3) = S at hS
  generalize cbrt (trigR (cubicP a b)) = m at hm hC
  generalize Real.sqrt 3 = w at hw
  rw [mk_eq_sub, mk_eq_sub, mk_eq_sub]
  apply vieta_shift
  · push_cast
    ring
  · rw [← Complex.ofReal_mul, ← Complex.ofReal_mul, ← Complex.ofReal_mul,
      ← Complex.ofReal_add, ← Complex.ofReal_add]
    congr 1
    linear_combination (-3 * m ^ 2) * hS - (m ^ 2 * S ^ 2) * hw - 3 * hm
  · rw [← Complex.ofReal_mul, ← Complex.ofReal_mul, ← Complex.ofReal_neg]
    congr 1
    linear_combination hC - (6 * m ^ 3 * C) * hS - (2 * m ^ 3 * C * S ^ 2) * hw

/-! ### The branches `p = q = 0` and `Δ = 0` -/

theorem triple_vieta (a b c : ℝ) (h : cubicP a b = 0 ∧ cubicQ a b c = 0) (x : ℂ) :
    (x - (⟨-a / 3, 0⟩ : ℂ)) * (x - (⟨-a / 3, 0⟩ : ℂ)) * (x - (⟨-a / 3, 0⟩ : ℂ))
      = x ^ 3 + (a : ℂ) * x ^ 2 + (b : ℂ) * x + (c : ℂ) := by
  have e : (⟨-a / 3, 0⟩ : ℂ) = ((0 : ℝ) : ℂ) - (a : ℂ) / 3 := by
    apply Complex.ext <;> simp
    ring
  rw [e]
  apply vieta_shift
  · simp
  · rw [h.1]
    simp
  · rw [h.2]
    simp

theorem repeated_vieta (a b c : ℝ) (hΔ : cubicDelta (cubicP a b) (cubicQ a b c) = 0)
    (x : ℂ) :
    (x - (⟨repeatedX0 a (cubicQ a b c), 0⟩ : ℂ)) * (x - (⟨repeatedX1 a (cubicQ a b c), 0⟩ : ℂ)) *
      (x - (⟨repeatedX1 a (cubicQ a b c), 0⟩ : ℂ))
      = x ^ 3 + (a : ℂ) * x ^ 2 + (b : ℂ) * x + (c : ℂ) := by
  have ht : cbrt (cubicQ a b c / 2) ^ 3 = cubicQ a b c / 2 := cbrt_pow_three _
  unfold repeatedX0 repeatedX1
  generalize cbrt (cubicQ a b c / 2) = t at ht
  have hp : cubicP a b / 3 = -t ^ 2 := by
    apply cube_injective
    unfold cubicDelta at hΔ
    have : (-t ^ 2) ^ 3 = -(t ^ 3) ^ 2 := by ring
    rw [this, ht]
    linear_combination hΔ
  rw [mk_eq_sub, mk_eq_sub]
  apply vieta_shift
  · push_cast
    ring
  · rw [← Complex.ofReal_mul, ← Complex.ofReal_mul, ← Complex.ofReal_add,
      ← Complex.ofReal_add]
    congr 1
    linear_combination -3 * hp
  · rw [← Complex.ofReal_mul, ← Complex.ofReal_mul, ← Complex.ofReal_neg]
    congr 1
    linear_combination -2 * ht

/-! ### Round trip -/

theorem monicCoeffs_prod (z0 z1 z2 x : ℂ) :
    (x - z0) * (x - z1) * (x - z2)
      = (monicCoeffs z0 z1 z2).getD 0 0 * x ^ 3 + (monicCoeffs z0 z1 z2).getD 1 0 * x ^ 2
        + (monicCoeffs z0 z1 z2).getD 2 0 * x + (monicCoeffs z0 z1 z2).getD 3 0 := by
  unfold monicCoeffs
  simp only [List.getD_cons_zero, List.getD_cons_succ]
  ring

theorem coeffs_of_prod {z0 z1 z2 A B C : ℂ}
    (h : ∀ x : ℂ, (x - z0) * (x - z1) * (x - z2) = x ^ 3 + A * x ^ 2 + B * x + C) :
    monicCoeffs z0 z1 z2 = [1, A, B, C] := by
  have h0 := h 0
  have h1 := h 1
  have hm := h (-1)
  unfold monicCoeffs
  refine congrArg₂ List.cons rfl (congrArg₂ List.cons ?_ (congrArg₂ List.cons ?_
    (congrArg₂ List.cons ?_ rfl)))
  · linear_combination (h1 + hm) / 2 - h0
  · linear_combination (h1 - hm) / 2
  · linear_combination h0

theorem relClose_refl {tol : ℝ} (ht : 0 ≤ tol) (x : ℂ) : relClose tol x x := by
  unfold relClose
  rw [sub_self, map_zero]
  exact mul_nonneg ht (le_max_of_le_left (AbsoluteValue.nonneg Complex.abs x))

theorem forall2_relClose_refl {tol : ℝ} (ht : 0 ≤ tol) (l : List ℂ) :
    List.Forall₂ (relClose tol) l l := by
  induction l with
  | nil => exact List.Forall₂.nil
  | cons x xs ih => exact List.Forall₂.cons (relClose_refl ht x) ih

theorem cbrt_zero : cbrt 0 = 0 := by
  apply cube_injective
  rw [cbrt_pow_three]
  norm_num

/-- Outside the tolerance band `0 < |Δ| < ε` the values returned by `Poly3`
are, in every order, the three roots with multiplicity of the monic cubic. -/
theorem Poly3_prod (a b c : ℝ) (z0 z1 z2 : ℂ) (h : Poly3 1 a b c = .ok (z0, z1, z2))
    (hband : cubicDelta (cubicP a b) (cubicQ a b c) = 0 ∨
      eps ≤ |cubicDelta (cubicP a b) (cubicQ a b c)|) (x : ℂ) :
    (x - z0) * (x - z1) * (x - z2) = x ^ 3 + (a : ℂ) * x ^ 2 + (b : ℂ) * x + (c : ℂ) := by
  have he := eps_pos
  by_cases hpq : cubicP a b = 0 ∧ cubicQ a b c = 0
  · rw [Poly3_triple a b c hpq] at h
    simp only [Except.ok.injEq, Prod.mk.injEq] at h
    obtain ⟨rfl, rfl, rfl⟩ := h
    exact triple_vieta a b c hpq x
  · by_cases hz : cubicDelta (cubicP a b) (cubicQ a b c) = 0
    · rw [Poly3_repeated a b c hpq (Or.inl hz)] at h
      split_ifs at h
      · simp only [Except.ok.injEq, Prod.mk.injEq] at h
        obtain ⟨rfl, rfl, rfl⟩ := h
        exact repeated_vieta a b c hz x
      · simp only [Except.ok.injEq, Prod.mk.injEq] at h
        obtain ⟨rfl, rfl, rfl⟩ := h
        rw [← repeated_vieta a b c hz x]
        ring
    · have hge : eps ≤ |cubicDelta (cubicP a b) (cubicQ a b c)| := by
        rcases hband with h1 | h1
        · exact absurd h1 hz
        · exact h1
      rcases lt_or_gt_of_ne hz with hneg | hpos
      · rw [abs_of_neg hneg] at hge
        have hle : cubicDelta (cubicP a b) (cubicQ a b c) ≤ -eps := by linarith
        rw [Poly3_threeReal a b c hle] at h
        simp only [Except.ok.injEq, Prod.mk.injEq] at h
        obtain ⟨rfl, rfl, rfl⟩ := h
        have hperm : [(sortCmplx (trigRoots a (cubicP a b) (cubicQ a b c))).getD 0 0,
            (sortCmplx (trigRoots a (cubicP a b) (cubicQ a b c))).getD 1 0,
            (sortCmplx (trigRoots a (cubicP a b) (cubicQ a b c))).getD 2 0].Perm
            [(trigRoots a (cubicP a b) (cubicQ a b c)).getD 0 0,
             (trigRoots a (cubicP a b) (cubicQ a b c)).getD 1 0,
             (trigRoots a (cubicP a b) (cubicQ a b c)).getD 2 0] := sort3_perm _ rfl
        exact (prod_of_perm hperm x).trans (trig_vieta a b c hneg x)
      · rw [abs_of_pos hpos] at hge
        rcases eq_or_lt_of_le hge with heq | hgt
        · have herr : Poly3 1 a b c = .error Panic.impossibleDelta := by
            rw [Poly3_error_iff, div_one, div_one, div_one]
            exact ⟨rfl, hpq, heq.symm⟩
          rw [herr] at h
          exact absurd h (by simp)
        · rw [Poly3_oneReal a b c hgt] at h
          simp only [Except.ok.injEq, Prod.mk.injEq] at h
          obtain ⟨rfl, rfl, rfl⟩ := h
          have hperm :
              [(sortCmplx (cardanoRoots a (cubicQ a b c)
                  (cubicDelta (cubicP a b) (cubicQ a b c)))).getD 0 0,
               (sortCmplx (cardanoRoots a (cubicQ a b c)
                  (cubicDelta (cubicP a b) (cubicQ a b c)))).getD 1 0,
               (sortCmplx (cardanoRoots a (cubicQ a b c)
                  (cubicDelta (cubicP a b) (cubicQ a b c)))).getD 2 0].Perm
              [(cardanoRoots a (cubicQ a b c)
                  (cubicDelta (cubicP a b) (cubicQ a b c))).getD 0 0,
               (cardanoRoots a (cubicQ a b c)
                  (cubicDelta (cubicP a b) (cubicQ a b c))).getD 1 0,
               (cardanoRoots a (cubicQ a b c)
                  (cubicDelta (cubicP a b) (cubicQ a b c))).getD 2 0] := sort3_perm _ rfl
          exact (prod_of_perm hperm x).trans (cardano_vieta a b c hpos x)

theorem bandShift_facts (a b c : ℝ) :
    cubicQ a (b - (cubicP a b + 3 * cbrt (cubicQ a b c / 2) ^ 2))
        (c - a * (cubicP a b + 3 * cbrt (cubicQ a b c / 2) ^ 2) / 3) = cubicQ a b c ∧
    cubicDelta (cubicP a (b - (cubicP a b + 3 * cbrt (cubicQ a b c / 2) ^ 2)))
        (cubicQ a b c) = 0 ∧
    27 * cubicDelta (cubicP a b) (cubicQ a b c)
      = (cubicP a b + 3 * cbrt (cubicQ a b c / 2) ^ 2)
        * (cubicP a b ^ 2 - 3 * cubicP a b * cbrt (cubicQ a b c / 2) ^ 2
          + 9 * cbrt (cubicQ a b c / 2) ^ 4) := by
  have ht : cbrt (cubicQ a b c / 2) ^ 3 = cubicQ a b c / 2 := cbrt_pow_three _
  generalize cbrt (cubicQ a b c / 2) = t at ht
  refine ⟨?_, ?_, ?_⟩
  · unfold cubicQ cubicP
    ring
  · have hp : cubicP a (b - (cubicP a b + 3 * t ^ 2)) = -3 * t ^ 2 := by
      unfold cubicP
      ring
    rw [hp]
    unfold cubicDelta
    linear_combination (-(cubicQ a b c) / 2 - t ^ 3) * ht
  · unfold cubicDelta
    linear_combination (-27 * (cubicQ a b c) / 2 - 27 * t ^ 3) * ht

/-- Inside or outside the band, the repeated-root values are the roots, with
multiplicity, of the cubic with the same `a` and `q` and discriminant `0`:
`x³ + a x² + (b - e) x + (c - a e/3)` with `e = p + 3 cbrt(q/2)²`. -/
theorem repeated_vieta_shift (a b c : ℝ) (x : ℂ) :
    (x - (⟨repeatedX0 a (cubicQ a b c), 0⟩ : ℂ)) * (x - (⟨repeatedX1 a (cubicQ a b c), 0⟩ : ℂ)) *
      (x - (⟨repeatedX1 a (cubicQ a b c), 0⟩ : ℂ))
      = x ^ 3 + (a : ℂ) * x ^ 2
        + ((b - (cubicP a b + 3 * cbrt (cubicQ a b c / 2) ^ 2) : ℝ) : ℂ) * x
        + ((c - a * (cubicP a b + 3 * cbrt (cubicQ a b c / 2) ^ 2) / 3 : ℝ) : ℂ) := by
  obtain ⟨hq, hΔ, _⟩ := bandShift_facts a b c
  have h := repeated_vieta a (b - (cubicP a b + 3 * cbrt (cubicQ a b c / 2) ^ 2))
    (c - a * (cubicP a b + 3 * cbrt (cubicQ a b c / 2) ^ 2) / 3) (by rw [hq]; exact hΔ) x
  rw [hq] at h
  exact h

theorem Poly3_prod_band (a b c : ℝ) (z0 z1 z2 : ℂ) (h : Poly3 1 a b c = .ok (z0, z1, z2))
    (hband : 0 < |cubicDelta (cubicP a b) (cubicQ a b c)| ∧
      |cubicDelta (cubicP a b) (cubicQ a b c)| < eps) (x : ℂ) :
    (x - z0) * (x - z1) * (x - z2)
      = x ^ 3 + (a : ℂ) * x ^ 2
        + ((b - (cubicP a b + 3 * cbrt (cubicQ a b c / 2) ^ 2) : ℝ) : ℂ) * x
        + ((c - a * (cubicP a b + 3 * cbrt (cubicQ a b c / 2) ^ 2) / 3 : ℝ) : ℂ) := by
  have hpq : ¬ (cubicP a b = 0 ∧ cubicQ a b c = 0) := by
    rintro ⟨h1, h2⟩
    rw [h1, h2] at hband
    unfold cubicDelta at hband
    norm_num at hband
  rw [Poly3_repeated a b c hpq (Or.inr hband.2)] at h
  split_ifs at h
  · simp only [Except.ok.injEq, Prod.mk.injEq] at h
    obtain ⟨rfl, rfl, rfl⟩ := h
    exact repeated_vieta_shift a b c x
  · simp only [Except.ok.injEq, Prod.mk.injEq] at h
    obtain ⟨rfl, rfl, rfl⟩ := h
    rw [← repeated_vieta_shift a b c x]
    ring

theorem relClose_ofReal (tol x y : ℝ) :
    relClose tol ((x : ℝ) : ℂ) ((y : ℝ) : ℂ) ↔ |x - y| ≤ tol * max |x| |y| := by
  unfold relClose
  rw [← Complex.ofReal_sub, Complex.abs_ofReal, Complex.abs_ofReal, Complex.abs_ofReal]

theorem Poly3_repeated_example :
    Poly3 1 5 0 0 = .ok (⟨-5, 0⟩, ⟨0, 0⟩, ⟨0, 0⟩) := by
  have hq : cubicQ 5 0 0 = 250 / 27 := by
    unfold cubicQ
    norm_num
  have hc : cbrt (250 / 27 / 2) = 5 / 3 := by
    apply cube_injective
    rw [cbrt_pow_three]
    norm_num
  have h0 : ¬ (cubicP 5 0 = 0 ∧ cubicQ 5 0 0 = 0) := by
    rw [hq]
    norm_num
  have h1 : cubicDelta (cubicP 5 0) (cubicQ 5 0 0) = 0 ∨
      |cubicDelta (cubicP 5 0) (cubicQ 5 0 0)| < eps := by
    left
    unfold cubicDelta cubicP cubicQ
    norm_num
  have hx0 : repeatedX0 5 (cubicQ 5 0 0) = -5 := by
    unfold repeatedX0
    rw [hq, hc]
    norm_num
  have hx1 : repeatedX1 5 (cubicQ 5 0 0) = 0 := by
    unfold repeatedX1
    rw [hq, hc]
    norm_num
  rw [Poly3_repeated 5 0 0 h0 h1, hx0, hx1]
  norm_num

/-- C9 (as the code has it), in exact arithmetic: for `p0 ≠ 0`, whenever
`Poly3` returns `(z0, z1, z2)`, the coefficients of the monic polynomial
`(x - z0)(x - z1)(x - z2)` are `(1, a, b - e, c - a e/3)`, with
`(a, b, c) = (p1/p0, p2/p0, p3/p0)` and `e = bandError`: `e = 0` when `Δ = 0`
or `|Δ| ≥ ε`, where the normalised coefficients are reproduced exactly, and
`e = p + 3 cbrt(q/2)² ≠ 0` inside the band `0 < |Δ| < ε`.  So the
coefficients agree with `(1, a, b, c)` within relative tolerance `1e-9`
exactly when `|e| ≤ 1e-9 max(|b - e|, |b|)` and
`|a e/3| ≤ 1e-9 max(|c - a e/3|, |c|)`. -/
theorem Poly3_roundtrip (p0 p1 p2 p3 : ℝ) (hp0 : p0 ≠ 0) (z0 z1 z2 : ℂ)
    (h : Poly3 p0 p1 p2 p3 = .ok (z0, z1, z2)) :
    monicCoeffs z0 z1 z2
      = [1, ((p1 / p0 : ℝ) : ℂ), ((p2 / p0 - bandError p0 p1 p2 p3 : ℝ) : ℂ),
          ((p3 / p0 - p1 / p0 * bandError p0 p1 p2 p3 / 3 : ℝ) : ℂ)] ∧
    ((discriminant p0 p1 p2 p3 = 0 ∨ eps ≤ |discriminant p0 p1 p2 p3|) →
      bandError p0 p1 p2 p3 = 0 ∧
      monicCoeffs z0 z1 z2
        = [1, ((p1 / p0 : ℝ) : ℂ), ((p2 / p0 : ℝ) : ℂ), ((p3 / p0 : ℝ) : ℂ)] ∧
      List.Forall₂ (relClose 1e-9) (monicCoeffs z0 z1 z2)
        [1, ((p1 / p0 : ℝ) : ℂ), ((p2 / p0 : ℝ) : ℂ), ((p3 / p0 : ℝ) : ℂ)]) ∧
    ((0 < |discriminant p0 p1 p2 p3| ∧ |discriminant p0 p1 p2 p3| < eps) →
      bandError p0 p1 p2 p3
        = depressedP p0 p1 p2 + 3 * cbrt (depressedQ p0 p1 p2 p3 / 2) ^ 2 ∧
      bandError p0 p1 p2 p3 ≠ 0 ∧
      monicCoeffs z0 z1 z2
        ≠ [1, ((p1 / p0 : ℝ) : ℂ), ((p2 / p0 : ℝ) : ℂ), ((p3 / p0 : ℝ) : ℂ)]) ∧
    (List.Forall₂ (relClose 1e-9) (monicCoeffs z0 z1 z2)
        [1, ((p1 / p0 : ℝ) : ℂ), ((p2 / p0 : ℝ) : ℂ), ((p3 / p0 : ℝ) : ℂ)] ↔
      |bandError p0 p1 p2 p3|
        ≤ 1e-9 * max |p2 / p0 - bandError p0 p1 p2 p3| |p2 / p0| ∧
      |p1 / p0 * bandError p0 p1 p2 p3 / 3|
        ≤ 1e-9 * max |p3 / p0 - p1 / p0 * bandError p0 p1 p2 p3 / 3| |p3 / p0|) := by
  have _ := hp0
  have he := eps_pos
  rw [Poly3_monic] at h
  have hcoef : monicCoeffs z0 z1 z2
      = [1, ((p1 / p0 : ℝ) : ℂ), ((p2 / p0 - bandError p0 p1 p2 p3 : ℝ) : ℂ),
          ((p3 / p0 - p1 / p0 * bandError p0 p1 p2 p3 / 3 : ℝ) : ℂ)] := by
    by_cases hb : 0 < |discriminant p0 p1 p2 p3| ∧ |discriminant p0 p1 p2 p3| < eps
    · have e : bandError p0 p1 p2 p3
          = cubicP (p1 / p0) (p2 / p0)
            + 3 * cbrt (cubicQ (p1 / p0) (p2 / p0) (p3 / p0) / 2) ^ 2 := by
        unfold bandError
        rw [if_pos hb]
        rfl
      rw [e]
      exact coeffs_of_prod (Poly3_prod_band (p1 / p0) (p2 / p0) (p3 / p0) z0 z1 z2 h hb)
    · have e : bandError p0 p1 p2 p3 = 0 := by
        unfold bandError
        rw [if_neg hb]
      have hband : discriminant p0 p1 p2 p3 = 0 ∨ eps ≤ |discriminant p0 p1 p2 p3| := by
        by_cases hz : discriminant p0 p1 p2 p3 = 0
        · exact Or.inl hz
        · exact Or.inr (not_lt.mp fun hlt => hb ⟨abs_pos.mpr hz, hlt⟩)
      rw [e, sub_zero, mul_zero, zero_div, sub_zero]
      exact coeffs_of_prod (Poly3_prod (p1 / p0) (p2 / p0) (p3 / p0) z0 z1 z2 h hband)
  have hout : (discriminant p0 p1 p2 p3 = 0 ∨ eps ≤ |discriminant p0 p1 p2 p3|) →
      bandError p0 p1 p2 p3 = 0 := by
    intro hband
    unfold bandError
    rw [if_neg]
    rintro ⟨h1, h2⟩
    rcases hband with hz | hge
    · rw [hz, abs_zero] at h1
      exact lt_irrefl _ h1
    · exact absurd h2 (not_lt.mpr hge)
  have hin : (0 < |discriminant p0 p1 p2 p3| ∧ |discriminant p0 p1 p2 p3| < eps) →
      bandError p0 p1 p2 p3
        = depressedP p0 p1 p2 + 3 * cbrt (depressedQ p0 p1 p2 p3 / 2) ^ 2 ∧
      bandError p0 p1 p2 p3 ≠ 0 := by
    intro hb
    have e : bandError p0 p1 p2 p3
        = depressedP p0 p1 p2 + 3 * cbrt (depressedQ p0 p1 p2 p3 / 2) ^ 2 := by
      unfold bandError
      rw [if_pos hb]
    refine ⟨e, ?_⟩
    rw [e]
    intro h0
    obtain ⟨_, _, hfac⟩ := bandShift_facts (p1 / p0) (p2 / p0) (p3 / p0)
    have hΔ : discriminant p0 p1 p2 p3 = 0 := by
      unfold discriminant
      unfold depressedP depressedQ at h0 ⊢
      rw [h0, zero_mul] at hfac
      linarith
    rw [hΔ, abs_zero] at hb
    exact lt_irrefl _ hb.1
  refine ⟨hcoef, ?_, ?_, ?_⟩
  · intro hband
    have e := hout hband
    have hc : monicCoeffs z0 z1 z2
        = [1, ((p1 / p0 : ℝ) : ℂ), ((p2 / p0 : ℝ) : ℂ), ((p3 / p0 : ℝ) : ℂ)] := by
      rw [hcoef, e, sub_zero, mul_zero, zero_div, sub_zero]
    refine ⟨e, hc, ?_⟩
    rw [hc]
    exact forall2_relClose_refl (by norm_num) _
  · intro hb
    obtain ⟨e, hne⟩ := hin hb
    refine ⟨e, hne, ?_⟩
    rw [hcoef]
    intro hEq
    have h2 : ((p2 / p0 - bandError p0 p1 p2 p3 : ℝ) : ℂ) = ((p2 / p0 : ℝ) : ℂ) := by
      injection hEq with _ hEq
      injection hEq with _ hEq
      injection hEq with hEq _
    have h3 : p2 / p0 - bandError p0 p1 p2 p3 = p2 / p0 := Complex.ofReal_injective h2
    exact hne (by linarith)
  · rw [hcoef]
    simp only [List.forall₂_cons, List.forall₂_nil_left_iff, and_true]
    have r0 : relClose 1e-9 (1 : ℂ) 1 := relClose_refl (by norm_num) _
    have r1 : relClose 1e-9 ((p1 / p0 : ℝ) : ℂ) ((p1 / p0 : ℝ) : ℂ) :=
      relClose_refl (by norm_num) _
    have e2 : p2 / p0 - bandError p0 p1 p2 p3 - p2 / p0 = -bandError p0 p1 p2 p3 := by ring
    have e3 : p3 / p0 - p1 / p0 * bandError p0 p1 p2 p3 / 3 - p3 / p0
        = -(p1 / p0 * bandError p0 p1 p2 p3 / 3) := by ring
    have c2 := relClose_ofReal 1e-9 (p2 / p0 - bandError p0 p1 p2 p3) (p2 / p0)
    have c3 := relClose_ofReal 1e-9 (p3 / p0 - p1 / p0 * bandError p0 p1 p2 p3 / 3) (p3 / p0)
    rw [e2, abs_neg] at c2
    rw [e3, abs_neg] at c3
    constructor
    · rintro ⟨_, _, h2, h3⟩
      exact ⟨c2.mp h2, c3.mp h3⟩
    · rintro ⟨h2, h3⟩
      exact ⟨r0, r1, c2.mpr h2, c3.mpr h3⟩

/-- C9, counterexample: `x³ + 3e-6 x` has `p = 3e-6`, `q = 0` and
`Δ = 1e-18`, inside the tolerance band; `Poly3` returns `(0, 0, 0)`, whose
monic polynomial is `x³`: its coefficient of `x` is `0` where the normalised
input has `3e-6`, a difference above the relative tolerance `1e-9` (and above
`1e-9` in absolute value). -/
theorem Poly3_roundtrip_counterexample :
    Poly3 1 0 3e-6 0 = .ok (⟨0, 0⟩, ⟨0, 0⟩, ⟨0, 0⟩) ∧
    0 < |discriminant 1 0 3e-6 0| ∧ |discriminant 1 0 3e-6 0| < eps ∧
    ¬ List.Forall₂ (relClose 1e-9) (monicCoeffs ⟨0, 0⟩ ⟨0, 0⟩ ⟨0, 0⟩)
      [1, ((0 / 1 : ℝ) : ℂ), ((3e-6 / 1 : ℝ) : ℂ), ((0 / 1 : ℝ) : ℂ)] ∧
    ¬ Complex.abs ((monicCoeffs ⟨0, 0⟩ ⟨0, 0⟩ ⟨0, 0⟩).getD 2 0 - ((3e-6 / 1 : ℝ) : ℂ))
      ≤ 1e-9 := by
  have hq : cubicQ 0 3e-6 0 = 0 := by
    unfold cubicQ
    norm_num
  have hd : discriminant 1 0 3e-6 0 = 1e-18 := by
    unfold discriminant depressedP depressedQ cubicDelta cubicP cubicQ
    norm_num
  have h0 : ¬ (cubicP 0 3e-6 = 0 ∧ cubicQ 0 3e-6 0 = 0) := by
    unfold cubicP
    norm_num
  have h1 : cubicDelta (cubicP 0 3e-6) (cubicQ 0 3e-6 0) = 0 ∨
      |cubicDelta (cubicP 0 3e-6) (cubicQ 0 3e-6 0)| < eps := by
    right
    unfold cubicDelta cubicP cubicQ eps
    norm_num [abs_of_pos]
  have hx0 : repeatedX0 0 (cubicQ 0 3e-6 0) = 0 := by
    unfold repeatedX0
    rw [hq]
    norm_num [cbrt_zero]
  have hx1 : repeatedX1 0 (cubicQ 0 3e-6 0) = 0 := by
    unfold repeatedX1
    rw [hq]
    norm_num [cbrt_zero]
  have hz : (⟨0, 0⟩ : ℂ) = 0 := rfl
  have hcoef : (monicCoeffs ⟨0, 0⟩ ⟨0, 0⟩ ⟨0, 0⟩).getD 2 0 = 0 := by
    unfold monicCoeffs
    simp [hz]
  have habs : Complex.abs ((0 : ℂ) - ((3e-6 / 1 : ℝ) : ℂ)) = 3e-6 := by
    rw [zero_sub, map_neg_eq_map, Complex.abs_ofReal]
    norm_num [abs_of_pos]
  refine ⟨?_, ?_, ?_, ?_, ?_⟩
  · rw [Poly3_repeated 0 3e-6 0 h0 h1, hx0, hx1]
    norm_num
  · rw [hd]
    norm_num
  · rw [hd]
    unfold eps
    norm_num [abs_of_pos]
  · intro h
    have h2 : relClose 1e-9 ((monicCoeffs ⟨0, 0⟩ ⟨0, 0⟩ ⟨0, 0⟩).getD 2 0)
        ((3e-6 / 1 : ℝ) : ℂ) := by
      unfold monicCoeffs at h ⊢
      simp only [List.forall₂_cons] at h
      exact h.2.2.1
    rw [hcoef] at h2
    unfold relClose at h2
    rw [habs, map_zero, Complex.abs_ofReal] at h2
    norm_num [abs_of_pos] at h2
  · rw [hcoef, habs]
    norm_num

/-! ### Claims on the branches of the cubic -/

/-- In exact arithmetic, where the `Δ` that `Poly3` tests is the discriminant
of the input (the program tests a rounded one): for `p0 ≠ 0`, depressed
parameters not both zero and `Δ = 0` or
`|Δ| < ε`, `Poly3` returns, with `t = cbrt(q/2)`, `x0 = -2t - a/3` and
`x1 = t - a/3`, the triple `(x0, x1, x1)` if `x0 < x1` and `(x1, x1, x0)`
otherwise, all with imaginary part `0`; when `Δ = 0` exactly,
`x³ + a x² + b x + c = (x - x0)(x - x1)²`. -/
theorem Poly3_repeated_root (p0 p1 p2 p3 : ℝ) (hp0 : p0 ≠ 0)
    (hpq : ¬ (depressedP p0 p1 p2 = 0 ∧ depressedQ p0 p1 p2 p3 = 0))
    (hΔ : discriminant p0 p1 p2 p3 = 0 ∨ |discriminant p0 p1 p2 p3| < eps) :
    Poly3 p0 p1 p2 p3 =
      (if repeatedX0 (p1 / p0) (depressedQ p0 p1 p2 p3)
          < repeatedX1 (p1 / p0) (depressedQ p0 p1 p2 p3) then
        .ok (⟨repeatedX0 (p1 / p0) (depressedQ p0 p1 p2 p3), 0⟩,
          ⟨repeatedX1 (p1 / p0) (depressedQ p0 p1 p2 p3), 0⟩,
          ⟨repeatedX1 (p1 / p0) (depressedQ p0 p1 p2 p3), 0⟩)
      else
        .ok (⟨repeatedX1 (p1 / p0) (depressedQ p0 p1 p2 p3), 0⟩,
          ⟨repeatedX1 (p1 / p0) (depressedQ p0 p1 p2 p3), 0⟩,
          ⟨repeatedX0 (p1 / p0) (depressedQ p0 p1 p2 p3), 0⟩)) ∧
    (discriminant p0 p1 p2 p3 = 0 → ∀ x : ℂ,
      x ^ 3 + ((p1 / p0 : ℝ) : ℂ) * x ^ 2 + ((p2 / p0 : ℝ) : ℂ) * x + ((p3 / p0 : ℝ) : ℂ)
        = (x - ((repeatedX0 (p1 / p0) (depressedQ p0 p1 p2 p3) : ℝ) : ℂ))
          * (x - ((repeatedX1 (p1 / p0) (depressedQ p0 p1 p2 p3) : ℝ) : ℂ)) ^ 2) := by
  have _ := hp0
  refine ⟨?_, ?_⟩
  · rw [Poly3_monic]
    exact Poly3_repeated (p1 / p0) (p2 / p0) (p3 / p0) hpq hΔ
  · intro hz x
    have h := repeated_vieta (p1 / p0) (p2 / p0) (p3 / p0) hz x
    rw [← h]
    unfold depressedQ
    have e : ∀ r : ℝ, (⟨r, 0⟩ : ℂ) = ((r : ℝ) : ℂ) := fun _ => rfl
    rw [e, e]
    ring

/-- C13: for `p0 ≠ 0`, when the depressed parameters `p` and `q` are both
zero `Poly3` returns `(-a/3, -a/3, -a/3)` with zero imaginary parts; and
`p = q = 0` holds exactly when `x³ + a x² + b x + c = (x + a/3)³`. -/
theorem Poly3_triple_root (p0 p1 p2 p3 : ℝ) (hp0 : p0 ≠ 0) :
    ((depressedP p0 p1 p2 = 0 ∧ depressedQ p0 p1 p2 p3 = 0) →
      Poly3 p0 p1 p2 p3 = .ok (⟨-(p1 / p0) / 3, 0⟩, ⟨-(p1 / p0) / 3, 0⟩,
        ⟨-(p1 / p0) / 3, 0⟩)) ∧
    ((depressedP p0 p1 p2 = 0 ∧ depressedQ p0 p1 p2 p3 = 0) ↔
      ∀ x : ℝ, x ^ 3 + p1 / p0 * x ^ 2 + p2 / p0 * x + p3 / p0 = (x + p1 / p0 / 3) ^ 3) := by
  have _ := hp0
  refine ⟨?_, ?_⟩
  · intro h
    rw [Poly3_monic]
    exact Poly3_triple (p1 / p0) (p2 / p0) (p3 / p0) h
  · unfold depressedP depressedQ cubicP cubicQ
    generalize p1 / p0 = a
    generalize p2 / p0 = b
    generalize p3 / p0 = c
    constructor
    · rintro ⟨hp, hq⟩ x
      have hb : b = a ^ 2 / 3 := by linarith
      have hc : c = a ^ 3 / 27 := by
        rw [hb] at hq
        linarith
      rw [hb, hc]
      ring
    · intro h
      have h0 := h 0
      have h1 := h 1
      have hm := h (-1)
      have hb : b = a ^ 2 / 3 := by linear_combination (h1 - hm) / 2
      have hc : c = a ^ 3 / 27 := by linear_combination h0
      rw [hb, hc]
      constructor <;> ring

/-- C13, witness: `x³ + 3 x² + 3 x + 1 = (x + 1)³` has `p = q = 0` and the
triple root `-1`. -/
theorem Poly3_triple_root_witness :
    Poly3 1 3 3 1 = .ok (⟨-(3 / 1) / 3, 0⟩, ⟨-(3 / 1) / 3, 0⟩, ⟨-(3 / 1) / 3, 0⟩) ∧
    ∀ x : ℝ, x ^ 3 + 3 / 1 * x ^ 2 + 3 / 1 * x + 1 / 1 = (x + 3 / 1 / 3) ^ 3 := by
  have key := Poly3_triple_root 1 3 3 1 one_ne_zero
  have hpq : depressedP 1 3 3 = 0 ∧ depressedQ 1 3 3 1 = 0 := by
    unfold depressedP depressedQ cubicP cubicQ
    constructor <;> norm_num
  exact ⟨key.1 hpq, key.2.mp hpq⟩

theorem real_sym_of_prod {a b c r0 r1 r2 : ℝ}
    (h : ∀ x : ℂ, (x - (⟨r0, 0⟩ : ℂ)) * (x - (⟨r1, 0⟩ : ℂ)) * (x - (⟨r2, 0⟩ : ℂ))
      = x ^ 3 + (a : ℂ) * x ^ 2 + (b : ℂ) * x + (c : ℂ)) :
    r0 + r1 + r2 = -a ∧ r0 * r1 + r0 * r2 + r1 * r2 = b ∧ r0 * r1 * r2 = -c := by
  have hc := coeffs_of_prod h
  unfold monicCoeffs at hc
  simp only [List.cons.injEq, and_true, true_and] at hc
  obtain ⟨h1, h2, h3⟩ := hc
  have e : ∀ r : ℝ, (⟨r, 0⟩ : ℂ) = ((r : ℝ) : ℂ) := fun _ => rfl
  rw [e, e, e] at h1 h2 h3
  refine ⟨?_, ?_, ?_⟩
  · have : ((-(r0 + r1 + r2) : ℝ) : ℂ) = ((a : ℝ) : ℂ) := by
      push_cast
      exact h1
    have := Complex.ofReal_injective this
    linarith
  · have : ((r0 * r1 + r0 * r2 + r1 * r2 : ℝ) : ℂ) = ((b : ℝ) : ℂ) := by
      push_cast
      exact h2
    exact Complex.ofReal_injective this
  · have : ((-(r0 * r1 * r2) : ℝ) : ℂ) = ((c : ℝ) : ℂ) := by
      push_cast
      exact h3
    have := Complex.ofReal_injective this
    linarith

/-- The squared product of the differences of the roots of a cubic is
`-108 Δ`. -/
theorem diff_sq_eq (a b c r0 r1 r2 : ℝ) (h1 : r0 + r1 + r2 = -a)
    (h2 : r0 * r1 + r0 * r2 + r1 * r2 = b) (h3 : r0 * r1 * r2 = -c) :
    ((r0 - r1) * (r1 - r2) * (r0 - r2)) ^ 2
      = -108 * cubicDelta (cubicP a b) (cubicQ a b c) := by
  have ha : a = -(r0 + r1 + r2) := by linarith
  have hc : c = -(r0 * r1 * r2) := by linarith
  subst ha
  subst hc
  subst h2
  unfold cubicDelta cubicP cubicQ
  ring

theorem trig_distinct (a b c : ℝ) (hΔ : cubicDelta (cubicP a b) (cubicQ a b c) < 0) :
    trigRoot a (cubicP a b) (cubicQ a b c) 0 ≠ trigRoot a (cubicP a b) (cubicQ a b c) 1 ∧
    trigRoot a (cubicP a b) (cubicQ a b c) 1 ≠ trigRoot a (cubicP a b) (cubicQ a b c) 2 ∧
    trigRoot a (cubicP a b) (cubicQ a b c) 0 ≠ trigRoot a (cubicP a b) (cubicQ a b c) 2 := by
  have hv : ∀ x : ℂ, _ := trig_vieta a b c hΔ
  unfold trigRoots at hv
  simp only [List.getD_cons_zero, List.getD_cons_succ] at hv
  obtain ⟨h1, h2, h3⟩ := real_sym_of_prod hv
  have hd := diff_sq_eq a b c _ _ _ h1 h2 h3
  have hpos : 0 < ((trigRoot a (cubicP a b) (cubicQ a b c) 0
      - trigRoot a (cubicP a b) (cubicQ a b c) 1)
      * (trigRoot a (cubicP a b) (cubicQ a b c) 1 - trigRoot a (cubicP a b) (cubicQ a b c) 2)
      * (trigRoot a (cubicP a b) (cubicQ a b c) 0
        - trigRoot a (cubicP a b) (cubicQ a b c) 2)) ^ 2 := by
    rw [hd]
    linarith
  refine ⟨?_, ?_, ?_⟩ <;> intro heq <;> rw [heq] at hpos <;> simp at hpos

theorem ofReal_root_iff {a b c : ℝ} {z : ℂ} (hz : z.im = 0) :
    z ^ 3 + (a : ℂ) * z ^ 2 + (b : ℂ) * z + (c : ℂ) = 0 ↔
      z.re ^ 3 + a * z.re ^ 2 + b * z.re + c = 0 := by
  have e : z = ((z.re : ℝ) : ℂ) := Complex.ext rfl (by simpa using hz)
  constructor
  · intro h
    rw [e] at h
    exact_mod_cast h
  · intro h
    rw [e]
    exact_mod_cast h

/-- In the branch `Δ ≤ -ε` `Poly3` returns the sorted arrangement of the
three values of the trigonometric form; they are real, roots of the monic
cubic, and strictly ascending. -/
theorem Poly3_threeReal_spec (p0 p1 p2 p3 : ℝ) (hΔ : discriminant p0 p1 p2 p3 ≤ -eps) :
    ∃ z0 z1 z2 : ℂ,
      Poly3 p0 p1 p2 p3 = .ok (z0, z1, z2) ∧
      [z0, z1, z2] =
        sortCmplx (trigRoots (p1 / p0) (depressedP p0 p1 p2) (depressedQ p0 p1 p2 p3)) ∧
      [z0, z1, z2].Perm
        (trigRoots (p1 / p0) (depressedP p0 p1 p2) (depressedQ p0 p1 p2 p3)) ∧
      (∀ z ∈ [z0, z1, z2], z.im = 0) ∧
      (∀ z ∈ [z0, z1, z2],
        z ^ 3 + ((p1 / p0 : ℝ) : ℂ) * z ^ 2 + ((p2 / p0 : ℝ) : ℂ) * z
          + ((p3 / p0 : ℝ) : ℂ) = 0) ∧
      z0.re < z1.re ∧ z1.re < z2.re := by
  have he := eps_pos
  have hneg : cubicDelta (cubicP (p1 / p0) (p2 / p0))
      (cubicQ (p1 / p0) (p2 / p0) (p3 / p0)) < 0 := by
    unfold discriminant depressedP depressedQ at hΔ
    linarith
  have hL : (trigRoots (p1 / p0) (depressedP p0 p1 p2) (depressedQ p0 p1 p2 p3)).length
      = 3 := rfl
  have hperm := sort3_perm _ hL
  have hv : ∀ x : ℂ, _ := trig_vieta (p1 / p0) (p2 / p0) (p3 / p0) hneg
  obtain ⟨d01, d12, d02⟩ := trig_distinct (p1 / p0) (p2 / p0) (p3 / p0) hneg
  have hsorted := nonDecreasing_sort3 _ hL
  have him : ∀ z ∈ [(sortCmplx (trigRoots (p1 / p0) (depressedP p0 p1 p2)
        (depressedQ p0 p1 p2 p3))).getD 0 0,
      (sortCmplx (trigRoots (p1 / p0) (depressedP p0 p1 p2)
        (depressedQ p0 p1 p2 p3))).getD 1 0,
      (sortCmplx (trigRoots (p1 / p0) (depressedP p0 p1 p2)
        (depressedQ p0 p1 p2 p3))).getD 2 0], z.im = 0 := by
    intro z hz
    have hz2 := hperm.mem_iff.mp hz
    unfold trigRoots at hz2
    simp only [List.mem_cons, List.mem_singleton, List.not_mem_nil, or_false] at hz2
    rcases hz2 with rfl | rfl | rfl <;> rfl
  have hnodup : (trigRoots (p1 / p0) (depressedP p0 p1 p2)
      (depressedQ p0 p1 p2 p3)).Nodup := by
    unfold trigRoots depressedP depressedQ
    simp only [List.nodup_cons, List.mem_cons, List.mem_singleton, List.not_mem_nil,
      List.nodup_nil, not_or, Complex.mk.injEq, and_true, not_false_eq_true]
    exact ⟨⟨d01, d02⟩, d12⟩
  have hnd := hperm.nodup_iff.mpr hnodup
  have hlt : ∀ z w : ℂ, z.im = 0 → w.im = 0 → z ≠ w → min128 w z = false → z.re < w.re := by
    intro z w hz hw hne hm
    rcases (min128_eq_false_iff w z).mp hm with h | ⟨h, _⟩
    · exact h
    · exact absurd (Complex.ext h (by rw [hz, hw])) hne
  simp only [List.nodup_cons, List.mem_cons, List.mem_singleton, List.not_mem_nil,
    List.nodup_nil, not_or, and_true, not_false_eq_true, or_false] at hnd
  simp only [NonDecreasing, List.pairwise_cons, List.mem_cons, List.mem_singleton,
    forall_eq_or_imp, forall_eq, List.not_mem_nil, false_implies, implies_true,
    List.Pairwise.nil, and_true] at hsorted
  refine ⟨_, _, _, ?_, ?_, hperm, him, ?_, ?_, ?_⟩
  · rw [Poly3_monic]
    exact Poly3_threeReal (p1 / p0) (p2 / p0) (p3 / p0) hΔ
  · exact (list_eq_getD3 _ (by rw [sortCmplx_length]; exact hL)).symm
  · intro z hz
    have hz2 := hperm.mem_iff.mp hz
    exact root_of_prod hv hz2
  · exact hlt _ _ (him _ (by simp)) (him _ (by simp)) hnd.1.1 hsorted.1.1
  · exact hlt _ _ (him _ (by simp)) (him _ (by simp)) hnd.2 hsorted.2

theorem discriminant_example_123 : discriminant 1 (-6) 11 (-6) ≤ -eps := by
  unfold discriminant depressedP depressedQ cubicDelta cubicP cubicQ eps
  norm_num

theorem Poly3_example_123 :
    Poly3 1 (-6) 11 (-6) = .ok (⟨1, 0⟩, ⟨2, 0⟩, ⟨3, 0⟩) := by
  obtain ⟨z0, z1, z2, hP, _, _, him, hroot, h01, h12⟩ :=
    Poly3_threeReal_spec 1 (-6) 11 (-6) discriminant_example_123
  have key : ∀ z ∈ [z0, z1, z2], z.re = 1 ∨ z.re = 2 ∨ z.re = 3 := by
    intro z hz
    have h := (ofReal_root_iff (him z hz)).mp (hroot z hz)
    have h2 : (z.re - 1) * ((z.re - 2) * (z.re - 3)) = 0 := by linear_combination h
    rcases mul_eq_zero.mp h2 with h3 | h3
    · left; linarith
    · rcases mul_eq_zero.mp h3 with h4 | h4
      · right; left; linarith
      · right; right; linarith
  have k0 := key z0 (by simp)
  have k1 := key z1 (by simp)
  have k2 := key z2 (by simp)
  have i0 := him z0 (by simp)
  have i1 := him z1 (by simp)
  have i2 := him z2 (by simp)
  have r0 : z0.re = 1 := by
    rcases k0 with h | h | h <;> rcases k1 with h' | h' | h' <;>
      rcases k2 with h'' | h'' | h'' <;> linarith
  have r1 : z1.re = 2 := by
    rcases k0 with h | h | h <;> rcases k1 with h' | h' | h' <;>
      rcases k2 with h'' | h'' | h'' <;> linarith
  have r2 : z2.re = 3 := by
    rcases k0 with h | h | h <;> rcases k1 with h' | h' | h' <;>
      rcases k2 with h'' | h'' | h'' <;> linarith
  have e0 : z0 = ⟨1, 0⟩ := Complex.ext r0 i0
  have e1 : z1 = ⟨2, 0⟩ := Complex.ext r1 i1
  have e2 : z2 = ⟨3, 0⟩ := Complex.ext r2 i2
  rw [hP, e0, e1, e2]

/-- C9, witness: the test vector `x³ - 6 x² + 11 x - 6` (`Δ = -1/27`,
outside the band); `Poly3` returns `(1, 2, 3)`. -/
theorem Poly3_roundtrip_witness :
    monicCoeffs ⟨1, 0⟩ ⟨2, 0⟩ ⟨3, 0⟩
      = [1, ((-6 / 1 : ℝ) : ℂ), ((11 / 1 - bandError 1 (-6) 11 (-6) : ℝ) : ℂ),
          ((-6 / 1 - -6 / 1 * bandError 1 (-6) 11 (-6) / 3 : ℝ) : ℂ)] ∧
    ((discriminant 1 (-6) 11 (-6) = 0 ∨ eps ≤ |discriminant 1 (-6) 11 (-6)|) →
      bandError 1 (-6) 11 (-6) = 0 ∧
      monicCoeffs ⟨1, 0⟩ ⟨2, 0⟩ ⟨3, 0⟩
        = [1, ((-6 / 1 : ℝ) : ℂ), ((11 / 1 : ℝ) : ℂ), ((-6 / 1 : ℝ) : ℂ)] ∧
      List.Forall₂ (relClose 1e-9) (monicCoeffs ⟨1, 0⟩ ⟨2, 0⟩ ⟨3, 0⟩)
        [1, ((-6 / 1 : ℝ) : ℂ), ((11 / 1 : ℝ) : ℂ), ((-6 / 1 : ℝ) : ℂ)]) ∧
    ((0 < |discriminant 1 (-6) 11 (-6)| ∧ |discriminant 1 (-6) 11 (-6)| < eps) →
      bandError 1 (-6) 11 (-6)
        = depressedP 1 (-6) 11 + 3 * cbrt (depressedQ 1 (-6) 11 (-6) / 2) ^ 2 ∧
      bandError 1 (-6) 11 (-6) ≠ 0 ∧
      monicCoeffs ⟨1, 0⟩ ⟨2, 0⟩ ⟨3, 0⟩
        ≠ [1, ((-6 / 1 : ℝ) : ℂ), ((11 / 1 : ℝ) : ℂ), ((-6 / 1 : ℝ) : ℂ)]) ∧
    (List.Forall₂ (relClose 1e-9) (monicCoeffs ⟨1, 0⟩ ⟨2, 0⟩ ⟨3, 0⟩)
        [1, ((-6 / 1 : ℝ) : ℂ), ((11 / 1 : ℝ) : ℂ), ((-6 / 1 : ℝ) : ℂ)] ↔
      |bandError 1 (-6) 11 (-6)|
        ≤ 1e-9 * max |11 / 1 - bandError 1 (-6) 11 (-6)| |11 / 1| ∧
      |-6 / 1 * bandError 1 (-6) 11 (-6) / 3|
        ≤ 1e-9 * max |-6 / 1 - -6 / 1 * bandError 1 (-6) 11 (-6) / 3| |-6 / 1|) :=
  Poly3_roundtrip 1 (-6) 11 (-6) one_ne_zero _ _ _ Poly3_example_123

/-- In exact arithmetic, where the `Δ` that `Poly3` tests is the discriminant
of the input and the argument of `acos` lies in `[-1, 1]` (the program rounds
both): for `p0 ≠ 0` and discriminant `Δ ≤ -ε`, `Poly3` returns the sorted
arrangement of the three values `2 cbrt(r) cos((θ + 2kπ)/3) - a/3`,
`k = 0, 1, 2`, with `r = sqrt((-p/3)³)` and `θ = acos(-q/(2r))`; they have
imaginary part `0`, are roots of `x³ + a x² + b x + c` and are strictly
ascending, hence distinct; for `[1, -6, 11, -6]` they are `1, 2, 3`. -/
theorem Poly3_three_real_roots (p0 p1 p2 p3 : ℝ) (hp0 : p0 ≠ 0)
    (hΔ : discriminant p0 p1 p2 p3 ≤ -eps) :
    (∃ z0 z1 z2 : ℂ,
      Poly3 p0 p1 p2 p3 = .ok (z0, z1, z2) ∧
      [z0, z1, z2] =
        sortCmplx (trigRoots (p1 / p0) (depressedP p0 p1 p2) (depressedQ p0 p1 p2 p3)) ∧
      [z0, z1, z2].Perm
        (trigRoots (p1 / p0) (depressedP p0 p1 p2) (depressedQ p0 p1 p2 p3)) ∧
      (∀ z ∈ [z0, z1, z2], z.im = 0) ∧
      (∀ z ∈ [z0, z1, z2],
        z ^ 3 + ((p1 / p0 : ℝ) : ℂ) * z ^ 2 + ((p2 / p0 : ℝ) : ℂ) * z
          + ((p3 / p0 : ℝ) : ℂ) = 0) ∧
      z0.re < z1.re ∧ z1.re < z2.re) ∧
    Poly3 1 (-6) 11 (-6) = .ok (⟨1, 0⟩, ⟨2, 0⟩, ⟨3, 0⟩) := by
  have _ := hp0
  exact ⟨Poly3_threeReal_spec p0 p1 p2 p3 hΔ, Poly3_example_123⟩

/-! ## The quartic: degenerate cases -/

theorem ok4_congr {L M : List ℂ} (h : L = M) :
    (Except.ok ((sortCmplx L).getD 0 0, (sortCmplx L).getD 1 0, (sortCmplx L).getD 2 0,
      (sortCmplx L).getD 3 0) : Except Panic (ℂ × ℂ × ℂ × ℂ)) =
    Except.ok ((sortCmplx M).getD 0 0, (sortCmplx M).getD 1 0, (sortCmplx M).getD 2 0,
      (sortCmplx M).getD 3 0) := by
  rw [h]

theorem Poly4_branch1 (p0 p1 p2 p3 p4 : ℝ)
    (h : (p2 / p0 = 0 ∧ p3 / p0 = 0) ∧ p4 / p0 = 0) :
    Poly4 p0 p1 p2 p3 p4 =
      if p1 / p0 > 0 then .ok (⟨-(p1 / p0), 0⟩, 0, 0, 0)
      else .ok (0, 0, 0, ⟨-(p1 / p0), 0⟩) := by
  have e : ∀ x : ℝ, x * (1 / p0) = x / p0 := fun x => by ring
  unfold Poly4
  simp only [e, if_pos h]

theorem Poly4_branch2_pos (p0 p1 p2 p3 p4 : ℝ)
    (h1 : ¬ ((p2 / p0 = 0 ∧ p3 / p0 = 0) ∧ p4 / p0 = 0))
    (h2 : (p2 / p0 = 0 ∧ p3 / p0 = 0) ∧ p1 / p0 = 0) (hd : p4 / p0 > 0) :
    Poly4 p0 p1 p2 p3 p4 =
      .ok (⟨-quarticDiag (p4 / p0), -quarticDiag (p4 / p0)⟩,
        ⟨-quarticDiag (p4 / p0), quarticDiag (p4 / p0)⟩,
        ⟨quarticDiag (p4 / p0), -quarticDiag (p4 / p0)⟩,
        ⟨quarticDiag (p4 / p0), quarticDiag (p4 / p0)⟩) := by
  have e : ∀ x : ℝ, x * (1 / p0) = x / p0 := fun x => by ring
  have hs : 0 < Real.sqrt (p4 / p0) := Real.sqrt_pos.mpr hd
  unfold Poly4
  simp only [e, if_neg h1, if_pos h2, if_pos hd, csqrt_mul_I_pos hs]
  unfold quarticDiag
  generalize Real.sqrt (0.5 * Real.sqrt (p4 / p0)) = r
  have e2 : (⟨0, -1⟩ : ℂ) * ⟨r, r⟩ = ⟨r, -r⟩ := by
    apply Complex.ext <;> simp
  rw [e2]
  simp only [neg_neg]

theorem Poly4_branch2_neg (p0 p1 p2 p3 p4 : ℝ)
    (h1 : ¬ ((p2 / p0 = 0 ∧ p3 / p0 = 0) ∧ p4 / p0 = 0))
    (h2 : (p2 / p0 = 0 ∧ p3 / p0 = 0) ∧ p1 / p0 = 0) (hd : ¬ p4 / p0 > 0) :
    Poly4 p0 p1 p2 p3 p4 =
      .ok (⟨-quarticAxis (p4 / p0), 0⟩, ⟨0, -quarticAxis (p4 / p0)⟩,
        ⟨0, quarticAxis (p4 / p0)⟩, ⟨quarticAxis (p4 / p0), 0⟩) := by
  have e : ∀ x : ℝ, x * (1 / p0) = x / p0 := fun x => by ring
  have hs : 0 ≤ Real.sqrt (-(p4 / p0)) := Real.sqrt_nonneg _
  unfold Poly4
  simp only [e, if_neg h1, if_pos h2, if_neg hd, csqrt_ofReal_nonneg hs]
  unfold quarticAxis
  generalize Real.sqrt (Real.sqrt (-(p4 / p0))) = s
  have e2 : (⟨s, 0⟩ : ℂ) * ⟨0, 1⟩ = ⟨0, s⟩ := by
    apply Complex.ext <;> simp
  rw [e2]
  simp only [neg_zero]

theorem Poly4_branch3 (p0 p1 p2 p3 p4 : ℝ)
    (h1 : ¬ ((p2 / p0 = 0 ∧ p3 / p0 = 0) ∧ p4 / p0 = 0))
    (h2 : ¬ ((p2 / p0 = 0 ∧ p3 / p0 = 0) ∧ p1 / p0 = 0))
    (h3 : p3 / p0 = 0 ∧ p4 / p0 = 0) :
    Poly4 p0 p1 p2 p3 p4 =
      .ok ((sortCmplx [(Poly2 1 (p1 / p0) (p2 / p0)).1, (Poly2 1 (p1 / p0) (p2 / p0)).2,
              0, 0]).getD 0 0,
        (sortCmplx [(Poly2 1 (p1 / p0) (p2 / p0)).1, (Poly2 1 (p1 / p0) (p2 / p0)).2,
              0, 0]).getD 1 0,
        (sortCmplx [(Poly2 1 (p1 / p0) (p2 / p0)).1, (Poly2 1 (p1 / p0) (p2 / p0)).2,
              0, 0]).getD 2 0,
        (sortCmplx [(Poly2 1 (p1 / p0) (p2 / p0)).1, (Poly2 1 (p1 / p0) (p2 / p0)).2,
              0, 0]).getD 3 0) := by
  have e : ∀ x : ℝ, x * (1 / p0) = x / p0 := fun x => by ring
  unfold Poly4
  simp only [e, if_neg h1, if_neg h2, if_pos h3]

theorem sort4_perm (L : List ℂ) (h : L.length = 4) :
    [(sortCmplx L).getD 0 0, (sortCmplx L).getD 1 0, (sortCmplx L).getD 2 0,
      (sortCmplx L).getD 3 0].Perm L := by
  rw [← list_eq_getD4 _ (by rw [sortCmplx_length]; exact h)]
  exact sortCmplx_perm L

/-- C15: for `p0 ≠ 0` and `p2 = p3 = p4 = 0`, with `a = p1/p0`, `Poly4`
returns `(-a, 0, 0, 0)` when `a > 0` and `(0, 0, 0, -a)` otherwise, all with
zero imaginary part. -/
theorem Poly4_cubic_term (p0 p1 : ℝ) (hp0 : p0 ≠ 0) :
    (p1 / p0 > 0 →
      Poly4 p0 p1 0 0 0 = .ok (⟨-(p1 / p0), 0⟩, ⟨0, 0⟩, ⟨0, 0⟩, ⟨0, 0⟩)) ∧
    (¬ p1 / p0 > 0 →
      Poly4 p0 p1 0 0 0 = .ok (⟨0, 0⟩, ⟨0, 0⟩, ⟨0, 0⟩, ⟨-(p1 / p0), 0⟩)) := by
  have _ := hp0
  have h : ((0 : ℝ) / p0 = 0 ∧ (0 : ℝ) / p0 = 0) ∧ (0 : ℝ) / p0 = 0 := by
    simp only [zero_div, and_self]
  have key := Poly4_branch1 p0 p1 0 0 0 h
  refine ⟨?_, ?_⟩
  · intro ha
    rw [key, if_pos ha]
    rfl
  · intro ha
    rw [key, if_neg ha]
    rfl

/-- C15, witness: the test vectors `x⁴ + 5 x³` and `x⁴ - 5 x³`. -/
theorem Poly4_cubic_term_witness :
    Poly4 1 5 0 0 0 = .ok (⟨-(5 / 1), 0⟩, ⟨0, 0⟩, ⟨0, 0⟩, ⟨0, 0⟩) ∧
    Poly4 1 (-5) 0 0 0 = .ok (⟨0, 0⟩, ⟨0, 0⟩, ⟨0, 0⟩, ⟨-(-5 / 1), 0⟩) :=
  ⟨(Poly4_cubic_term 1 5 one_ne_zero).1 (by norm_num),
    (Poly4_cubic_term 1 (-5) one_ne_zero).2 (by norm_num)⟩

theorem ne_of_re_ne {z w : ℂ} (h : z.re ≠ w.re) : z ≠ w := fun e => h (by rw [e])

theorem ne_of_im_ne {z w : ℂ} (h : z.im ≠ w.im) : z ≠ w := fun e => h (by rw [e])

theorem nodup_four {a b c d : ℂ} (hab : a ≠ b) (hac : a ≠ c) (had : a ≠ d) (hbc : b ≠ c)
    (hbd : b ≠ d) (hcd : c ≠ d) : [a, b, c, d].Nodup := by
  simp [hab, hac, had, hbc, hbd, hcd]

theorem fourth_roots (w v d : ℂ) (h1 : v ^ 2 = -(w ^ 2)) (h2 : w ^ 4 = -d) :
    (∀ z ∈ [-w, -v, v, w], z ^ 4 = -d) ∧
    ∀ x : ℂ, (x - -w) * (x - -v) * (x - v) * (x - w) = x ^ 4 + d := by
  have hv4 : v ^ 4 = -d := by
    have : v ^ 4 = (v ^ 2) ^ 2 := by ring
    rw [this, h1, ← h2]
    ring
  refine ⟨?_, ?_⟩
  · intro z hz
    simp only [List.mem_cons, List.mem_singleton, List.not_mem_nil, or_false] at hz
    rcases hz with rfl | rfl | rfl | rfl
    · rw [← h2]; ring
    · rw [← hv4]; ring
    · exact hv4
    · exact h2
  · intro x
    linear_combination (-(x ^ 2 - w ^ 2)) * h1 - h2

/-- C16: for `p0 ≠ 0`, `p4 ≠ 0` and `p1 = p2 = p3 = 0`, with `d = p4/p0`,
`Poly4` returns four distinct values `z` with `z⁴ = -d`, and
`(x - z0)(x - z1)(x - z2)(x - z3) = x⁴ + d`; for `d < 0` the first and the
last are real and the two in the middle purely imaginary, for `d > 0` all
four have nonzero real and imaginary parts of equal magnitude. -/
theorem Poly4_pure_quartic (p0 p4 : ℝ) (hp0 : p0 ≠ 0) (hp4 : p4 ≠ 0) :
    ∃ z0 z1 z2 z3 : ℂ,
      Poly4 p0 0 0 0 p4 = .ok (z0, z1, z2, z3) ∧
      (∀ z ∈ [z0, z1, z2, z3], z ^ 4 = -((p4 / p0 : ℝ) : ℂ)) ∧
      [z0, z1, z2, z3].Nodup ∧
      (∀ x : ℂ, (x - z0) * (x - z1) * (x - z2) * (x - z3) = x ^ 4 + ((p4 / p0 : ℝ) : ℂ)) ∧
      (p4 / p0 < 0 →
        (z0.im = 0 ∧ z0.re ≠ 0) ∧ (z1.re = 0 ∧ z1.im ≠ 0) ∧
        (z2.re = 0 ∧ z2.im ≠ 0) ∧ (z3.im = 0 ∧ z3.re ≠ 0)) ∧
      (p4 / p0 > 0 →
        ∀ z ∈ [z0, z1, z2, z3], z.re ≠ 0 ∧ z.im ≠ 0 ∧ |z.re| = |z.im|) := by
  have hd : p4 / p0 ≠ 0 := div_ne_zero hp4 hp0
  have h1 : ¬ (((0 : ℝ) / p0 = 0 ∧ (0 : ℝ) / p0 = 0) ∧ p4 / p0 = 0) := fun h => hd h.2
  have h2 : ((0 : ℝ) / p0 = 0 ∧ (0 : ℝ) / p0 = 0) ∧ (0 : ℝ) / p0 = 0 := by
    simp only [zero_div, and_self]
  rcases lt_or_gt_of_ne hd with hneg | hpos
  · have hP := Poly4_branch2_neg p0 0 0 0 p4 h1 h2 (not_lt.mpr hneg.le)
    have hs : 0 < quarticAxis (p4 / p0) :=
      Real.sqrt_pos.mpr (Real.sqrt_pos.mpr (by linarith))
    have hs2 : quarticAxis (p4 / p0) ^ 2 = Real.sqrt (-(p4 / p0)) :=
      Real.sq_sqrt (Real.sqrt_nonneg _)
    have hs4 : quarticAxis (p4 / p0) ^ 4 = -(p4 / p0) := by
      have : quarticAxis (p4 / p0) ^ 4 = (quarticAxis (p4 / p0) ^ 2) ^ 2 := by ring
      rw [this, hs2]
      exact Real.sq_sqrt (by linarith)
    generalize quarticAxis (p4 / p0) = s at hP hs hs4
    have e0 : (⟨-s, 0⟩ : ℂ) = -(⟨s, 0⟩ : ℂ) := by apply Complex.ext <;> simp
    have e1 : (⟨0, -s⟩ : ℂ) = -(⟨0, s⟩ : ℂ) := by apply Complex.ext <;> simp
    have hv : (⟨0, s⟩ : ℂ) ^ 2 = -((⟨s, 0⟩ : ℂ) ^ 2) := by
      apply Complex.ext <;> simp [pow_two]
    have hw : (⟨s, 0⟩ : ℂ) ^ 4 = -((p4 / p0 : ℝ) : ℂ) := by
      have : (⟨s, 0⟩ : ℂ) = ((s : ℝ) : ℂ) := rfl
      rw [this, ← Complex.ofReal_pow, hs4]
      push_cast
      ring
    obtain ⟨hr, hprod⟩ := fourth_roots _ _ _ hv hw
    refine ⟨_, _, _, _, hP, ?_, ?_, ?_, ?_, ?_⟩
    · rw [e0, e1]
      exact hr
    · refine nodup_four ?_ ?_ ?_ ?_ ?_ ?_
      · exact ne_of_re_ne (by show -s ≠ 0; linarith)
      · exact ne_of_re_ne (by show -s ≠ 0; linarith)
      · exact ne_of_re_ne (by show -s ≠ s; linarith)
      · exact ne_of_im_ne (by show -s ≠ s; linarith)
      · exact ne_of_re_ne (by show 0 ≠ s; linarith)
      · exact ne_of_re_ne (by show 0 ≠ s; linarith)
    · intro x
      rw [e0, e1]
      exact hprod x
    · intro _
      exact ⟨⟨rfl, by show -s ≠ 0; linarith [hs]⟩, ⟨rfl, by show -s ≠ 0; linarith [hs]⟩,
        ⟨rfl, hs.ne.symm⟩, ⟨rfl, hs.ne.symm⟩⟩
    · intro h
      linarith
  · have hP := Poly4_branch2_pos p0 0 0 0 p4 h1 h2 hpos
    have hsd : 0 < Real.sqrt (p4 / p0) := Real.sqrt_pos.mpr hpos
    have hr : 0 < quarticDiag (p4 / p0) := Real.sqrt_pos.mpr (by linarith)
    have hr2 : quarticDiag (p4 / p0) ^ 2 = 0.5 * Real.sqrt (p4 / p0) :=
      Real.sq_sqrt (by linarith)
    have hr4 : quarticDiag (p4 / p0) ^ 4 = (p4 / p0) / 4 := by
      have : quarticDiag (p4 / p0) ^ 4 = (quarticDiag (p4 / p0) ^ 2) ^ 2 := by ring
      rw [this, hr2, mul_pow, Real.sq_sqrt hpos.le]
      norm_num
      ring
    generalize quarticDiag (p4 / p0) = r at hP hr hr4
    have e0 : (⟨-r, -r⟩ : ℂ) = -(⟨r, r⟩ : ℂ) := by apply Complex.ext <;> simp
    have e1 : (⟨-r, r⟩ : ℂ) = -(⟨r, -r⟩ : ℂ) := by apply Complex.ext <;> simp
    have hv : (⟨r, -r⟩ : ℂ) ^ 2 = -((⟨r, r⟩ : ℂ) ^ 2) := by
      apply Complex.ext <;> simp [pow_two]
    have hw : (⟨r, r⟩ : ℂ) ^ 4 = -((p4 / p0 : ℝ) : ℂ) := by
      have sq : (⟨r, r⟩ : ℂ) ^ 2 = ⟨0, 2 * r ^ 2⟩ := by
        apply Complex.ext <;> simp [pow_two] <;> ring
      have sq2 : (⟨0, 2 * r ^ 2⟩ : ℂ) ^ 2 = ⟨-(4 * r ^ 4), 0⟩ := by
        apply Complex.ext <;> simp [pow_two] <;> ring
      have e4 : (⟨r, r⟩ : ℂ) ^ 4 = ⟨-(4 * r ^ 4), 0⟩ := by
        rw [← sq2, ← sq]
        ring
      rw [e4, hr4]
      apply Complex.ext
      · simp only [Complex.neg_re, Complex.ofReal_re]
        ring
      · simp only [Complex.neg_im, Complex.ofReal_im, neg_zero]
    obtain ⟨hroots, hprod⟩ := fourth_roots _ _ _ hv hw
    refine ⟨_, _, _, _, hP, ?_, ?_, ?_, ?_, ?_⟩
    · rw [e0, e1]
      exact hroots
    · refine nodup_four ?_ ?_ ?_ ?_ ?_ ?_
      · exact ne_of_im_ne (by show -r ≠ r; linarith)
      · exact ne_of_re_ne (by show -r ≠ r; linarith)
      · exact ne_of_re_ne (by show -r ≠ r; linarith)
      · exact ne_of_re_ne (by show -r ≠ r; linarith)
      · exact ne_of_re_ne (by show -r ≠ r; linarith)
      · exact ne_of_im_ne (by show -r ≠ r; linarith)
    · intro x
      rw [e0, e1]
      exact hprod x
    · intro h
      linarith
    · intro _ z hz
      simp only [List.mem_cons, List.mem_singleton, List.not_mem_nil, or_false] at hz
      rcases hz with rfl | rfl | rfl | rfl <;>
        refine ⟨?_, ?_, ?_⟩ <;> simp [hr.ne.symm]

/-- C16, witness: the test vectors `x⁴ + 9` and `x⁴ - 9`. -/
theorem Poly4_pure_quartic_witness :
    (∃ z0 z1 z2 z3 : ℂ,
      Poly4 1 0 0 0 9 = .ok (z0, z1, z2, z3) ∧
      (∀ z ∈ [z0, z1, z2, z3], z ^ 4 = -((9 / 1 : ℝ) : ℂ)) ∧
      [z0, z1, z2, z3].Nodup ∧
      (∀ x : ℂ, (x - z0) * (x - z1) * (x - z2) * (x - z3) = x ^ 4 + ((9 / 1 : ℝ) : ℂ)) ∧
      ((9 : ℝ) / 1 < 0 →
        (z0.im = 0 ∧ z0.re ≠ 0) ∧ (z1.re = 0 ∧ z1.im ≠ 0) ∧
        (z2.re = 0 ∧ z2.im ≠ 0) ∧ (z3.im = 0 ∧ z3.re ≠ 0)) ∧
      ((9 : ℝ) / 1 > 0 →
        ∀ z ∈ [z0, z1, z2, z3], z.re ≠ 0 ∧ z.im ≠ 0 ∧ |z.re| = |z.im|)) ∧
    (9 : ℝ) / 1 > 0 :=
  ⟨Poly4_pure_quartic 1 9 one_ne_zero (by norm_num), by norm_num⟩

/-- C17: for `p0 ≠ 0`, `p3 = p4 = 0` and `p2 ≠ 0`, `Poly4` returns the sorted
arrangement of `0, 0, r0, r1`, where `(r0, r1) = Poly2(1, a, b)` with
`a = p1/p0`, `b = p2/p0`. -/
theorem Poly4_double_zero (p0 p1 p2 : ℝ) (hp0 : p0 ≠ 0) (hp2 : p2 ≠ 0) :
    ∃ z0 z1 z2 z3 : ℂ,
      Poly4 p0 p1 p2 0 0 = .ok (z0, z1, z2, z3) ∧
      [z0, z1, z2, z3] =
        sortCmplx [(Poly2 1 (p1 / p0) (p2 / p0)).1, (Poly2 1 (p1 / p0) (p2 / p0)).2, 0, 0] ∧
      [z0, z1, z2, z3].Perm
        [0, 0, (Poly2 1 (p1 / p0) (p2 / p0)).1, (Poly2 1 (p1 / p0) (p2 / p0)).2] ∧
      NonDecreasing [z0, z1, z2, z3] := by
  have hb : p2 / p0 ≠ 0 := div_ne_zero hp2 hp0
  have h1 : ¬ ((p2 / p0 = 0 ∧ (0 : ℝ) / p0 = 0) ∧ (0 : ℝ) / p0 = 0) := fun h => hb h.1.1
  have h2 : ¬ ((p2 / p0 = 0 ∧ (0 : ℝ) / p0 = 0) ∧ p1 / p0 = 0) := fun h => hb h.1.1
  have h3 : (0 : ℝ) / p0 = 0 ∧ (0 : ℝ) / p0 = 0 := by
    simp only [zero_div, and_self]
  have hL : [(Poly2 1 (p1 / p0) (p2 / p0)).1, (Poly2 1 (p1 / p0) (p2 / p0)).2,
      (0 : ℂ), 0].length = 4 := rfl
  refine ⟨_, _, _, _, Poly4_branch3 p0 p1 p2 0 0 h1 h2 h3, ?_, ?_, ?_⟩
  · exact (list_eq_getD4 _ (by rw [sortCmplx_length]; exact hL)).symm
  · refine (sort4_perm _ hL).trans ?_
    exact (List.perm_append_comm :
      ([(Poly2 1 (p1 / p0) (p2 / p0)).1, (Poly2 1 (p1 / p0) (p2 / p0)).2] ++
        [(0 : ℂ), 0]).Perm _)
  · exact nonDecreasing_sort4 _ hL

/-- C17, witness: the test vector `x⁴ + 25 x³ + 4 x²`. -/
theorem Poly4_double_zero_witness :
    ∃ z0 z1 z2 z3 : ℂ,
      Poly4 1 25 4 0 0 = .ok (z0, z1, z2, z3) ∧
      [z0, z1, z2, z3] =
        sortCmplx [(Poly2 1 (25 / 1) (4 / 1)).1, (Poly2 1 (25 / 1) (4 / 1)).2, 0, 0] ∧
      [z0, z1, z2, z3].Perm
        [0, 0, (Poly2 1 (25 / 1) (4 / 1)).1, (Poly2 1 (25 / 1) (4 / 1)).2] ∧
      NonDecreasing [z0, z1, z2, z3] :=
  Poly4_double_zero 1 25 4 one_ne_zero (by norm_num)

/-! ## The trimmed coefficient view -/

theorem leading_zeros (ps : List ℝ) :
    ∃ k : ℕ, ps = List.replicate k 0 ∨
      ∃ a rest, a ≠ 0 ∧ ps = List.replicate k 0 ++ a :: rest := by
  induction ps with
  | nil => exact ⟨0, Or.inl rfl⟩
  | cons v vs ih =>
    by_cases hv : v = 0
    · obtain ⟨k, h | ⟨a, rest, ha, h⟩⟩ := ih
      · exact ⟨k + 1, Or.inl (by rw [hv, h, List.replicate_succ])⟩
      · exact ⟨k + 1, Or.inr ⟨a, rest, ha, by rw [hv, h, List.replicate_succ]; rfl⟩⟩
    · exact ⟨0, Or.inr ⟨v, vs, hv, rfl⟩⟩

/-- C19: when the loop of `Polynomial` leaves an effective degree `n ≥ 1`,
the trimmed view `ps[len(ps)-1-n:]` has length `n + 1` and a nonzero first
element `a`, and it is on this view that the `switch` runs; so the linear
case never takes its `a == 0` branch, and `Poly2`, `Poly3`, `Poly4` and the
normalisation `1 / ps[0]` of the companion matrix receive the nonzero `a` as
leading coefficient. -/
theorem trimmed_view (ps : List ℝ) (n : ℕ) (hn : 1 ≤ n)
    (h : stripLoop ps ((ps.length : Int) - 1) = (n : Int)) :
    ∃ a rest,
      ps.drop ((ps.length : Int) - 1 - (n : Int)).toNat = a :: rest ∧
      (a :: rest).length = n + 1 ∧ a ≠ 0 ∧
      (∀ eigen, Polynomial eigen none ps =
        Polynomial.switch eigen n (List.replicate n 0) (a :: rest)) ∧
      (∀ eigen (d : List ℂ), (d.length : Int) = (ps.length : Int) - 1 →
        Polynomial eigen (some d) ps = Polynomial.switch eigen n (d.take n) (a :: rest)) ∧
      (∀ eigen dst b tl, Polynomial.switch eigen 1 dst (a :: b :: tl)
        = .ok (dst.set 0 ⟨-b / a, 0⟩)) ∧
      (∀ eigen dst p1 p2 tl, Polynomial.switch eigen 2 dst (a :: p1 :: p2 :: tl)
        = .ok ((dst.set 0 (Poly2 a p1 p2).1).set 1 (Poly2 a p1 p2).2)) ∧
      (∀ eigen dst p1 p2 p3 tl, Polynomial.switch eigen 3 dst (a :: p1 :: p2 :: p3 :: tl)
        = match Poly3 a p1 p2 p3 with
          | .error e => .error e
          | .ok (z0, z1, z2) => .ok (((dst.set 0 z0).set 1 z1).set 2 z2)) ∧
      (∀ eigen dst p1 p2 p3 p4 tl,
        Polynomial.switch eigen 4 dst (a :: p1 :: p2 :: p3 :: p4 :: tl)
        = match Poly4 a p1 p2 p3 p4 with
          | .error e => .error e
          | .ok (z0, z1, z2, z3) => .ok ((((dst.set 0 z0).set 1 z1).set 2 z2).set 3 z3)) ∧
      (∀ eigen m dst tl, Polynomial.switch eigen (m + 5) dst (a :: tl)
        = .ok (sortCmplx (match eigen (m + 5) (companion (m + 5) (a :: tl) (1 / a)) with
            | some vals => List.ofFn vals
            | none => dst))) := by
  obtain ⟨k, hz | ⟨a, rest, ha, hps⟩⟩ := leading_zeros ps
  · exfalso
    rw [hz, stripLoop_zeros] at h
    simp only [List.length_replicate] at h
    omega
  · have hlen : stripLoop ps ((ps.length : Int) - 1) = (rest.length : Int) := by
      rw [hps, stripLoop_leading k a rest ha]
      simp only [List.length_append, List.length_replicate, List.length_cons]
      push_cast
      ring
    have hn' : rest.length = n := by
      rw [hlen] at h
      exact_mod_cast h
    have hk : ((ps.length : Int) - 1 - (n : Int)).toNat = k := by
      rw [hps]
      simp only [List.length_append, List.length_replicate, List.length_cons]
      push_cast
      omega
    refine ⟨a, rest, ?_, ?_, ha, ?_, ?_, ?_, ?_, ?_, ?_, ?_⟩
    · rw [hk, hps]
      simp
    · simp [hn']
    · intro eigen
      rw [hps, Polynomial_nil_eq eigen k a rest ha, hn']
    · intro eigen d hd
      have hd' : d.length = k + rest.length := by
        rw [hps] at hd
        simp only [List.length_append, List.length_replicate, List.length_cons] at hd
        push_cast at hd
        omega
      rw [hps, Polynomial_some_eq eigen k a rest ha d hd', hn']
    · intro eigen dst b tl
      simp [Polynomial.switch, ha]
    · intro eigen dst p1 p2 tl
      rfl
    · intro eigen dst p1 p2 p3 tl
      rfl
    · intro eigen dst p1 p2 p3 p4 tl
      rfl
    · intro eigen m dst tl
      rfl

/-- C19, witness: `ps = [0, 2, 1]` has effective degree `1`; the trimmed
view is `[2, 1]`. -/
theorem trimmed_view_witness :
    ∃ a rest,
      ([0, 2, 1] : List ℝ).drop
        (((([0, 2, 1] : List ℝ).length : ℕ) : Int) - 1 - ((1 : ℕ) : Int)).toNat = a :: rest ∧
      (a :: rest).length = 1 + 1 ∧ a ≠ 0 ∧
      (∀ eigen, Polynomial eigen none [0, 2, 1] =
        Polynomial.switch eigen 1 (List.replicate 1 0) (a :: rest)) ∧
      (∀ eigen (d : List ℂ), (d.length : Int) = ((([0, 2, 1] : List ℝ).length : ℕ) : Int) - 1 →
        Polynomial eigen (some d) [0, 2, 1] = Polynomial.switch eigen 1 (d.take 1) (a :: rest)) ∧
      (∀ eigen dst b tl, Polynomial.switch eigen 1 dst (a :: b :: tl)
        = .ok (dst.set 0 ⟨-b / a, 0⟩)) ∧
      (∀ eigen dst p1 p2 tl, Polynomial.switch eigen 2 dst (a :: p1 :: p2 :: tl)
        = .ok ((dst.set 0 (Poly2 a p1 p2).1).set 1 (Poly2 a p1 p2).2)) ∧
      (∀ eigen dst p1 p2 p3 tl, Polynomial.switch eigen 3 dst (a :: p1 :: p2 :: p3 :: tl)
        = match Poly3 a p1 p2 p3 with
          | .error e => .error e
          | .ok (z0, z1, z2) => .ok (((dst.set 0 z0).set 1 z1).set 2 z2)) ∧
      (∀ eigen dst p1 p2 p3 p4 tl,
        Polynomial.switch eigen 4 dst (a :: p1 :: p2 :: p3 :: p4 :: tl)
        = match Poly4 a p1 p2 p3 p4 with
          | .error e => .error e
          | .ok (z0, z1, z2, z3) => .ok ((((dst.set 0 z0).set 1 z1).set 2 z2).set 3 z3)) ∧
      (∀ eigen m dst tl, Polynomial.switch eigen (m + 5) dst (a :: tl)
        = .ok (sortCmplx (match eigen (m + 5) (companion (m + 5) (a :: tl) (1 / a)) with
            | some vals => List.ofFn vals
            | none => dst))) :=
  trimmed_view [0, 2, 1] 1 (le_refl 1) (by simp [stripLoop])

/-! ## The quartic: general path -/

theorem sqrt_half_plus (a b ρ t : ℝ) (ht : 0 < t) (hρ : ρ ^ 2 = a * a + b * b)
    (ht2 : t ^ 2 = 0.5 * ρ + 0.5 * a) : t ^ 2 - (b / (2 * t)) ^ 2 = a := by
  have h4 : (2 * t) ^ 2 ≠ 0 := by positivity
  have hb2 : (b / (2 * t)) ^ 2 = (ρ - a) / 2 := by
    rw [div_pow, div_eq_iff h4]
    linear_combination (-1) * hρ - 2 * (ρ - a) * ht2
  rw [hb2, ht2]
  norm_num
  ring

theorem sqrt_half_minus (a b ρ s : ℝ) (hs : s ≠ 0) (hρ : ρ ^ 2 = a * a + b * b)
    (hs2 : s ^ 2 = 0.5 * ρ - 0.5 * a) : (b / (2 * s)) ^ 2 - s ^ 2 = a := by
  have h4 : (2 * s) ^ 2 ≠ 0 := by positivity
  have hb2 : (b / (2 * s)) ^ 2 = (ρ + a) / 2 := by
    rw [div_pow, div_eq_iff h4]
    linear_combination (-1) * hρ - 2 * (ρ + a) * hs2
  rw [hb2, hs2]
  norm_num
  ring

theorem mk_mul_self_of_re (t b s : ℝ) (ht : t ≠ 0) (hs : t ^ 2 - (b / (2 * t)) ^ 2 = s) :
    (⟨t, b / (2 * t)⟩ : ℂ) * ⟨t, b / (2 * t)⟩ = ⟨s, b⟩ := by
  apply Complex.ext
  · simp only [Complex.mul_re]
    rw [← hs]
    ring
  · simp only [Complex.mul_im]
    field_simp
    ring

theorem mk_mul_self_of_im (s b a : ℝ) (hs : s ≠ 0) (ha : (b / (2 * s)) ^ 2 - s ^ 2 = a) :
    (⟨b / (2 * s), s⟩ : ℂ) * ⟨b / (2 * s), s⟩ = ⟨a, b⟩ := by
  apply Complex.ext
  · simp only [Complex.mul_re]
    rw [← ha]
    ring
  · simp only [Complex.mul_im]
    field_simp
    ring

theorem abs_lt_hypot (a b : ℝ) (hb : b ≠ 0) : |a| < Real.sqrt (a * a + b * b) := by
  apply Real.lt_sqrt_of_sq_lt
  rw [sq_abs]
  have : 0 < b * b := mul_self_pos.mpr hb
  nlinarith

theorem hypot_sq (a b : ℝ) : Real.sqrt (a * a + b * b) ^ 2 = a * a + b * b :=
  Real.sq_sqrt (add_nonneg (mul_self_nonneg _) (mul_self_nonneg _))

theorem csqrt_mul_self_pure_im (z : ℂ) (hi : z.im ≠ 0) (hr : z.re = 0) :
    csqrt z * csqrt z = z := by
  unfold csqrt
  simp only [hi, hr, if_false, if_true]
  split_ifs with hneg
  · have h0 : (0 : ℝ) ≤ -0.5 * z.im := by
      norm_num
      linarith
    apply Complex.ext
    · simp only [Complex.mul_re]
      rw [hr]
      ring
    · simp only [Complex.mul_im]
      have := Real.mul_self_sqrt h0
      linear_combination -2 * this
  · have hpos : 0 ≤ z.im := not_lt.mp hneg
    have h0 : (0 : ℝ) ≤ 0.5 * z.im := by
      norm_num
      linarith
    apply Complex.ext
    · simp only [Complex.mul_re]
      rw [hr]
      ring
    · simp only [Complex.mul_im]
      have := Real.mul_self_sqrt h0
      linear_combination 2 * this

theorem csqrt_mul_self_re_pos (z : ℂ) (hi : z.im ≠ 0) (hr : 0 < z.re) :
    csqrt z * csqrt z = z := by
  have hρ := hypot_sq z.re z.im
  have habs := abs_lt.mp (abs_lt_hypot z.re z.im hi)
  unfold csqrt
  simp only [hi, hr.ne.symm, if_false, gt_iff_lt, hr, if_true]
  generalize Real.sqrt (z.re * z.re + z.im * z.im) = ρ at hρ habs
  have harg : 0 < 0.5 * ρ + 0.5 * z.re := by norm_num; linarith
  have ht := Real.sqrt_pos.mpr harg
  have ht2 := Real.sq_sqrt harg.le
  generalize Real.sqrt (0.5 * ρ + 0.5 * z.re) = t at ht ht2
  have hkey := mk_mul_self_of_re t z.im z.re ht.ne.symm (sqrt_half_plus _ _ ρ t ht hρ ht2)
  split_ifs with hb
  · have e : -|0.5 * z.im / t| = z.im / (2 * t) := by
      rw [abs_of_neg (div_neg_of_neg_of_pos (by norm_num; linarith) ht)]
      field_simp
      norm_num
      ring
    rw [e, hkey]
  · have e : |0.5 * z.im / t| = z.im / (2 * t) := by
      rw [abs_of_nonneg (div_nonneg (by norm_num; linarith [not_lt.mp hb]) ht.le)]
      field_simp
      norm_num
      ring
    rw [e, hkey]

theorem csqrt_mul_self_re_neg (z : ℂ) (hi : z.im ≠ 0) (hr : z.re < 0) :
    csqrt z * csqrt z = z := by
  have hρ := hypot_sq z.re z.im
  have habs := abs_lt.mp (abs_lt_hypot z.re z.im hi)
  unfold csqrt
  simp only [hi, hr.ne, if_false, gt_iff_lt, not_lt.mpr hr.le]
  generalize Real.sqrt (z.re * z.re + z.im * z.im) = ρ at hρ habs
  have harg : 0 < 0.5 * ρ - 0.5 * z.re := by norm_num; linarith
  have ht := Real.sqrt_pos.mpr harg
  have ht2 := Real.sq_sqrt harg.le
  generalize Real.sqrt (0.5 * ρ - 0.5 * z.re) = r at ht ht2
  split_ifs with hb
  · have e : |0.5 * z.im / r| = z.im / (2 * -r) := by
      rw [abs_of_neg (div_neg_of_neg_of_pos (by norm_num; linarith) ht)]
      field_simp
      norm_num
      ring
    have hs2 : (-r) ^ 2 = 0.5 * ρ - 0.5 * z.re := by rw [neg_sq, ht2]
    rw [e, mk_mul_self_of_im (-r) z.im z.re (by linarith)
      (sqrt_half_minus _ _ ρ (-r) (by linarith) hρ hs2)]
  · have e : |0.5 * z.im / r| = z.im / (2 * r) := by
      rw [abs_of_nonneg (div_nonneg (by norm_num; linarith [not_lt.mp hb]) ht.le)]
      field_simp
      norm_num
      ring
    rw [e, mk_mul_self_of_im r z.im z.re ht.ne.symm
      (sqrt_half_minus _ _ ρ r ht.ne.symm hρ ht2)]

/-- The model of `cmplx.Sqrt` is a square root: `csqrt z * csqrt z = z`. -/
theorem csqrt_mul_self (z : ℂ) : csqrt z * csqrt z = z := by
  by_cases hi : z.im = 0
  · have e : z = ⟨z.re, 0⟩ := Complex.ext rfl hi
    rw [e]
    exact csqrt_ofReal_mul_self z.re
  · rcases lt_trichotomy z.re 0 with h | h | h
    · exact csqrt_mul_self_re_neg z hi h
    · exact csqrt_mul_self_pure_im z hi h
    · exact csqrt_mul_self_re_pos z hi h

theorem csqrt_sq (z : ℂ) : csqrt z ^ 2 = z := by
  rw [pow_two]
  exact csqrt_mul_self z

theorem quartic_identity_ne (a b c d y R H D E x : ℂ) (hR : R ≠ 0)
    (h1 : R ^ 2 = a ^ 2 / 4 - b + y)
    (hH : H * R = (4 * a * b - 8 * c - a ^ 3) / 4)
    (hres : y ^ 3 - b * y ^ 2 + (a * c - 4 * d) * y + (4 * b * d - c ^ 2 - a ^ 2 * d) = 0)
    (hD : D ^ 2 = 3 * a ^ 2 / 4 - 2 * b - R ^ 2 + H)
    (hE : E ^ 2 = 3 * a ^ 2 / 4 - 2 * b - R ^ 2 - H) :
    (x - (-a / 4 + R / 2 + D / 2)) * (x - (-a / 4 + R / 2 - D / 2)) *
      (x - (-a / 4 - R / 2 + E / 2)) * (x - (-a / 4 - R / 2 - E / 2))
      = x ^ 4 + a * x ^ 3 + b * x ^ 2 + c * x + d := by
  have hy : y = R ^ 2 - a ^ 2 / 4 + b := by linear_combination -h1
  subst hy
  have hc : c = (4 * a * b - a ^ 3 - 4 * (H * R)) / 8 := by linear_combination hH / 2
  subst hc
  have hR2 : 4 * R ^ 2 ≠ 0 := mul_ne_zero (by norm_num) (pow_ne_zero 2 hR)
  have key : (x - (-a / 4 + R / 2 + D / 2)) * (x - (-a / 4 + R / 2 - D / 2)) *
      (x - (-a / 4 - R / 2 + E / 2)) * (x - (-a / 4 - R / 2 - E / 2))
      = ((x + a / 4 - R / 2) ^ 2 - D ^ 2 / 4) * ((x + a / 4 + R / 2) ^ 2 - E ^ 2 / 4) := by
    ring
  rw [key, hD, hE]
  apply mul_left_cancel₀ hR2
  linear_combination hres

theorem quartic_identity_zero (a b c d y G D E x : ℂ)
    (h1 : a ^ 2 / 4 - b + y = 0)
    (hres : y ^ 3 - b * y ^ 2 + (a * c - 4 * d) * y + (4 * b * d - c ^ 2 - a ^ 2 * d) = 0)
    (hG : G ^ 2 = 4 * (y ^ 2 - 4 * d))
    (hD : D ^ 2 = 3 * a ^ 2 / 4 - 2 * b + G)
    (hE : E ^ 2 = 3 * a ^ 2 / 4 - 2 * b - G) :
    (x - (-a / 4 + 0 / 2 + D / 2)) * (x - (-a / 4 + 0 / 2 - D / 2)) *
      (x - (-a / 4 - 0 / 2 + E / 2)) * (x - (-a / 4 - 0 / 2 - E / 2))
      = x ^ 4 + a * x ^ 3 + b * x ^ 2 + c * x + d := by
  have hy : y = b - a ^ 2 / 4 := by linear_combination h1
  have hc2 : (a * y / 2 - c) ^ 2 = 0 := by
    linear_combination (y ^ 2 - 4 * d) * h1 - hres
  have hc : c = a * y / 2 := by
    have := pow_eq_zero_iff (two_ne_zero) |>.mp hc2
    linear_combination -this
  have hd : d = (y ^ 2 - G ^ 2 / 4) / 4 := by linear_combination hG / 16
  have key : (x - (-a / 4 + 0 / 2 + D / 2)) * (x - (-a / 4 + 0 / 2 - D / 2)) *
      (x - (-a / 4 - 0 / 2 + E / 2)) * (x - (-a / 4 - 0 / 2 - E / 2))
      = ((x + a / 4) ^ 2 - D ^ 2 / 4) * ((x + a / 4) ^ 2 - E ^ 2 / 4) := by
    ring
  rw [key, hD, hE, hd, hc, hy]
  ring

theorem quarticR_sq (a b y : ℝ) :
    quarticR a b y ^ 2 = (a : ℂ) ^ 2 / 4 - (b : ℂ) + (y : ℂ) := by
  unfold quarticR
  rw [csqrt_sq]
  have e : ∀ r : ℝ, (⟨r, 0⟩ : ℂ) = ((r : ℝ) : ℂ) := fun _ => rfl
  rw [e]
  push_cast
  ring

theorem quarticF_eq (a b : ℝ) : quarticF a b = 3 * (a : ℂ) ^ 2 / 4 - 2 * (b : ℂ) := by
  unfold quarticF
  have e : ∀ r : ℝ, (⟨r, 0⟩ : ℂ) = ((r : ℝ) : ℂ) := fun _ => rfl
  rw [e]
  push_cast
  ring

theorem quarticG_sq (d y : ℝ) : quarticG d y ^ 2 = 4 * ((y : ℂ) ^ 2 - 4 * (d : ℂ)) := by
  unfold quarticG
  rw [mul_pow, csqrt_sq]
  have e : ∀ r : ℝ, (⟨r, 0⟩ : ℂ) = ((r : ℝ) : ℂ) := fun _ => rfl
  rw [e]
  push_cast
  ring

theorem quarticH_mul (a b c y : ℝ) (hR : quarticR a b y ≠ 0) :
    quarticH a b c y * quarticR a b y
      = (4 * (a : ℂ) * (b : ℂ) - 8 * (c : ℂ) - (a : ℂ) ^ 3) / 4 := by
  unfold quarticH
  rw [div_mul_cancel₀ _ hR]
  have e : ∀ r : ℝ, (⟨r, 0⟩ : ℂ) = ((r : ℝ) : ℂ) := fun _ => rfl
  rw [e]
  push_cast
  ring

/-- If `y` is a root of the resolvent cubic, the four values of the general
path are the roots, with multiplicity, of `x⁴ + a x³ + b x² + c x + d`, in
both sub-cases `R = 0` and `R ≠ 0`. -/
theorem quarticRoots_prod (a b c d y : ℝ) (hres : resolvent a b c d y = 0) (x : ℂ) :
    (x - (quarticRoots a b c d y).getD 0 0) * (x - (quarticRoots a b c d y).getD 1 0) *
      (x - (quarticRoots a b c d y).getD 2 0) * (x - (quarticRoots a b c d y).getD 3 0)
      = x ^ 4 + (a : ℂ) * x ^ 3 + (b : ℂ) * x ^ 2 + (c : ℂ) * x + (d : ℂ) := by
  have hresC : (y : ℂ) ^ 3 - (b : ℂ) * (y : ℂ) ^ 2 + ((a : ℂ) * (c : ℂ) - 4 * (d : ℂ)) * (y : ℂ)
      + (4 * (b : ℂ) * (d : ℂ) - (c : ℂ) ^ 2 - (a : ℂ) ^ 2 * (d : ℂ)) = 0 := by
    unfold resolvent at hres
    exact_mod_cast hres
  have hR2 := quarticR_sq a b y
  unfold quarticRoots
  simp only [List.getD_cons_zero, List.getD_cons_succ]
  by_cases hR : quarticR a b y = 0
  · have hD : quarticD a b c d y ^ 2 = 3 * (a : ℂ) ^ 2 / 4 - 2 * (b : ℂ) + quarticG d y := by
      unfold quarticD
      rw [if_pos hR, csqrt_sq, quarticF_eq]
    have hE : quarticE a b c d y ^ 2 = 3 * (a : ℂ) ^ 2 / 4 - 2 * (b : ℂ) - quarticG d y := by
      unfold quarticE
      rw [if_pos hR, csqrt_sq, quarticF_eq]
    rw [hR] at hR2 ⊢
    have h1 : (a : ℂ) ^ 2 / 4 - (b : ℂ) + (y : ℂ) = 0 := by
      rw [← hR2]
      ring
    exact quartic_identity_zero _ _ _ _ _ _ _ _ x h1 hresC (quarticG_sq d y) hD hE
  · have hD : quarticD a b c d y ^ 2
        = 3 * (a : ℂ) ^ 2 / 4 - 2 * (b : ℂ) - quarticR a b y ^ 2 + quarticH a b c y := by
      unfold quarticD
      rw [if_neg hR, csqrt_sq, quarticF_eq]
    have hE : quarticE a b c d y ^ 2
        = 3 * (a : ℂ) ^ 2 / 4 - 2 * (b : ℂ) - quarticR a b y ^ 2 - quarticH a b c y := by
      unfold quarticE
      rw [if_neg hR, csqrt_sq, quarticF_eq]
    exact quartic_identity_ne _ _ _ _ _ _ _ _ _ x hR hR2 (quarticH_mul a b c y hR) hresC hD hE

theorem prod4_of_perm {z0 z1 z2 z3 r0 r1 r2 r3 : ℂ}
    (h : [z0, z1, z2, z3].Perm [r0, r1, r2, r3]) (x : ℂ) :
    (x - z0) * (x - z1) * (x - z2) * (x - z3)
      = (x - r0) * (x - r1) * (x - r2) * (x - r3) := by
  have := (List.Perm.map (fun z => x - z) h).prod_eq
  simp only [List.map_cons, List.map_nil, List.prod_cons, List.prod_nil, mul_one] at this
  rw [mul_assoc, mul_assoc, mul_assoc, mul_assoc]
  exact this

theorem Poly4_general (p0 p1 p2 p3 p4 : ℝ)
    (h1 : ¬ ((p2 / p0 = 0 ∧ p3 / p0 = 0) ∧ p4 / p0 = 0))
    (h2 : ¬ ((p2 / p0 = 0 ∧ p3 / p0 = 0) ∧ p1 / p0 = 0))
    (h3 : ¬ (p3 / p0 = 0 ∧ p4 / p0 = 0)) (y1 y2 y3 : ℂ)
    (hP : Poly3 1 (-(p2 / p0)) (p3 / p0 * (p1 / p0) - 4 * (p4 / p0))
      (4 * (p2 / p0) * (p4 / p0) - p3 / p0 * (p3 / p0) - p1 / p0 * (p1 / p0) * (p4 / p0))
      = .ok (y1, y2, y3)) :
    Poly4 p0 p1 p2 p3 p4 = .ok
      ((sortCmplx (quarticRoots (p1 / p0) (p2 / p0) (p3 / p0) (p4 / p0)
          (selectY y1 y2 y3))).getD 0 0,
       (sortCmplx (quarticRoots (p1 / p0) (p2 / p0) (p3 / p0) (p4 / p0)
          (selectY y1 y2 y3))).getD 1 0,
       (sortCmplx (quarticRoots (p1 / p0) (p2 / p0) (p3 / p0) (p4 / p0)
          (selectY y1 y2 y3))).getD 2 0,
       (sortCmplx (quarticRoots (p1 / p0) (p2 / p0) (p3 / p0) (p4 / p0)
          (selectY y1 y2 y3))).getD 3 0) := by
  have e : ∀ x : ℝ, x * (1 / p0) = x / p0 := fun x => by ring
  unfold Poly4
  simp only [e, if_neg h1, if_neg h2, if_neg h3, hP]
  apply ok4_congr
  have hy : (if y1.im = 0 then y1.re else if y2.im = 0 then y2.re
      else if y3.im = 0 then y3.re else 0) = selectY y1 y2 y3 := rfl
  simp only [hy]
  generalize selectY y1 y2 y3 = y
  have hR : csqrt ⟨0.25 * (p1 / p0 * (p1 / p0)) - p2 / p0 + y, 0⟩
      = quarticR (p1 / p0) (p2 / p0) y := by
    unfold quarticR
    congr 2
    ring
  have hF : (⟨0.75 * (p1 / p0 * (p1 / p0)) - 2 * (p2 / p0), 0⟩ : ℂ)
      = quarticF (p1 / p0) (p2 / p0) := by
    unfold quarticF
    congr 1
    ring
  have hG : 2 * csqrt ⟨y * y - 4 * (p4 / p0), 0⟩ = quarticG (p4 / p0) y := by
    unfold quarticG
    congr 3
    ring
  have hH : (⟨0.25 * (4 * (p1 / p0) * (p2 / p0) - 8 * (p3 / p0)
      - p1 / p0 * (p1 / p0 * (p1 / p0))), 0⟩ : ℂ) / quarticR (p1 / p0) (p2 / p0) y
      = quarticH (p1 / p0) (p2 / p0) (p3 / p0) y := by
    unfold quarticH
    congr 2
    ring
  simp only [hR, hF, hG, hH]
  unfold quarticRoots quarticD quarticE
  have hza : (0.25 : ℂ) * ⟨p1 / p0, 0⟩ = ((p1 / p0 : ℝ) : ℂ) / 4 := by
    rw [show (⟨p1 / p0, 0⟩ : ℂ) = ((p1 / p0 : ℝ) : ℂ) from rfl]
    ring
  by_cases h0 : quarticR (p1 / p0) (p2 / p0) y = 0
  · simp only [h0, if_true, hza]
    norm_num
    refine ⟨?_, ?_, ?_, ?_⟩ <;> ring
  · simp only [if_neg h0, hza]
    norm_num
    refine ⟨?_, ?_, ?_, ?_⟩ <;> ring_nf

theorem resolventCall_example :
    resolventCall ((0 : ℝ) / 1) ((-6 : ℝ) / 1) ((8 : ℝ) / 1) ((-3 : ℝ) / 1)
      = .ok (⟨-6 / 3, 0⟩, ⟨-6 / 3, 0⟩, ⟨-6 / 3, 0⟩) := by
  have h := Poly3_triple 6 12 8
    ⟨by unfold cubicP; norm_num, by unfold cubicQ; norm_num⟩
  unfold resolventCall
  norm_num
  norm_num at h
  exact h

theorem Poly4_eq_Poly4With (p0 p1 p2 p3 p4 : ℝ) :
    Poly4 p0 p1 p2 p3 p4 = Poly4With Poly3 p0 p1 p2 p3 p4 := rfl

theorem Poly4With_general (cubic : ℝ → ℝ → ℝ → ℝ → Except Panic (ℂ × ℂ × ℂ))
    (p0 p1 p2 p3 p4 : ℝ)
    (h1 : ¬ ((p2 / p0 = 0 ∧ p3 / p0 = 0) ∧ p4 / p0 = 0))
    (h2 : ¬ ((p2 / p0 = 0 ∧ p3 / p0 = 0) ∧ p1 / p0 = 0))
    (h3 : ¬ (p3 / p0 = 0 ∧ p4 / p0 = 0)) (y1 y2 y3 : ℂ)
    (hP : cubic 1 (-(p2 / p0)) (p3 / p0 * (p1 / p0) - 4 * (p4 / p0))
      (4 * (p2 / p0) * (p4 / p0) - p3 / p0 * (p3 / p0) - p1 / p0 * (p1 / p0) * (p4 / p0))
      = .ok (y1, y2, y3)) :
    Poly4With cubic p0 p1 p2 p3 p4 = .ok
      ((sortCmplx (quarticRoots (p1 / p0) (p2 / p0) (p3 / p0) (p4 / p0)
          (selectY y1 y2 y3))).getD 0 0,
       (sortCmplx (quarticRoots (p1 / p0) (p2 / p0) (p3 / p0) (p4 / p0)
          (selectY y1 y2 y3))).getD 1 0,
       (sortCmplx (quarticRoots (p1 / p0) (p2 / p0) (p3 / p0) (p4 / p0)
          (selectY y1 y2 y3))).getD 2 0,
       (sortCmplx (quarticRoots (p1 / p0) (p2 / p0) (p3 / p0) (p4 / p0)
          (selectY y1 y2 y3))).getD 3 0) := by
  have e : ∀ x : ℝ, x * (1 / p0) = x / p0 := fun x => by ring
  unfold Poly4With
  simp only [e, if_neg h1, if_neg h2, if_neg h3, hP]
  apply ok4_congr
  have hy : (if y1.im = 0 then y1.re else if y2.im = 0 then y2.re
      else if y3.im = 0 then y3.re else 0) = selectY y1 y2 y3 := rfl
  simp only [hy]
  generalize selectY y1 y2 y3 = y
  have hR : csqrt ⟨0.25 * (p1 / p0 * (p1 / p0)) - p2 / p0 + y, 0⟩
      = quarticR (p1 / p0) (p2 / p0) y := by
    unfold quarticR
    congr 2
    ring
  have hF : (⟨0.75 * (p1 / p0 * (p1 / p0)) - 2 * (p2 / p0), 0⟩ : ℂ)
      = quarticF (p1 / p0) (p2 / p0) := by
    unfold quarticF
    congr 1
    ring
  have hG : 2 * csqrt ⟨y * y - 4 * (p4 / p0), 0⟩ = quarticG (p4 / p0) y := by
    unfold quarticG
    congr 3
    ring
  have hH : (⟨0.25 * (4 * (p1 / p0) * (p2 / p0) - 8 * (p3 / p0)
      - p1 / p0 * (p1 / p0 * (p1 / p0))), 0⟩ : ℂ) / quarticR (p1 / p0) (p2 / p0) y
      = quarticH (p1 / p0) (p2 / p0) (p3 / p0) y := by
    unfold quarticH
    congr 2
    ring
  simp only [hR, hF, hG, hH]
  unfold quarticRoots quarticD quarticE
  have hza : (0.25 : ℂ) * ⟨p1 / p0, 0⟩ = ((p1 / p0 : ℝ) : ℂ) / 4 := by
    rw [show (⟨p1 / p0, 0⟩ : ℂ) = ((p1 / p0 : ℝ) : ℂ) from rfl]
    ring
  by_cases h0 : quarticR (p1 / p0) (p2 / p0) y = 0
  · simp only [h0, if_true, hza]
    norm_num
    refine ⟨?_, ?_, ?_, ?_⟩ <;> ring
  · simp only [if_neg h0, hza]
    norm_num
    refine ⟨?_, ?_, ?_, ?_⟩ <;> ring_nf

theorem resolventCallWith_example :
    resolventCallWith Poly3 ((0 : ℝ) / 1) ((-6 : ℝ) / 1) ((8 : ℝ) / 1) ((-3 : ℝ) / 1)
      = .ok (⟨-6 / 3, 0⟩, ⟨-6 / 3, 0⟩, ⟨-6 / 3, 0⟩) :=
  resolventCall_example

/-- C14: for `p0 ≠ 0` and normalised coefficients `a, b, c, d` that reach the
general path of `Poly4`, whatever solver `cubic` is called on the resolvent
(the `Poly3` of the embedding, in exact arithmetic, or the one of the
program, which rounds): if the call returns `(y1, y2, y3)` and the selected
value `y` is a root of the resolvent
`y³ - b y² + (a c - 4 d) y + (4 b d - c² - a² d)`, then the four values
`-a/4 + R/2 ± D/2`, `-a/4 - R/2 ± E/2` (with `R`, `D`, `E` the principal
square roots of the general path, in either case `R = 0` or `R ≠ 0`) multiply
out to `x⁴ + a x³ + b x² + c x + d`, and the code of `Poly4` returns exactly
these four values in sorted order.  Nothing is said of a selected `y` that
is not a root of the resolvent. -/
theorem Poly4_general_path (cubic : ℝ → ℝ → ℝ → ℝ → Except Panic (ℂ × ℂ × ℂ))
    (p0 p1 p2 p3 p4 : ℝ) (hp0 : p0 ≠ 0)
    (hpath : generalPath (p1 / p0) (p2 / p0) (p3 / p0) (p4 / p0)) (y1 y2 y3 : ℂ)
    (hP : resolventCallWith cubic (p1 / p0) (p2 / p0) (p3 / p0) (p4 / p0) = .ok (y1, y2, y3))
    (hres : resolvent (p1 / p0) (p2 / p0) (p3 / p0) (p4 / p0) (selectY y1 y2 y3) = 0) :
    (∀ x : ℂ,
      (x - (quarticRoots (p1 / p0) (p2 / p0) (p3 / p0) (p4 / p0) (selectY y1 y2 y3)).getD 0 0) *
      (x - (quarticRoots (p1 / p0) (p2 / p0) (p3 / p0) (p4 / p0) (selectY y1 y2 y3)).getD 1 0) *
      (x - (quarticRoots (p1 / p0) (p2 / p0) (p3 / p0) (p4 / p0) (selectY y1 y2 y3)).getD 2 0) *
      (x - (quarticRoots (p1 / p0) (p2 / p0) (p3 / p0) (p4 / p0) (selectY y1 y2 y3)).getD 3 0)
        = x ^ 4 + ((p1 / p0 : ℝ) : ℂ) * x ^ 3 + ((p2 / p0 : ℝ) : ℂ) * x ^ 2
          + ((p3 / p0 : ℝ) : ℂ) * x + ((p4 / p0 : ℝ) : ℂ)) ∧
    (∃ z0 z1 z2 z3 : ℂ,
      Poly4With cubic p0 p1 p2 p3 p4 = .ok (z0, z1, z2, z3) ∧
      [z0, z1, z2, z3] =
        sortCmplx (quarticRoots (p1 / p0) (p2 / p0) (p3 / p0) (p4 / p0) (selectY y1 y2 y3)) ∧
      [z0, z1, z2, z3].Perm
        (quarticRoots (p1 / p0) (p2 / p0) (p3 / p0) (p4 / p0) (selectY y1 y2 y3)) ∧
      NonDecreasing [z0, z1, z2, z3] ∧
      ∀ x : ℂ, (x - z0) * (x - z1) * (x - z2) * (x - z3)
        = x ^ 4 + ((p1 / p0 : ℝ) : ℂ) * x ^ 3 + ((p2 / p0 : ℝ) : ℂ) * x ^ 2
          + ((p3 / p0 : ℝ) : ℂ) * x + ((p4 / p0 : ℝ) : ℂ)) ∧
    Poly4 p0 p1 p2 p3 p4 = Poly4With Poly3 p0 p1 p2 p3 p4 := by
  have _ := hp0
  obtain ⟨h1, h2, h3⟩ := hpath
  have hL : (quarticRoots (p1 / p0) (p2 / p0) (p3 / p0) (p4 / p0)
      (selectY y1 y2 y3)).length = 4 := rfl
  have hprod := quarticRoots_prod (p1 / p0) (p2 / p0) (p3 / p0) (p4 / p0)
    (selectY y1 y2 y3) hres
  refine ⟨hprod, ⟨_, _, _, _,
    Poly4With_general cubic p0 p1 p2 p3 p4 h1 h2 h3 y1 y2 y3 hP, ?_, ?_, ?_, ?_⟩, rfl⟩
  · exact (list_eq_getD4 _ (by rw [sortCmplx_length]; exact hL)).symm
  · exact sort4_perm _ hL
  · exact nonDecreasing_sort4 _ hL
  · intro x
    have hperm := (sort4_perm _ hL).trans
      (List.Perm.of_eq (list_eq_getD4 _ hL))
    rw [prod4_of_perm hperm x]
    exact hprod x

/-- C14, witness: `x⁴ - 6 x² + 8 x - 3 = (x - 1)³ (x + 3)`, whose resolvent
`y³ + 6 y² + 12 y + 8` has the triple root `-2`, which `Poly3` returns (in
binary64 as in exact arithmetic: `p = q = 0` and `-6 * (1/3)` rounds to `-2`). -/
theorem Poly4_general_path_witness :
    (∀ x : ℂ,
      (x - (quarticRoots ((0 : ℝ) / 1) ((-6 : ℝ) / 1) ((8 : ℝ) / 1) ((-3 : ℝ) / 1)
        (selectY ⟨-6 / 3, 0⟩ ⟨-6 / 3, 0⟩ ⟨-6 / 3, 0⟩)).getD 0 0) *
      (x - (quarticRoots ((0 : ℝ) / 1) ((-6 : ℝ) / 1) ((8 : ℝ) / 1) ((-3 : ℝ) / 1)
        (selectY ⟨-6 / 3, 0⟩ ⟨-6 / 3, 0⟩ ⟨-6 / 3, 0⟩)).getD 1 0) *
      (x - (quarticRoots ((0 : ℝ) / 1) ((-6 : ℝ) / 1) ((8 : ℝ) / 1) ((-3 : ℝ) / 1)
        (selectY ⟨-6 / 3, 0⟩ ⟨-6 / 3, 0⟩ ⟨-6 / 3, 0⟩)).getD 2 0) *
      (x - (quarticRoots ((0 : ℝ) / 1) ((-6 : ℝ) / 1) ((8 : ℝ) / 1) ((-3 : ℝ) / 1)
        (selectY ⟨-6 / 3, 0⟩ ⟨-6 / 3, 0⟩ ⟨-6 / 3, 0⟩)).getD 3 0)
        = x ^ 4 + (((0 : ℝ) / 1 : ℝ) : ℂ) * x ^ 3 + (((-6 : ℝ) / 1 : ℝ) : ℂ) * x ^ 2
          + (((8 : ℝ) / 1 : ℝ) : ℂ) * x + (((-3 : ℝ) / 1 : ℝ) : ℂ)) ∧
    (∃ z0 z1 z2 z3 : ℂ,
      Poly4With Poly3 1 0 (-6) 8 (-3) = .ok (z0, z1, z2, z3) ∧
      [z0, z1, z2, z3] =
        sortCmplx (quarticRoots ((0 : ℝ) / 1) ((-6 : ℝ) / 1) ((8 : ℝ) / 1) ((-3 : ℝ) / 1)
          (selectY ⟨-6 / 3, 0⟩ ⟨-6 / 3, 0⟩ ⟨-6 / 3, 0⟩)) ∧
      [z0, z1, z2, z3].Perm
        (quarticRoots ((0 : ℝ) / 1) ((-6 : ℝ) / 1) ((8 : ℝ) / 1) ((-3 : ℝ) / 1)
          (selectY ⟨-6 / 3, 0⟩ ⟨-6 / 3, 0⟩ ⟨-6 / 3, 0⟩)) ∧
      NonDecreasing [z0, z1, z2, z3] ∧
      ∀ x : ℂ, (x - z0) * (x - z1) * (x - z2) * (x - z3)
        = x ^ 4 + (((0 : ℝ) / 1 : ℝ) : ℂ) * x ^ 3 + (((-6 : ℝ) / 1 : ℝ) : ℂ) * x ^ 2
          + (((8 : ℝ) / 1 : ℝ) : ℂ) * x + (((-3 : ℝ) / 1 : ℝ) : ℂ)) ∧
    Poly4 1 0 (-6) 8 (-3) = Poly4With Poly3 1 0 (-6) 8 (-3) :=
  Poly4_general_path Poly3 1 0 (-6) 8 (-3) one_ne_zero
    (by unfold generalPath; norm_num) _ _ _ resolventCallWith_example
    (by unfold resolvent selectY; norm_num)

/-! ## The value selected from the resolvent's roots -/

theorem Poly3_oneReal_countP (a b c : ℝ)
    (hΔ : cubicDelta (cubicP a b) (cubicQ a b c) > eps) (z0 z1 z2 : ℂ)
    (h : Poly3 1 a b c = .ok (z0, z1, z2)) :
    List.countP (fun z : ℂ => decide (z.im = 0)) [z0, z1, z2] = 1 := by
  have he := eps_pos
  have hpos : 0 < cubicDelta (cubicP a b) (cubicQ a b c) := by linarith
  obtain ⟨_, _, hsum⟩ := cardano_facts _ _ hpos
  have hs3 : 0 < Real.sqrt 3 := Real.sqrt_pos.mpr (by norm_num)
  have him : 0 < (cardanoU (cubicQ a b c) (cubicDelta (cubicP a b) (cubicQ a b c))
      + cardanoV (cubicQ a b c) (cubicDelta (cubicP a b) (cubicQ a b c))) * Real.sqrt 3 / 2 := by
    positivity
  have hL : (cardanoRoots a (cubicQ a b c)
      (cubicDelta (cubicP a b) (cubicQ a b c))).length = 3 := rfl
  rw [Poly3_oneReal a b c hΔ] at h
  injection h with h
  injection h with h0 h
  injection h with h1 h2
  rw [← h0, ← h1, ← h2, (sort3_perm _ hL).countP_eq]
  unfold cardanoRoots
  simp [List.countP_cons, him.ne.symm]

theorem Poly3_threeReal_im (a b c : ℝ)
    (hΔ : cubicDelta (cubicP a b) (cubicQ a b c) ≤ -eps) (z0 z1 z2 : ℂ)
    (h : Poly3 1 a b c = .ok (z0, z1, z2)) : z0.im = 0 := by
  have hL : (trigRoots a (cubicP a b) (cubicQ a b c)).length = 3 := rfl
  rw [Poly3_threeReal a b c hΔ] at h
  injection h with h
  injection h with h0 h
  have hm : z0 ∈ trigRoots a (cubicP a b) (cubicQ a b c) := by
    rw [← h0]
    exact (sort3_perm _ hL).mem_iff.mp (List.mem_cons_self _ _)
  unfold trigRoots at hm
  simp only [List.mem_cons, List.mem_singleton, List.not_mem_nil, or_false] at hm
  rcases hm with rfl | rfl | rfl <;> rfl

theorem Poly3_im_zero (a b c : ℝ) (z0 z1 z2 : ℂ)
    (h : Poly3 1 a b c = .ok (z0, z1, z2)) :
    z0.im = 0 ∨ z1.im = 0 ∨ z2.im = 0 := by
  have he := eps_pos
  by_cases h0 : cubicP a b = 0 ∧ cubicQ a b c = 0
  · rw [Poly3_triple a b c h0] at h
    injection h with h
    injection h with h0 h
    exact Or.inl (by rw [← h0])
  by_cases h1 : cubicDelta (cubicP a b) (cubicQ a b c) = 0 ∨
      |cubicDelta (cubicP a b) (cubicQ a b c)| < eps
  · rw [Poly3_repeated a b c h0 h1] at h
    split_ifs at h
    · injection h with h
      injection h with h0 h
      exact Or.inl (by rw [← h0])
    · injection h with h
      injection h with h0 h
      exact Or.inl (by rw [← h0])
  by_cases h2 : cubicDelta (cubicP a b) (cubicQ a b c) > eps
  · have hc := Poly3_oneReal_countP a b c h2 z0 z1 z2 h
    by_contra hn
    push_neg at hn
    obtain ⟨n0, n1, n2⟩ := hn
    simp [List.countP_cons, n0, n1, n2] at hc
  · have h3 : cubicDelta (cubicP a b) (cubicQ a b c) ≠ eps := by
      intro h3
      have herr : Poly3 1 a b c = .error Panic.impossibleDelta := by
        rw [Poly3_error_iff]
        refine ⟨rfl, ?_, ?_⟩
        · rw [div_one, div_one, div_one]
          exact h0
        · rw [div_one, div_one, div_one]
          exact h3
      rw [herr] at h
      cases h
    have h4 : cubicDelta (cubicP a b) (cubicQ a b c) ≤ -eps := by
      push_neg at h1 h2
      have hlt : cubicDelta (cubicP a b) (cubicQ a b c) < eps := lt_of_le_of_ne h2 h3
      by_contra hc
      push_neg at hc
      exact absurd (abs_lt.mpr ⟨hc, hlt⟩) (not_lt.mpr h1.2)
    exact Or.inl (Poly3_threeReal_im a b c h4 z0 z1 z2 h)

theorem selectY_cases (z0 z1 z2 : ℂ) (h : z0.im = 0 ∨ z1.im = 0 ∨ z2.im = 0) :
    (z0.im = 0 ∧ selectY z0 z1 z2 = z0.re) ∨
    (z0.im ≠ 0 ∧ z1.im = 0 ∧ selectY z0 z1 z2 = z1.re) ∨
    (z0.im ≠ 0 ∧ z1.im ≠ 0 ∧ z2.im = 0 ∧ selectY z0 z1 z2 = z2.re) := by
  unfold selectY
  by_cases h0 : z0.im = 0
  · exact Or.inl ⟨h0, by rw [if_pos h0]⟩
  by_cases h1 : z1.im = 0
  · exact Or.inr (Or.inl ⟨h0, h1, by rw [if_neg h0, if_pos h1]⟩)
  have h2 : z2.im = 0 := by
    rcases h with h | h | h
    · exact absurd h h0
    · exact absurd h h1
    · exact h
  exact Or.inr (Or.inr ⟨h0, h1, h2, by rw [if_neg h0, if_neg h1, if_pos h2]⟩)

/-- C20: whenever `Poly3` returns on an input with `p0 ≠ 0`, one of the three
returned values has imaginary part exactly `0`, the selection of `Poly4` is
the real part of the first returned value with zero imaginary part, and for
`Δ > ε` exactly one returned value has zero imaginary part; so, on the general
path of `Poly4`, whenever the resolvent call returns `(y1, y2, y3)` the value
`y` used is the real part of one of `y1, y2, y3` with zero imaginary part
(never the initial value of `y`), and `Poly4` returns the sorted values built
from that `y`. -/
theorem Poly3_zero_imaginary_selected :
    (∀ (p0 p1 p2 p3 : ℝ) (z0 z1 z2 : ℂ), p0 ≠ 0 →
      Poly3 p0 p1 p2 p3 = .ok (z0, z1, z2) →
      (z0.im = 0 ∨ z1.im = 0 ∨ z2.im = 0) ∧
      ((z0.im = 0 ∧ selectY z0 z1 z2 = z0.re) ∨
        (z0.im ≠ 0 ∧ z1.im = 0 ∧ selectY z0 z1 z2 = z1.re) ∨
        (z0.im ≠ 0 ∧ z1.im ≠ 0 ∧ z2.im = 0 ∧ selectY z0 z1 z2 = z2.re)) ∧
      (discriminant p0 p1 p2 p3 > eps →
        List.countP (fun z : ℂ => decide (z.im = 0)) [z0, z1, z2] = 1)) ∧
    (∀ (q0 q1 q2 q3 q4 : ℝ) (y1 y2 y3 : ℂ), q0 ≠ 0 →
      generalPath (q1 / q0) (q2 / q0) (q3 / q0) (q4 / q0) →
      resolventCall (q1 / q0) (q2 / q0) (q3 / q0) (q4 / q0) = .ok (y1, y2, y3) →
      ∃ y ∈ [y1, y2, y3], y.im = 0 ∧ selectY y1 y2 y3 = y.re ∧
        Poly4 q0 q1 q2 q3 q4 = .ok
          ((sortCmplx (quarticRoots (q1 / q0) (q2 / q0) (q3 / q0) (q4 / q0) y.re)).getD 0 0,
           (sortCmplx (quarticRoots (q1 / q0) (q2 / q0) (q3 / q0) (q4 / q0) y.re)).getD 1 0,
           (sortCmplx (quarticRoots (q1 / q0) (q2 / q0) (q3 / q0) (q4 / q0) y.re)).getD 2 0,
           (sortCmplx (quarticRoots (q1 / q0) (q2 / q0) (q3 / q0) (q4 / q0) y.re)).getD 3 0)) := by
  constructor
  · intro p0 p1 p2 p3 z0 z1 z2 _ h
    rw [Poly3_monic] at h
    have hA := Poly3_im_zero _ _ _ _ _ _ h
    exact ⟨hA, selectY_cases _ _ _ hA,
      fun hΔ => Poly3_oneReal_countP (p1 / p0) (p2 / p0) (p3 / p0) hΔ z0 z1 z2 h⟩
  · intro q0 q1 q2 q3 q4 y1 y2 y3 _ hpath hP
    obtain ⟨h1, h2, h3⟩ := hpath
    have hA := Poly3_im_zero _ _ _ _ _ _ hP
    have hQ := Poly4_general q0 q1 q2 q3 q4 h1 h2 h3 y1 y2 y3 hP
    rcases selectY_cases y1 y2 y3 hA with ⟨e0, hs⟩ | ⟨_, e1, hs⟩ | ⟨_, _, e2, hs⟩
    · refine ⟨y1, by simp, e0, hs, ?_⟩
      rw [← hs]
      exact hQ
    · refine ⟨y2, by simp, e1, hs, ?_⟩
      rw [← hs]
      exact hQ
    · refine ⟨y3, by simp, e2, hs, ?_⟩
      rw [← hs]
      exact hQ

theorem cubicDelta_example_one_real :
    cubicDelta (cubicP 0 1) (cubicQ 0 1 0) > eps := by
  unfold cubicDelta cubicP cubicQ eps
  norm_num

theorem discriminant_example_one_real : discriminant 1 0 1 0 > eps := by
  unfold discriminant depressedP depressedQ cubicDelta cubicP cubicQ eps
  norm_num

/-- C20, witness: `x³ + 5 x²`, which returns `(-5, 0, 0)`; the quartic
`x⁴ - 6 x² + 8 x - 3`, whose resolvent call returns `(-2, -2, -2)`; and
`x³ + x`, with `Δ = 1/27 > ε`. -/
theorem Poly3_zero_imaginary_selected_witness :
    (((⟨-5, 0⟩ : ℂ).im = 0 ∨ (⟨0, 0⟩ : ℂ).im = 0 ∨ (⟨0, 0⟩ : ℂ).im = 0) ∧
      (((⟨-5, 0⟩ : ℂ).im = 0 ∧ selectY ⟨-5, 0⟩ ⟨0, 0⟩ ⟨0, 0⟩ = (⟨-5, 0⟩ : ℂ).re) ∨
        ((⟨-5, 0⟩ : ℂ).im ≠ 0 ∧ (⟨0, 0⟩ : ℂ).im = 0 ∧
          selectY ⟨-5, 0⟩ ⟨0, 0⟩ ⟨0, 0⟩ = (⟨0, 0⟩ : ℂ).re) ∨
        ((⟨-5, 0⟩ : ℂ).im ≠ 0 ∧ (⟨0, 0⟩ : ℂ).im ≠ 0 ∧ (⟨0, 0⟩ : ℂ).im = 0 ∧
          selectY ⟨-5, 0⟩ ⟨0, 0⟩ ⟨0, 0⟩ = (⟨0, 0⟩ : ℂ).re)) ∧
      (discriminant 1 5 0 0 > eps →
        List.countP (fun z : ℂ => decide (z.im = 0)) [⟨-5, 0⟩, ⟨0, 0⟩, ⟨0, 0⟩] = 1)) ∧
    (∃ y ∈ [(⟨-6 / 3, 0⟩ : ℂ), ⟨-6 / 3, 0⟩, ⟨-6 / 3, 0⟩], y.im = 0 ∧
      selectY ⟨-6 / 3, 0⟩ ⟨-6 / 3, 0⟩ ⟨-6 / 3, 0⟩ = y.re ∧
      Poly4 1 0 (-6) 8 (-3) = .ok
        ((sortCmplx (quarticRoots ((0 : ℝ) / 1) ((-6 : ℝ) / 1) ((8 : ℝ) / 1) ((-3 : ℝ) / 1)
          y.re)).getD 0 0,
         (sortCmplx (quarticRoots ((0 : ℝ) / 1) ((-6 : ℝ) / 1) ((8 : ℝ) / 1) ((-3 : ℝ) / 1)
          y.re)).getD 1 0,
         (sortCmplx (quarticRoots ((0 : ℝ) / 1) ((-6 : ℝ) / 1) ((8 : ℝ) / 1) ((-3 : ℝ) / 1)
          y.re)).getD 2 0,
         (sortCmplx (quarticRoots ((0 : ℝ) / 1) ((-6 : ℝ) / 1) ((8 : ℝ) / 1) ((-3 : ℝ) / 1)
          y.re)).getD 3 0)) ∧
    List.countP (fun z : ℂ => decide (z.im = 0))
      [(sortCmplx (cardanoRoots 0 (cubicQ 0 1 0)
          (cubicDelta (cubicP 0 1) (cubicQ 0 1 0)))).getD 0 0,
       (sortCmplx (cardanoRoots 0 (cubicQ 0 1 0)
          (cubicDelta (cubicP 0 1) (cubicQ 0 1 0)))).getD 1 0,
       (sortCmplx (cardanoRoots 0 (cubicQ 0 1 0)
          (cubicDelta (cubicP 0 1) (cubicQ 0 1 0)))).getD 2 0] = 1 :=
  ⟨Poly3_zero_imaginary_selected.1 1 5 0 0 _ _ _ one_ne_zero Poly3_repeated_example,
    Poly3_zero_imaginary_selected.2 1 0 (-6) 8 (-3) _ _ _ one_ne_zero
      (by unfold generalPath; norm_num) resolventCall_example,
    (Poly3_zero_imaginary_selected.1 1 0 1 0 _ _ _ one_ne_zero
      (Poly3_oneReal 0 1 0 cubicDelta_example_one_real)).2.2 discriminant_example_one_real⟩

/-- The general path away from a root of the resolvent, on
`x⁴ - 5 x² + 4 = (x² - 1)(x² - 4)`: the resolvent `y³ + 5 y² - 16 y - 80` has
the roots `-5, -4, 4`, and `y = -5` is the one that makes `R = 0`.  When the
solver called on the resolvent returns, as first value with zero imaginary
part, a real `y` with `-5 < y < -4` (however close to `-5`), the code takes
the case `R ≠ 0` with `h = 0/R = 0`, and at each of the four values returned
the quartic takes the value `(16 - y²)/4`, which is not `0`: none of them is
a root. -/
theorem Poly4With_off_root (cubic : ℝ → ℝ → ℝ → ℝ → Except Panic (ℂ × ℂ × ℂ))
    (y : ℝ) (y2 y3 : ℂ) (hy1 : -5 < y) (hy2 : y < -4)
    (hP : cubic 1 5 (-16) (-80) = .ok (⟨y, 0⟩, y2, y3)) :
    ∃ z0 z1 z2 z3 : ℂ,
      Poly4With cubic 1 0 (-5) 0 4 = .ok (z0, z1, z2, z3) ∧
      ∀ z ∈ [z0, z1, z2, z3],
        z ^ 4 - 5 * z ^ 2 + 4 = (((16 - y ^ 2) / 4 : ℝ) : ℂ) ∧ z ^ 4 - 5 * z ^ 2 + 4 ≠ 0 := by
  have hP' : cubic 1 (-((-5 : ℝ) / 1)) ((0 : ℝ) / 1 * ((0 : ℝ) / 1) - 4 * ((4 : ℝ) / 1))
      (4 * ((-5 : ℝ) / 1) * ((4 : ℝ) / 1) - (0 : ℝ) / 1 * ((0 : ℝ) / 1)
        - (0 : ℝ) / 1 * ((0 : ℝ) / 1) * ((4 : ℝ) / 1)) = .ok (⟨y, 0⟩, y2, y3) := by
    norm_num
    exact hP
  have hG := Poly4With_general cubic 1 0 (-5) 0 4 (by norm_num) (by norm_num) (by norm_num)
    ⟨y, 0⟩ y2 y3 hP'
  have hsel : selectY ⟨y, 0⟩ y2 y3 = y := by
    unfold selectY
    rw [if_pos rfl]
  rw [hsel] at hG
  have e0 : (0 : ℝ) / 1 = 0 := by norm_num
  have e5 : (-5 : ℝ) / 1 = -5 := by norm_num
  have e4 : (4 : ℝ) / 1 = 4 := by norm_num
  rw [e0, e5, e4] at hG
  have hL : (quarticRoots 0 (-5) 0 4 y).length = 4 := rfl
  refine ⟨_, _, _, _, hG, ?_⟩
  intro z hz
  have hz2 : z ∈ quarticRoots 0 (-5) 0 4 y := (sort4_perm _ hL).mem_iff.mp hz
  have hR2 : quarticR 0 (-5) y ^ 2 = 5 + (y : ℂ) := by
    rw [quarticR_sq]
    push_cast
    ring
  have hR0 : quarticR 0 (-5) y ≠ 0 := by
    intro h0
    rw [h0] at hR2
    have : ((5 + y : ℝ) : ℂ) = 0 := by
      push_cast
      rw [← hR2]
      ring
    have h5 : 5 + y = 0 := Complex.ofReal_eq_zero.mp this
    linarith
  have hH : quarticH 0 (-5) 0 y = 0 := by
    have h := quarticH_mul 0 (-5) 0 y hR0
    have h' : quarticH 0 (-5) 0 y * quarticR 0 (-5) y = 0 := by
      rw [h]
      push_cast
      ring
    rcases mul_eq_zero.mp h' with h1 | h1
    · exact h1
    · exact absurd h1 hR0
  have hF : quarticF 0 (-5) = 10 := by
    rw [quarticF_eq]
    push_cast
    ring
  have hD2 : quarticD 0 (-5) 0 4 y ^ 2 = 5 - (y : ℂ) := by
    unfold quarticD
    rw [if_neg hR0, csqrt_sq, hF, hR2, hH]
    ring
  have hE2 : quarticE 0 (-5) 0 4 y ^ 2 = 5 - (y : ℂ) := by
    unfold quarticE
    rw [if_neg hR0, csqrt_sq, hF, hR2, hH]
    ring
  have key : ∀ R D : ℂ, R ^ 2 = 5 + (y : ℂ) → D ^ 2 = 5 - (y : ℂ) →
      ∀ s t : ℂ, s ^ 2 = 1 → t ^ 2 = 1 →
      (s * R / 2 + t * D / 2) ^ 4 - 5 * (s * R / 2 + t * D / 2) ^ 2 + 4
        = (((16 - y ^ 2) / 4 : ℝ) : ℂ) := by
    intro R D hR hD s t hs ht
    have hw : (s * R * (t * D)) ^ 2 = 25 - (y : ℂ) ^ 2 := by
      have : (s * R * (t * D)) ^ 2 = s ^ 2 * t ^ 2 * (R ^ 2 * D ^ 2) := by ring
      rw [this, hs, ht, hR, hD]
      ring
    have hq : (s * R / 2 + t * D / 2) ^ 2 = (10 + 2 * (s * R * (t * D))) / 4 := by
      have : (s * R / 2 + t * D / 2) ^ 2
          = (s ^ 2 * R ^ 2 + t ^ 2 * D ^ 2 + 2 * (s * R * (t * D))) / 4 := by ring
      rw [this, hs, ht, hR, hD]
      ring
    have h4 : (s * R / 2 + t * D / 2) ^ 4 = ((s * R / 2 + t * D / 2) ^ 2) ^ 2 := by ring
    rw [h4, hq]
    push_cast
    linear_combination (1 / 4 : ℂ) * hw
  have hne : (((16 - y ^ 2) / 4 : ℝ) : ℂ) ≠ 0 := by
    rw [Ne, Complex.ofReal_eq_zero]
    have : y ^ 2 > 16 := by nlinarith
    intro h
    linarith
  have hval : z ^ 4 - 5 * z ^ 2 + 4 = (((16 - y ^ 2) / 4 : ℝ) : ℂ) := by
    unfold quarticRoots at hz2
    simp only [List.mem_cons, List.mem_singleton, List.not_mem_nil, or_false] at hz2
    rcases hz2 with rfl | rfl | rfl | rfl
    · have h := key _ _ hR2 hD2 1 1 (by norm_num) (by norm_num)
      rw [← h]
      push_cast
      ring
    · have h := key _ _ hR2 hD2 1 (-1) (by norm_num) (by norm_num)
      rw [← h]
      push_cast
      ring
    · have h := key _ _ hR2 hE2 (-1) 1 (by norm_num) (by norm_num)
      rw [← h]
      push_cast
      ring
    · have h := key _ _ hR2 hE2 (-1) (-1) (by norm_num) (by norm_num)
      rw [← h]
      push_cast
      ring
  exact ⟨hval, by rw [hval]; exact hne⟩

end Roots

/-! ## The companion matrix of the general path

These facts are stated outside `namespace Roots`: there `Polynomial` names the
embedded function, while here it names the polynomial ring in which the
characteristic polynomial lives. -/

namespace RootsCompanion

open Polynomial

theorem det_hessenberg {R : Type*} [CommRing R] (n : ℕ) :
    ∀ (B : Matrix (Fin (n + 1)) (Fin (n + 1)) R[X]),
      (∀ i j : Fin (n + 1), i.val ≠ 0 →
        B i j = if j.val = i.val then (X : R[X]) else if j.val + 1 = i.val then -1 else 0) →
      B.det = ∑ j : Fin (n + 1), B 0 j * (X : R[X]) ^ (n - j.val) := by
  induction n with
  | zero =>
    intro B _
    simp [Matrix.det_unique]
  | succ n ih =>
    intro B hB
    rw [Matrix.det_succ_column_zero, Fin.sum_univ_succ, Fin.sum_univ_succ]
    have hM0 := ih (B.submatrix (Fin.succAbove 0) Fin.succ) (by
      intro i j hi
      simp only [Matrix.submatrix_apply, Fin.succAbove_zero]
      rw [hB _ _ (by simp)]
      simp only [Fin.val_succ, add_left_inj])
    have hM1 := ih (B.submatrix (Fin.succAbove (Fin.succ 0)) Fin.succ) (by
      intro i j hi
      have hs : (Fin.succ (0 : Fin (n + 1))).succAbove i = Fin.succ i := by
        apply Fin.succAbove_of_le_castSucc
        rw [Fin.le_def]
        simp only [Fin.val_succ, Fin.val_zero, Fin.coe_castSucc]
        omega
      simp only [Matrix.submatrix_apply, hs]
      rw [hB _ _ (by simp)]
      simp only [Fin.val_succ, add_left_inj])
    have hrest : ∀ k : Fin n, B (Fin.succ (Fin.succ k)) 0 = 0 := by
      intro k
      rw [hB _ _ (by simp)]
      simp
    have hB10 : B (Fin.succ 0) 0 = -1 := by
      rw [hB _ _ (by simp)]
      simp
    have hrow0 : ∀ j : Fin (n + 1),
        B.submatrix (Fin.succAbove 0) Fin.succ 0 j = if j.val = 0 then (X : R[X]) else 0 := by
      intro j
      simp only [Matrix.submatrix_apply, Fin.succAbove_zero]
      rw [hB _ _ (by simp)]
      simp
    have hrow1 : ∀ j : Fin (n + 1),
        B.submatrix (Fin.succAbove (Fin.succ 0)) Fin.succ 0 j = B 0 (Fin.succ j) := by
      intro j
      simp only [Matrix.submatrix_apply]
      congr 1
    have e0 : (∑ j : Fin (n + 1), (if j.val = 0 then (X : R[X]) else 0) * (X : R[X]) ^ (n - j.val))
        = (X : R[X]) ^ (n + 1) := by
      rw [Fin.sum_univ_succ]
      simp [pow_succ, mul_comm]
    rw [hM0, hM1]
    simp only [hrest, hB10, hrow0, hrow1, e0]
    conv_rhs => rw [Fin.sum_univ_succ]
    simp only [Fin.val_zero, Fin.val_succ, Nat.sub_zero, Nat.add_sub_add_right, pow_zero,
      one_mul, mul_zero, zero_mul, Finset.sum_const_zero, add_zero, pow_one, neg_mul,
      neg_neg, zero_add]

theorem companion_charpoly_eq (m : ℕ) (p0 : ℝ) (rest : List ℝ) :
    (Roots.companion (m + 1) (p0 :: rest) (1 / p0)).charpoly
      = (X : ℝ[X]) ^ (m + 1)
        + ∑ j : Fin (m + 1), C (rest.getD j.val 0 / p0) * (X : ℝ[X]) ^ (m - j.val) := by
  unfold Matrix.charpoly
  rw [det_hessenberg m _ (by
    intro i j hi
    rw [Matrix.charmatrix_apply]
    unfold Roots.companion
    simp only [Matrix.of_apply, if_neg hi, Matrix.diagonal_apply]
    by_cases h1 : j.val = i.val
    · have h2 : ¬ j.val = i.val - 1 := by omega
      have h3 : i = j := Fin.ext h1.symm
      rw [if_pos h3, if_neg h2, if_pos h1, C_0, sub_zero]
    · have h3 : ¬ i = j := fun h => h1 (by rw [h])
      by_cases h4 : j.val + 1 = i.val
      · have h5 : j.val = i.val - 1 := by omega
        rw [if_neg h3, if_pos h5, if_neg h1, if_pos h4, C_1, zero_sub]
      · have h5 : ¬ j.val = i.val - 1 := by omega
        rw [if_neg h3, if_neg h5, if_neg h1, if_neg h4, C_0, sub_zero])]
  have hrow : ∀ j : Fin (m + 1),
      Matrix.charmatrix (Roots.companion (m + 1) (p0 :: rest) (1 / p0)) 0 j
        = (if j.val = 0 then (X : ℝ[X]) else 0) + C (rest.getD j.val 0 / p0) := by
    intro j
    rw [Matrix.charmatrix_apply]
    unfold Roots.companion
    simp only [Matrix.of_apply, Fin.val_zero, if_true, Matrix.diagonal_apply, List.drop_one,
      List.tail_cons]
    have e : rest.getD j.val 0 * -(1 / p0) = -(rest.getD j.val 0 / p0) := by ring
    rw [e, C_neg, sub_neg_eq_add]
    by_cases h : j.val = 0
    · have h2 : (0 : Fin (m + 1)) = j := Fin.ext h.symm
      simp [h, h2]
    · have h2 : ¬ (0 : Fin (m + 1)) = j := fun h2 => h (by rw [← h2]; rfl)
      simp [h, h2]
  simp only [hrow, add_mul, Finset.sum_add_distrib]
  congr 1
  rw [Fin.sum_univ_succ]
  simp [pow_succ, mul_comm]

theorem eigenvalue_iff_root {n : ℕ} (A : Matrix (Fin n) (Fin n) ℝ) (μ : ℂ) :
    (∃ v : Fin n → ℂ, v ≠ 0 ∧ (A.map Complex.ofRealHom).mulVec v = μ • v) ↔
      (A.charpoly.map Complex.ofRealHom).eval μ = 0 := by
  rw [← Matrix.charpoly_map]
  have he : eval μ (A.map Complex.ofRealHom).charpoly
      = (Matrix.scalar (Fin n) μ - A.map Complex.ofRealHom).det := by
    rw [Matrix.charpoly, Matrix.eval_det, Matrix.matPolyEquiv_charmatrix]
    simp
  rw [he, ← Matrix.exists_mulVec_eq_zero_iff]
  have hs : ∀ v : Fin n → ℂ,
      (Matrix.scalar (Fin n) μ - A.map Complex.ofRealHom).mulVec v
        = μ • v - (A.map Complex.ofRealHom).mulVec v := by
    intro v
    rw [Matrix.sub_mulVec]
    congr 1
    ext i
    simp [Matrix.mulVec, Matrix.dotProduct, Matrix.scalar_apply, Matrix.diagonal_apply]
  constructor
  · rintro ⟨v, hv, h⟩
    exact ⟨v, hv, by rw [hs, h, sub_self]⟩
  · rintro ⟨v, hv, h⟩
    rw [hs] at h
    exact ⟨v, hv, (sub_eq_zero.mp h).symm⟩

theorem companion_root_iff (m : ℕ) (p0 : ℝ) (rest : List ℝ) (hp0 : p0 ≠ 0) (μ : ℂ) :
    (((Roots.companion (m + 1) (p0 :: rest) (1 / p0)).charpoly).map Complex.ofRealHom).eval μ = 0
      ↔ (p0 : ℂ) * μ ^ (m + 1)
          + ∑ j : Fin (m + 1), ((rest.getD j.val 0 : ℝ) : ℂ) * μ ^ (m - j.val) = 0 := by
  have hc : (p0 : ℂ) ≠ 0 := Complex.ofReal_ne_zero.mpr hp0
  rw [companion_charpoly_eq]
  simp only [Polynomial.map_add, Polynomial.map_pow, Polynomial.map_X, Polynomial.map_sum,
    Polynomial.map_mul, Polynomial.map_C, eval_add, eval_pow, eval_X, eval_finset_sum,
    eval_mul, eval_C, Complex.ofRealHom_eq_coe, Complex.ofReal_div]
  have e : (p0 : ℂ) * μ ^ (m + 1)
      + ∑ j : Fin (m + 1), ((rest.getD j.val 0 : ℝ) : ℂ) * μ ^ (m - j.val)
      = (p0 : ℂ) * (μ ^ (m + 1)
        + ∑ j : Fin (m + 1), ((rest.getD j.val 0 : ℝ) : ℂ) / (p0 : ℂ) * μ ^ (m - j.val)) := by
    rw [mul_add, Finset.mul_sum]
    congr 1
    apply Finset.sum_congr rfl
    intro j _
    field_simp
  rw [e, mul_eq_zero]
  exact ⟨fun h => Or.inr h, fun h => h.resolve_left hc⟩

theorem companion_first_row (m : ℕ) (p0 : ℝ) (rest : List ℝ) (hlen : rest.length = m + 1) :
    List.ofFn (fun j : Fin (m + 1) => Roots.companion (m + 1) (p0 :: rest) (1 / p0) 0 j)
      = rest.map (fun p => -p / p0) := by
  apply List.ext_getElem
  · simp [hlen]
  · intro i h1 h2
    have h3 : i < rest.length := by simpa using h2
    simp only [List.getElem_ofFn, List.getElem_map]
    unfold Roots.companion
    simp only [Matrix.of_apply, Fin.val_zero, if_true, List.drop_one, List.tail_cons]
    rw [List.getD_eq_getElem _ _ h3]
    ring

theorem companion_subdiagonal (n : ℕ) (ps : List ℝ) (norm : ℝ) (i j : Fin n)
    (hi : i.val ≠ 0) :
    (j.val + 1 = i.val → Roots.companion n ps norm i j = 1) ∧
    (j.val + 1 ≠ i.val → Roots.companion n ps norm i j = 0) := by
  unfold Roots.companion
  simp only [Matrix.of_apply, if_neg hi]
  constructor
  · intro h
    rw [if_pos (by omega)]
  · intro h
    rw [if_neg (by omega)]

/-- C18: on coefficients with first nonzero entry `p0` followed by `n = m + 5`
further entries `p[1..n]`, the matrix on which `Polynomial` calls the
eigenvalue routine is `companion n (p0 :: rest) (1/p0)` (the returned list is
the sorted eigenvalues it reports); its first row is
`(-p[1]/p0, ..., -p[n]/p0)`, every row `i ≥ 1` has `1` at column `i - 1` and
`0` elsewhere; its characteristic polynomial is
`x^n + (p[1]/p0) x^(n-1) + ... + p[n]/p0`; and a complex number is an
eigenvalue of the matrix exactly when it is a root of
`p0 x^n + p[1] x^(n-1) + ... + p[n]`. -/
theorem Polynomial_companion_matrix
    (eigen : (n : ℕ) → Matrix (Fin n) (Fin n) ℝ → Option (Fin n → ℂ))
    (k m : ℕ) (p0 : ℝ) (rest : List ℝ) (hp0 : p0 ≠ 0) (hlen : rest.length = m + 5) :
    (∀ vals, eigen (m + 5) (Roots.companion (m + 5) (p0 :: rest) (1 / p0)) = some vals →
      Roots.Polynomial eigen none (List.replicate k 0 ++ p0 :: rest)
        = .ok (Roots.sortCmplx (List.ofFn vals))) ∧
    (eigen (m + 5) (Roots.companion (m + 5) (p0 :: rest) (1 / p0)) = none →
      Roots.Polynomial eigen none (List.replicate k 0 ++ p0 :: rest)
        = .ok (Roots.sortCmplx (List.replicate (m + 5) 0))) ∧
    List.ofFn (fun j : Fin (m + 5) => Roots.companion (m + 5) (p0 :: rest) (1 / p0) 0 j)
      = rest.map (fun p => -p / p0) ∧
    (∀ i j : Fin (m + 5), i.val ≠ 0 →
      (j.val + 1 = i.val → Roots.companion (m + 5) (p0 :: rest) (1 / p0) i j = 1) ∧
      (j.val + 1 ≠ i.val → Roots.companion (m + 5) (p0 :: rest) (1 / p0) i j = 0)) ∧
    (Roots.companion (m + 5) (p0 :: rest) (1 / p0)).charpoly
      = (X : ℝ[X]) ^ (m + 5)
        + ∑ j : Fin (m + 5), C (rest.getD j.val 0 / p0) * (X : ℝ[X]) ^ (m + 4 - j.val) ∧
    ∀ μ : ℂ,
      (∃ v : Fin (m + 5) → ℂ, v ≠ 0 ∧
        ((Roots.companion (m + 5) (p0 :: rest) (1 / p0)).map Complex.ofRealHom).mulVec v
          = μ • v) ↔
      (p0 : ℂ) * μ ^ (m + 5)
        + ∑ j : Fin (m + 5), ((rest.getD j.val 0 : ℝ) : ℂ) * μ ^ (m + 4 - j.val) = 0 := by
  refine ⟨?_, ?_, companion_first_row (m + 4) p0 rest hlen,
    fun i j hi => companion_subdiagonal _ _ _ i j hi,
    companion_charpoly_eq (m + 4) p0 rest, ?_⟩
  · intro vals h
    rw [Roots.Polynomial_nil_eq eigen k p0 rest hp0, hlen]
    unfold Roots.Polynomial.switch
    simp only [h]
  · intro h
    rw [Roots.Polynomial_nil_eq eigen k p0 rest hp0, hlen]
    unfold Roots.Polynomial.switch
    simp only [h]
  · intro μ
    rw [eigenvalue_iff_root]
    exact companion_root_iff (m + 4) p0 rest hp0 μ

/-- C18, witness: `x⁵ - 1`, with an eigenvalue routine that reports failure. -/
theorem Polynomial_companion_matrix_witness :
    (∀ vals : Fin (0 + 5) → ℂ, (none : Option (Fin (0 + 5) → ℂ)) = some vals →
      Roots.Polynomial (fun _ _ => none) none (List.replicate 0 0 ++ 1 :: [0, 0, 0, 0, -1])
        = .ok (Roots.sortCmplx (List.ofFn vals))) ∧
    ((none : Option (Fin (0 + 5) → ℂ)) = none →
      Roots.Polynomial (fun _ _ => none) none (List.replicate 0 0 ++ 1 :: [0, 0, 0, 0, -1])
        = .ok (Roots.sortCmplx (List.replicate (0 + 5) 0))) ∧
    List.ofFn (fun j : Fin (0 + 5) =>
        Roots.companion (0 + 5) (1 :: [0, 0, 0, 0, -1]) (1 / 1) 0 j)
      = [0, 0, 0, 0, -1].map (fun p => -p / 1) ∧
    (∀ i j : Fin (0 + 5), i.val ≠ 0 →
      (j.val + 1 = i.val → Roots.companion (0 + 5) (1 :: [0, 0, 0, 0, -1]) (1 / 1) i j = 1) ∧
      (j.val + 1 ≠ i.val → Roots.companion (0 + 5) (1 :: [0, 0, 0, 0, -1]) (1 / 1) i j = 0)) ∧
    (Roots.companion (0 + 5) (1 :: [0, 0, 0, 0, -1]) (1 / 1)).charpoly
      = (X : ℝ[X]) ^ (0 + 5)
        + ∑ j : Fin (0 + 5), C (([0, 0, 0, 0, -1] : List ℝ).getD j.val 0 / 1)
            * (X : ℝ[X]) ^ (0 + 4 - j.val) ∧
    ∀ μ : ℂ,
      (∃ v : Fin (0 + 5) → ℂ, v ≠ 0 ∧
        ((Roots.companion (0 + 5) (1 :: [0, 0, 0, 0, -1]) (1 / 1)).map
          Complex.ofRealHom).mulVec v = μ • v) ↔
      ((1 : ℝ) : ℂ) * μ ^ (0 + 5)
        + ∑ j : Fin (0 + 5), ((([0, 0, 0, 0, -1] : List ℝ).getD j.val 0 : ℝ) : ℂ)
            * μ ^ (0 + 4 - j.val) = 0 :=
  Polynomial_companion_matrix (fun _ _ => none) 0 0 1 [0, 0, 0, 0, -1] one_ne_zero rfl

end RootsCompanion

end
